import Mathlib

/-!
Verification of the sharded LRU cache implementation (cache.cc).

The development shallowly embeds the C++ source: the murmur-style `Hash`
function, the open-chaining `HandleTable`, a single cache shard
(`LRUCacheImpl`, here `Shard`) with its recency list, usage counter and
reference-counted entries, and the sharded layer's key handling and
`NewId` counter.  Machine integers are modelled as `Nat` with explicit
`% 2^32` / `% 2^64` where overflow matters; destructor invocations are
recorded in an event log carrying the entry identity.
-/

set_option autoImplicit false

namespace LruCache

/-! ### The hash function (cache.cc, `Hash`) -/

/-- 2^32, the modulus of `uint32_t` arithmetic. -/
def M32 : Nat := 4294967296

/-- 2^64, the modulus of `uint64_t` arithmetic. -/
def M64 : Nat := 18446744073709551615 + 1

/-- The murmur-style multiplier `m = 0xc6a4a793`. -/
def hashM : Nat := 0xc6a4a793

/-- Value of a `char` read as a (typically signed) C `char` and promoted to
`int`: bytes `128..255` become negative. -/
def sbyte (b : Nat) : Int := if b < 128 then (b : Int) else (b : Int) - 256

/-- `uint32_t` addition of a possibly negative `int` summand (wrapping). -/
def addS (h : Nat) (i : Int) : Nat := (((h : Int) + i) % (M32 : Int)).toNat

/-- Little-endian decoding of four bytes into a 32-bit word
(`memcpy` into a `uint32_t` / `DecodeFixed32`). -/
def word32 (b0 b1 b2 b3 : Nat) : Nat :=
  b0 + 256 * b1 + 65536 * b2 + 16777216 * b3

/-- One iteration of the word loop of `Hash`:
`h += w; h *= m; h ^= (h >> 16);` — note the shift is 16, not `r = 24`. -/
def mixWord (h w : Nat) : Nat :=
  let h1 := (h + w) % M32
  let h2 := (h1 * hashM) % M32
  h2 ^^^ (h2 >>> 16)

/-- The final `h *= m; h ^= (h >> r);` with `r = 24` of the trailing-byte
switch of `Hash`. -/
def finalMix (h : Nat) : Nat :=
  let h2 := (h * hashM) % M32
  h2 ^^^ (h2 >>> 24)

/-- The trailing-byte `switch` of `Hash`: 0–3 remaining bytes are folded in
big-endian-style (`data[2] << 16`, `data[1] << 8`, `data[0]`), then the
final multiply and 24-bit shift-XOR run; nothing happens for 0 bytes. -/
def hashTail (h : Nat) : List Nat → Nat
  | [] => h
  | [b0] => finalMix (addS h (sbyte b0))
  | [b0, b1] => finalMix (addS (addS h (sbyte b1 * 256)) (sbyte b0))
  | [b0, b1, b2] =>
      finalMix (addS (addS (addS h (sbyte b2 * 65536)) (sbyte b1 * 256)) (sbyte b0))
  | _ => h

/-- The word loop of `Hash`: consume 4 bytes at a time while at least 4
remain, then fall through to the trailing-byte switch. -/
def hashLoop (h : Nat) : List Nat → Nat
  | b0 :: b1 :: b2 :: b3 :: rest => hashLoop (mixWord h (word32 b0 b1 b2 b3)) rest
  | rest => hashTail h rest

/-- `Hash(data, n, seed)` from cache.cc: state seeded with
`seed ^ (n * m)` (truncated to 32 bits), then the word loop and the
trailing-byte fold. -/
def hashBytes (data : List Nat) (seed : Nat) : Nat :=
  hashLoop ((seed ^^^ (data.length * hashM)) % M32) data

/-! Specification-shaped restatements of the hash algorithm, used to compare
the implementation against the claim's wording.  `toWords` splits the input
into its complete little-endian 4-byte words and the 0–3 trailing bytes. -/

def toWords : List Nat → List Nat × List Nat
  | b0 :: b1 :: b2 :: b3 :: rest =>
      let p := toWords rest
      (word32 b0 b1 b2 b3 :: p.1, p.2)
  | rest => ([], rest)

/-- Modelled from the spec: one word step as claim C5 words it, with an
XOR-shift of 24 bits (the implementation uses 16 here). -/
def mixWordClaim (h w : Nat) : Nat :=
  let h1 := (h + w) % M32
  let h2 := (h1 * hashM) % M32
  h2 ^^^ (h2 >>> 24)

/-- Modelled from the spec: the hash algorithm exactly as claim C5 describes
it — initialize with `seed XOR (length * m)`, per 4-byte word add, multiply,
and XOR-shift right by **24**, then fold the trailing bytes. -/
def hashClaim (data : List Nat) (seed : Nat) : Nat :=
  let p := toWords data
  hashTail (p.1.foldl mixWordClaim ((seed ^^^ (data.length * hashM)) % M32)) p.2

/-- The hash algorithm as amended: identical to `hashClaim` except that the
per-word XOR-shift is 16 bits, matching the implementation. -/
def hashAmended (data : List Nat) (seed : Nat) : Nat :=
  let p := toWords data
  hashTail (p.1.foldl mixWord ((seed ^^^ (data.length * hashM)) % M32)) p.2

/-! ### C-string keys

Keys are `const char*`; `strlen`, `strcpy` and `strcmp` all stop at the
first NUL byte, so the key actually used is the prefix before the first 0. -/

/-- The bytes of a C string before its first NUL terminator
(`strlen`/`strcpy`/`strcmp` semantics). -/
def cstr : List Nat → List Nat
  | [] => []
  | b :: bs => if b = 0 then [] else b :: cstr bs

/-! ### The handle table (cache.cc, `HandleTable`) -/

/-- The fields of an `LRUHandle` that the handle table reads through its
chain pointers: the entry identity and its immutable key and hash. -/
structure TEntry where
  eid : Nat
  key : List Nat
  hash : Nat
deriving DecidableEq, Repr

/-- `FindPointer` restricted to one bucket chain: the first entry whose
stored hash equals the probe hash and whose stored key compares equal. -/
def chainFind (key : List Nat) (hash : Nat) : List TEntry → Option TEntry
  | [] => none
  | te :: rest =>
      if te.hash = hash ∧ te.key = key then some te else chainFind key hash rest

/-- `HandleTable::Insert` restricted to one bucket chain: walk to the first
matching entry; if found, the new entry takes over its slot and its
`next_hash` (in-place splice) and the old entry is returned; otherwise the
new entry is written into the trailing NULL slot, i.e. appended at the
tail. -/
def chainInsert (e : TEntry) : List TEntry → List TEntry × Option TEntry
  | [] => ([e], none)
  | te :: rest =>
      if te.hash = e.hash ∧ te.key = e.key then (e :: rest, some te)
      else
        let p := chainInsert e rest
        (te :: p.1, p.2)

/-- `HandleTable::Remove` restricted to one bucket chain: unlink and return
the first matching entry, if any. -/
def chainRemove (key : List Nat) (hash : Nat) : List TEntry → List TEntry × Option TEntry
  | [] => ([], none)
  | te :: rest =>
      if te.hash = hash ∧ te.key = key then (rest, some te)
      else
        let p := chainRemove key hash rest
        (te :: p.1, p.2)

/-- The open-chaining hash table: `length_` buckets (a power of two),
`elems_` chained entries, bucket `i` holding the chain rooted at
`list_[i]`. -/
structure HandleTable where
  length : Nat
  elems : Nat
  buckets : List (List TEntry)
deriving DecidableEq, Repr

/-- The freshly constructed table: 4 empty buckets (the constructor calls
`Resize()` with `elems_ = 0`, which allocates length 4). -/
def HandleTable.init : HandleTable :=
  { length := 4, elems := 0, buckets := [[], [], [], []] }

/-- The bucket a hash selects: `list_[hash & (length_ - 1)]`. -/
def HandleTable.bucketOf (t : HandleTable) (hash : Nat) : List TEntry :=
  t.buckets.getD (hash &&& (t.length - 1)) []

/-- `HandleTable::Lookup`. -/
def HandleTable.lookup (t : HandleTable) (key : List Nat) (hash : Nat) : Option TEntry :=
  chainFind key hash (t.bucketOf hash)

/-- The `Resize` doubling loop: `new_length = 4; while (new_length < elems) new_length *= 2;`
(run with enough fuel; `elems` doublings always suffice). -/
def growLen : Nat → Nat → Nat → Nat
  | 0, l, _ => l
  | fuel + 1, l, target => if l < target then growLen fuel (2 * l) target else l

/-- Splice one entry at the head of its bucket in a table of `n` buckets
(the rehash step of `Resize`). -/
def spliceInto (n : Nat) (bs : List (List TEntry)) (e : TEntry) : List (List TEntry) :=
  let i := e.hash &&& (n - 1)
  bs.set i (e :: bs.getD i [])

/-- `HandleTable::Resize`: grow the length, then walk the old buckets in
order, splicing every chain entry (head to tail) at the head of its new
bucket. -/
def HandleTable.resize (t : HandleTable) : HandleTable :=
  let n := growLen t.elems 4 t.elems
  let nb := t.buckets.foldl (fun acc chain => chain.foldl (spliceInto n) acc)
      (List.replicate n [])
  { length := n, elems := t.elems, buckets := nb }

/-- `HandleTable::Insert`: splice into the bucket chain; a displaced prior
same-key entry is returned; with no prior entry the element count is
incremented and a resize triggers once `elems_ > length_`. -/
def HandleTable.insert (t : HandleTable) (e : TEntry) : HandleTable × Option TEntry :=
  let i := e.hash &&& (t.length - 1)
  let p := chainInsert e (t.buckets.getD i [])
  let t1 : HandleTable := { t with buckets := t.buckets.set i p.1 }
  match p.2 with
  | some o => (t1, some o)
  | none =>
      let t2 : HandleTable := { t1 with elems := t1.elems + 1 }
      if t2.length < t2.elems then (t2.resize, none) else (t2, none)

/-- `HandleTable::Remove`. -/
def HandleTable.remove (t : HandleTable) (key : List Nat) (hash : Nat) :
    HandleTable × Option TEntry :=
  let i := hash &&& (t.length - 1)
  let p := chainRemove key hash (t.buckets.getD i [])
  match p.2 with
  | none => ({ t with buckets := t.buckets.set i p.1 }, none)
  | some te =>
      ({ t with buckets := t.buckets.set i p.1, elems := t.elems - 1 }, some te)

/-- All entries chained anywhere in the table. -/
def tEntries (t : HandleTable) : List TEntry := t.buckets.flatten

/-! ### A cache shard (cache.cc, `LRUCacheImpl`) -/

/-- A live `LRUHandle`: identity, immutable key/hash/value/charge, and the
mutable reference count. -/
structure Entry where
  eid : Nat
  key : List Nat
  hash : Nat
  value : Nat
  charge : Nat
  refs : Nat
deriving DecidableEq, Repr

/-- A destructor invocation `(*deleter)(key, value)`, tagged with the entry
identity so that per-entry destruction can be stated. -/
structure DEvent where
  eid : Nat
  key : List Nat
  value : Nat
deriving DecidableEq, Repr

/-- One shard: capacity, usage counter, the recency list as entry ids
(oldest first — `lru_.next` — to newest — `lru_.prev`), the handle table,
the heap of live (refcount `> 0`) entries, an allocation counter, and the
log of destructor invocations. -/
structure Shard where
  capacity : Nat
  usage : Nat
  lru : List Nat
  table : HandleTable
  heap : List Entry
  nextEid : Nat
  events : List DEvent
deriving DecidableEq, Repr

/-- A freshly constructed shard with the given capacity. -/
def Shard.init (cap : Nat) : Shard :=
  { capacity := cap, usage := 0, lru := [], table := HandleTable.init,
    heap := [], nextEid := 0, events := [] }

/-- Find a live entry by id. -/
def findE (eid : Nat) : List Entry → Option Entry
  | [] => none
  | e :: es => if e.eid = eid then some e else findE eid es

/-- Decrement the reference count of the entry with the given id. -/
def decRef (eid : Nat) : List Entry → List Entry
  | [] => []
  | e :: es =>
      if e.eid = eid then { e with refs := e.refs - 1 } :: decRef eid es
      else e :: decRef eid es

/-- Increment the reference count of the entry with the given id
(`e->refs++` on a lookup hit). -/
def incRef (eid : Nat) : List Entry → List Entry
  | [] => []
  | e :: es =>
      if e.eid = eid then { e with refs := e.refs + 1 } :: incRef eid es
      else e :: incRef eid es

/-- Deallocate (drop from the heap) the entry with the given id. -/
def dropE (eid : Nat) : List Entry → List Entry
  | [] => []
  | e :: es => if e.eid = eid then dropE eid es else e :: dropE eid es

/-- `LRU_Remove(e)`: unlink the (unique) node with this id from the recency
list. -/
def lruRemove (eid : Nat) : List Nat → List Nat
  | [] => []
  | x :: xs => if x = eid then xs else x :: lruRemove eid xs

/-- `LRUCacheImpl::Unref`: decrement the refcount; on reaching zero,
subtract the charge from usage, invoke the deleter with `(key, value)` and
free the entry. -/
def Shard.unref (s : Shard) (eid : Nat) : Shard :=
  match findE eid s.heap with
  | none => s
  | some e =>
      if e.refs ≤ 1 then
        { s with usage := s.usage - e.charge,
                 heap := dropE eid s.heap,
                 events := s.events ++ [⟨e.eid, e.key, e.value⟩] }
      else { s with heap := decRef eid s.heap }

/-- `LRUCacheImpl::Lookup`: consult the table; on a hit, increment the
refcount and move the entry to the newest end of the recency list; return
the handle (entry id) or a miss. -/
def Shard.lookupOp (s : Shard) (key : List Nat) (hash : Nat) : Shard × Option Nat :=
  match s.table.lookup key hash with
  | none => (s, none)
  | some te =>
      ({ s with heap := incRef te.eid s.heap,
                lru := lruRemove te.eid s.lru ++ [te.eid] }, some te.eid)

/-- `LRUCacheImpl::Release`. -/
def Shard.release (s : Shard) (eid : Nat) : Shard := s.unref eid

/-- One iteration body of the eviction loop of `Insert`: take the oldest
entry (`lru_.next`), unlink it from the list, remove its key from the
table, and drop its in-cache reference. -/
def evictOne (s : Shard) : Shard :=
  match s.lru with
  | [] => s
  | oldEid :: rest =>
      match findE oldEid s.heap with
      | none => s
      | some oe =>
          Shard.unref
            { s with lru := rest, table := (s.table.remove oe.key oe.hash).1 } oldEid

/-- `n` iterations of the eviction loop body. -/
def evictN : Nat → Shard → Shard
  | 0, s => s
  | n + 1, s => evictN n (evictOne s)

/-- The eviction loop of `Insert`, with fuel:
`while (usage_ > capacity_ && lru_.next != &lru_) { ...evict oldest... }`. -/
def evictSteps : Nat → Shard → Shard
  | 0, s => s
  | n + 1, s =>
      if s.usage ≤ s.capacity then s
      else
        match s.lru with
        | [] => s
        | oldEid :: rest =>
            match findE oldEid s.heap with
            | none => s
            | some oe =>
                evictSteps n (Shard.unref
                  { s with lru := rest, table := (s.table.remove oe.key oe.hash).1 } oldEid)

/-- The eviction loop (each iteration shortens the recency list by one, so
its length is enough fuel). -/
def evictLoop (s : Shard) : Shard := evictSteps s.lru.length s

/-- `LRUCacheImpl::Insert`: allocate the entry with refcount 2, append it at
the newest end of the list, add its charge to usage, insert it into the
table (unlinking and unref-ing a displaced prior same-key entry), then run
the eviction loop; the new entry id is the returned handle. -/
def Shard.insertOp (s : Shard) (key : List Nat) (hash value charge : Nat) : Shard × Nat :=
  let eid := s.nextEid
  let e : Entry := ⟨eid, key, hash, value, charge, 2⟩
  let s1 : Shard := { s with heap := s.heap ++ [e], lru := s.lru ++ [eid],
                             usage := s.usage + charge, nextEid := eid + 1 }
  let p := s1.table.insert ⟨eid, key, hash⟩
  let s2 : Shard := { s1 with table := p.1 }
  let s3 : Shard :=
    match p.2 with
    | none => s2
    | some o => Shard.unref { s2 with lru := lruRemove o.eid s2.lru } o.eid
  (evictLoop s3, eid)

/-- `LRUCacheImpl::Erase`: remove from the table; if an entry was removed,
unlink it from the recency list and drop its in-cache reference. -/
def Shard.eraseOp (s : Shard) (key : List Nat) (hash : Nat) : Shard :=
  let p := s.table.remove key hash
  match p.2 with
  | none => s
  | some te => Shard.unref { s with table := p.1, lru := lruRemove te.eid s.lru } te.eid

/-- The sum of the charges of the entries currently in the recency list
(the "in-cache" entries, as claims C1/C2 measure usage). -/
def inCacheSum (s : Shard) : Nat :=
  ((s.heap.filter (fun e => s.lru.contains e.eid)).map Entry.charge).sum

/-! ### The sharded layer (cache.cc, `ShardedLRUCache`) -/

/-- `HashSlice`: hash the bytes up to the first NUL with seed 0. -/
def hashSlice (raw : List Nat) : Nat := hashBytes (cstr raw) 0

/-- Shard routing: the top `kNumShardBits = 4` bits of the hash. -/
def shardOf (hash : Nat) : Nat := hash >>> 28

/-- `ShardedLRUCache::Insert` as seen through one key: apply C-string
truncation, hash once with seed 0, and delegate to the selected shard. -/
def cacheInsert (s : Shard) (raw : List Nat) (value charge : Nat) : Shard × Nat :=
  s.insertOp (cstr raw) (hashSlice raw) value charge

/-- `ShardedLRUCache::Lookup` through one shard. -/
def cacheLookup (s : Shard) (raw : List Nat) : Shard × Option Nat :=
  s.lookupOp (cstr raw) (hashSlice raw)

/-- `ShardedLRUCache::Erase` through one shard. -/
def cacheErase (s : Shard) (raw : List Nat) : Shard :=
  s.eraseOp (cstr raw) (hashSlice raw)

/-- `ShardedLRUCache::NewId`: `return ++(last_id_);` on a `uint64_t`
counter starting at 0. -/
def newId (lastId : Nat) : Nat × Nat :=
  let v := (lastId + 1) % M64
  (v, v)

/-- The id counter state after `n` calls to `NewId` (the value returned by
the `n`-th call, `n ≥ 1`, is the state after `n` calls). -/
def idState : Nat → Nat
  | 0 => 0
  | n + 1 => (newId (idState n)).1

/-! ### Derived observations and invariants -/

/-- The value a caller reads from a `Lookup` hit followed by `Value(handle)`
(the handle dereferences `->value`); `none` on a miss. -/
def lookupValue (s : Shard) (key : List Nat) (hash : Nat) : Option Nat :=
  match s.table.lookup key hash with
  | none => none
  | some te =>
      match findE te.eid s.heap with
      | none => none
      | some e => some e.value

/-- The entry ids of the logged destructor invocations. -/
def eventEids (s : Shard) : List Nat := s.events.map DEvent.eid

/-- Destructor-lifecycle invariant: every destructor ran for a distinct,
previously allocated entry, and no live entry has had its destructor run. -/
def EInv (s : Shard) : Prop :=
  (eventEids s).Nodup ∧
  (∀ e ∈ s.heap, e.eid ∉ eventEids s) ∧
  (∀ x ∈ eventEids s, x < s.nextEid) ∧
  (∀ e ∈ s.heap, e.eid < s.nextEid) ∧
  (s.heap.map Entry.eid).Nodup

/-- Structural invariant of the handle table: the bucket array has
`length_` buckets, each entry sits in the bucket its hash selects, and no
two chained entries share the same (key, hash) pair. -/
def TblInv (t : HandleTable) : Prop :=
  t.buckets.length = t.length ∧
  1 ≤ t.length ∧
  ((tEntries t).map (fun te => (te.key, te.hash))).Nodup ∧
  t.elems = (tEntries t).length ∧
  ∀ i ∈ List.range t.length, ∀ te ∈ t.buckets.getD i [], te.hash &&& (t.length - 1) = i

/-- Shard invariant: the usage counter is the sum of the charges of all
live entries, entry ids are unique and below the allocation counter, every
live entry has at least one reference, the recency list has no duplicates,
the table is structurally sound, every chained table entry mirrors a live
heap entry, and the table contents and the recency list hold exactly the
same entry ids. -/
def SInv (s : Shard) : Prop :=
  s.usage = (s.heap.map Entry.charge).sum ∧
  (s.heap.map Entry.eid).Nodup ∧
  (∀ e ∈ s.heap, e.eid < s.nextEid ∧ 1 ≤ e.refs) ∧
  s.lru.Nodup ∧
  TblInv s.table ∧
  (∀ te ∈ tEntries s.table, ∃ e ∈ s.heap,
      e.eid = te.eid ∧ e.key = te.key ∧ e.hash = te.hash) ∧
  ((tEntries s.table).map TEntry.eid).Perm s.lru

/-! ### Single-key operation traces (for claim C3)

A trace of `Insert`/`Lookup`/`Erase`/`Release` calls all using one raw key.
Each executed operation appends one handle slot: `Insert` always yields a
handle, `Lookup` yields one on a hit, and `Release i` consumes the (not yet
released) handle produced by the `i`-th operation of the trace.  The `ok`
flag records whether usage stayed within capacity after every operation. -/

inductive KOp where
  | ins (v : Nat) (c : Nat)
  | look
  | er
  | rel (i : Nat)
deriving DecidableEq, Repr

structure KState where
  shard : Shard
  handles : List (Option Nat)
  ok : Bool
deriving DecidableEq, Repr

def kInit (cap : Nat) : KState :=
  { shard := Shard.init cap, handles := [], ok := true }

def kStep (raw : List Nat) (st : KState) : KOp → KState
  | .ins v c =>
      let p := cacheInsert st.shard raw v c
      { shard := p.1, handles := st.handles ++ [some p.2],
        ok := st.ok && decide (p.1.usage ≤ p.1.capacity) }
  | .look =>
      let p := cacheLookup st.shard raw
      { shard := p.1, handles := st.handles ++ [p.2],
        ok := st.ok && decide (p.1.usage ≤ p.1.capacity) }
  | .er =>
      let s2 := cacheErase st.shard raw
      { shard := s2, handles := st.handles ++ [none],
        ok := st.ok && decide (s2.usage ≤ s2.capacity) }
  | .rel i =>
      match st.handles.getD i none with
      | none => { st with handles := st.handles ++ [none] }
      | some eid =>
          let s2 := st.shard.release eid
          { shard := s2, handles := st.handles.set i none ++ [none],
            ok := st.ok && decide (s2.usage ≤ s2.capacity) }

def kRun (raw : List Nat) (st : KState) (ops : List KOp) : KState :=
  ops.foldl (kStep raw) st

/-- The specification-side answer for a single-key trace: the value of the
most recent `Insert` not superseded by a later `Insert` of the key and not
removed by `Erase`. -/
def lastBinding (ops : List KOp) : Option Nat :=
  ops.foldl
    (fun acc op =>
      match op with
      | .ins v _ => some v
      | .er => none
      | _ => acc) none

/-- The number of outstanding (unreleased) handle slots that point at the
given entry id. -/
def handleCount (hs : List (Option Nat)) (eid : Nat) : Nat :=
  match hs with
  | [] => 0
  | o :: rest => (if o = some eid then 1 else 0) + handleCount rest eid

/-- One step of the specification-side binding underlying `lastBinding`. -/
def bStep (acc : Option Nat) : KOp → Option Nat
  | .ins v _ => some v
  | .er => none
  | .look => acc
  | .rel _ => acc

/-- The single-key run invariant: the shard is well formed with the fixed
capacity, every live entry carries the (truncated) key and its hash, every
entry's reference count is the number of outstanding handles on it plus one
if it is still in the recency list, every pointed-at handle target is live,
and the handle table holds exactly the entry of the current binding (or
nothing when the key is unbound). -/
def KInv (raw : List Nat) (cap : Nat) (st : KState) (b : Option Nat) : Prop :=
  SInv st.shard ∧
  st.shard.capacity = cap ∧
  (∀ e ∈ st.shard.heap, e.key = cstr raw ∧ e.hash = hashSlice raw ∧
      e.refs = handleCount st.handles e.eid +
        (if e.eid ∈ st.shard.lru then 1 else 0)) ∧
  (∀ eid : Nat, 1 ≤ handleCount st.handles eid → ∃ e ∈ st.shard.heap, e.eid = eid) ∧
  (match b with
   | none => tEntries st.shard.table = []
   | some v => ∃ te e, tEntries st.shard.table = [te] ∧
       e ∈ st.shard.heap ∧ e.eid = te.eid ∧ e.value = v)

/-! ### Whole-shard operation traces (for claim C4) -/

inductive COp where
  | ins (k : List Nat) (v : Nat) (c : Nat)
  | look (k : List Nat)
  | er (k : List Nat)
  | rel (eid : Nat)
deriving DecidableEq, Repr

/-- One public cache operation applied to a shard (keys routed through the
C-string/hash wrapper; `rel` is `Release` of a handle). -/
def applyOp (s : Shard) : COp → Shard
  | .ins k v c => (cacheInsert s k v c).1
  | .look k => (cacheLookup s k).1
  | .er k => cacheErase s k
  | .rel eid => s.release eid

/-- A whole trace of public operations applied in order. -/
def applyOps (s : Shard) (ops : List COp) : Shard := ops.foldl applyOp s

/-! ## List helper lemmas -/

theorem getD_set_self {α : Type} (d : α) :
    ∀ (bs : List α) (i : Nat) (c : α), i < bs.length → (bs.set i c).getD i d = c
  | [], i, _, h => (Nat.not_lt_zero i h).elim
  | _ :: _, 0, _, _ => rfl
  | _ :: bs, i + 1, c, h => getD_set_self d bs i c (Nat.lt_of_succ_lt_succ h)

theorem getD_set_ne {α : Type} (d : α) :
    ∀ (bs : List α) (i j : Nat) (c : α), i ≠ j → (bs.set i c).getD j d = bs.getD j d
  | [], _, _, _, _ => rfl
  | _ :: _, 0, 0, _, hne => (hne rfl).elim
  | _ :: _, 0, _ + 1, _, _ => rfl
  | _ :: _, _ + 1, 0, _, _ => rfl
  | _ :: bs, i + 1, j + 1, c, hne =>
      getD_set_ne d bs i j c (fun h => hne (congrArg Nat.succ h))

theorem set_getD_self {α : Type} (d : α) :
    ∀ (bs : List α) (i : Nat), bs.set i (bs.getD i d) = bs
  | [], _ => rfl
  | _ :: _, 0 => rfl
  | b :: bs, i + 1 => congrArg (b :: ·) (set_getD_self d bs i)

theorem getD_replicate {α : Type} (d : α) :
    ∀ (n i : Nat), (List.replicate n d).getD i d = d
  | 0, _ => rfl
  | _ + 1, 0 => rfl
  | n + 1, i + 1 => getD_replicate d n i

theorem flatten_set_decomp {α : Type} :
    ∀ (bs : List (List α)) (i : Nat), i < bs.length →
      ∃ A B, bs.flatten = A ++ bs.getD i [] ++ B ∧
        ∀ c, (bs.set i c).flatten = A ++ c ++ B
  | [], i, h => (Nat.not_lt_zero i h).elim
  | b :: bs, 0, _ => ⟨[], bs.flatten, by simp, fun c => by simp⟩
  | b :: bs, i + 1, h => by
      obtain ⟨A, B, h1, h2⟩ := flatten_set_decomp bs i (Nat.lt_of_succ_lt_succ h)
      refine ⟨b ++ A, B, ?_, fun c => ?_⟩
      · show b ++ bs.flatten = b ++ A ++ bs.getD i [] ++ B
        simp [h1]
      · show b ++ (bs.set i c).flatten = b ++ A ++ c ++ B
        simp [h2 c]

/-! Equation lemmas for the recursive helper functions. -/

@[simp] theorem lruRemove_nil (x : Nat) : lruRemove x [] = [] := rfl

@[simp] theorem lruRemove_cons (x y : Nat) (l : List Nat) :
    lruRemove x (y :: l) = if y = x then l else y :: lruRemove x l := rfl

@[simp] theorem findE_nil (eid : Nat) : findE eid [] = none := rfl

@[simp] theorem findE_cons (eid : Nat) (a : Entry) (l : List Entry) :
    findE eid (a :: l) = if a.eid = eid then some a else findE eid l := rfl

@[simp] theorem dropE_nil (eid : Nat) : dropE eid [] = [] := rfl

@[simp] theorem dropE_cons (eid : Nat) (a : Entry) (l : List Entry) :
    dropE eid (a :: l) = if a.eid = eid then dropE eid l else a :: dropE eid l := rfl

@[simp] theorem decRef_nil (eid : Nat) : decRef eid [] = [] := rfl

@[simp] theorem decRef_cons (eid : Nat) (a : Entry) (l : List Entry) :
    decRef eid (a :: l) =
      if a.eid = eid then { a with refs := a.refs - 1 } :: decRef eid l
      else a :: decRef eid l := rfl

@[simp] theorem incRef_nil (eid : Nat) : incRef eid [] = [] := rfl

@[simp] theorem incRef_cons (eid : Nat) (a : Entry) (l : List Entry) :
    incRef eid (a :: l) =
      if a.eid = eid then { a with refs := a.refs + 1 } :: incRef eid l
      else a :: incRef eid l := rfl

@[simp] theorem chainFind_nil (k : List Nat) (h : Nat) : chainFind k h [] = none := rfl

@[simp] theorem chainFind_cons (k : List Nat) (h : Nat) (a : TEntry) (c : List TEntry) :
    chainFind k h (a :: c) =
      if a.hash = h ∧ a.key = k then some a else chainFind k h c := rfl

@[simp] theorem chainInsert_nil (e : TEntry) : chainInsert e [] = ([e], none) := rfl

@[simp] theorem chainInsert_cons (e a : TEntry) (c : List TEntry) :
    chainInsert e (a :: c) =
      if a.hash = e.hash ∧ a.key = e.key then (e :: c, some a)
      else ((a :: (chainInsert e c).1, (chainInsert e c).2)) := by
  show (if a.hash = e.hash ∧ a.key = e.key then (e :: c, some a)
      else (a :: (chainInsert e c).1, (chainInsert e c).2)) = _
  rfl

@[simp] theorem chainRemove_nil (k : List Nat) (h : Nat) : chainRemove k h [] = ([], none) := rfl

@[simp] theorem chainRemove_cons (k : List Nat) (h : Nat) (a : TEntry) (c : List TEntry) :
    chainRemove k h (a :: c) =
      if a.hash = h ∧ a.key = k then (c, some a)
      else ((a :: (chainRemove k h c).1, (chainRemove k h c).2)) := by
  show (if a.hash = h ∧ a.key = k then (c, some a)
      else (a :: (chainRemove k h c).1, (chainRemove k h c).2)) = _
  rfl

/-! Lemmas about `lruRemove` (removal of one node from the recency list). -/

theorem lruRemove_sublist (x : Nat) : ∀ l : List Nat, (lruRemove x l).Sublist l
  | [] => List.Sublist.refl []
  | y :: l => by
      by_cases h : y = x
      · rw [lruRemove_cons, if_pos h]
        exact (List.Sublist.refl l).cons y
      · rw [lruRemove_cons, if_neg h]
        exact (lruRemove_sublist x l).cons₂ y

theorem lruRemove_of_not_mem (x : Nat) : ∀ l : List Nat, x ∉ l → lruRemove x l = l
  | [], _ => rfl
  | y :: l, hx => by
      have hyx : y ≠ x := fun h => hx (h ▸ List.mem_cons_self y l)
      rw [lruRemove_cons, if_neg hyx,
        lruRemove_of_not_mem x l (fun h => hx (List.mem_cons_of_mem y h))]

theorem lruRemove_append_left (x : Nat) :
    ∀ l1 l2 : List Nat, x ∈ l1 → lruRemove x (l1 ++ l2) = lruRemove x l1 ++ l2
  | [], _, hx => absurd hx (List.not_mem_nil x)
  | y :: l1, l2, hx => by
      by_cases h : y = x
      · simp [h]
      · have hx1 : x ∈ l1 := by
          rcases List.mem_cons.mp hx with h1 | h1
          · exact absurd h1.symm h
          · exact h1
        simp only [List.cons_append, lruRemove_cons, h, if_false,
          lruRemove_append_left x l1 l2 hx1]

theorem lruRemove_append_right (x : Nat) :
    ∀ l1 l2 : List Nat, x ∉ l1 → lruRemove x (l1 ++ l2) = l1 ++ lruRemove x l2
  | [], _, _ => rfl
  | y :: l1, l2, hx => by
      have hyx : y ≠ x := fun h => hx (h ▸ List.mem_cons_self y l1)
      simp only [List.cons_append, lruRemove_cons, hyx, if_false]
      rw [lruRemove_append_right x l1 l2 (fun h => hx (List.mem_cons_of_mem y h))]

theorem perm_cons_lruRemove (x : Nat) :
    ∀ l : List Nat, x ∈ l → l.Perm (x :: lruRemove x l)
  | [], hx => absurd hx (List.not_mem_nil x)
  | y :: l, hx => by
      by_cases h : y = x
      · simp [h]
      · have hx1 : x ∈ l := by
          rcases List.mem_cons.mp hx with h1 | h1
          · exact absurd h1.symm h
          · exact h1
        simp only [lruRemove_cons, h, if_false]
        exact ((perm_cons_lruRemove x l hx1).cons y).trans (List.Perm.swap x y _)

theorem not_mem_lruRemove_self (x : Nat) :
    ∀ l : List Nat, l.Nodup → x ∉ lruRemove x l
  | [], _, hx => absurd hx (List.not_mem_nil x)
  | y :: l, hnd, hx => by
      rcases List.nodup_cons.mp hnd with ⟨hy, hl⟩
      by_cases h : y = x
      · rw [lruRemove_cons, if_pos h] at hx
        exact hy (h ▸ hx)
      · rw [lruRemove_cons, if_neg h] at hx
        rcases List.mem_cons.mp hx with h1 | h1
        · exact h h1.symm
        · exact not_mem_lruRemove_self x l hl h1

theorem mem_of_mem_lruRemove {x y : Nat} {l : List Nat}
    (h : y ∈ lruRemove x l) : y ∈ l :=
  (lruRemove_sublist x l).mem h

/-! Lemmas about `findE`, `dropE`, `decRef`, `incRef`. -/

theorem findE_some {eid : Nat} :
    ∀ {l : List Entry} {e : Entry}, findE eid l = some e → e ∈ l ∧ e.eid = eid := by
  intro l
  induction l with
  | nil => intro e h; exact absurd h (by simp)
  | cons a l ih =>
      intro e h
      by_cases ha : a.eid = eid
      · rw [findE_cons, if_pos ha] at h
        exact ⟨(Option.some_inj.mp h) ▸ List.mem_cons_self a l, (Option.some_inj.mp h) ▸ ha⟩
      · rw [findE_cons, if_neg ha] at h
        obtain ⟨h1, h2⟩ := ih h
        exact ⟨List.mem_cons_of_mem a h1, h2⟩

theorem findE_none_iff {eid : Nat} :
    ∀ {l : List Entry}, findE eid l = none ↔ ∀ e ∈ l, e.eid ≠ eid := by
  intro l
  induction l with
  | nil => simp
  | cons a l ih =>
      by_cases ha : a.eid = eid
      · simp [ha]
      · simp [ha, ih]

theorem findE_of_mem {l : List Entry} {e : Entry}
    (hnd : (l.map Entry.eid).Nodup) (hmem : e ∈ l) : findE e.eid l = some e := by
  induction l with
  | nil => exact absurd hmem (List.not_mem_nil e)
  | cons a l ih =>
      rw [List.map_cons, List.nodup_cons] at hnd
      rcases List.mem_cons.mp hmem with h1 | h1
      · rw [findE_cons, h1]
        simp
      · have hne : a.eid ≠ e.eid := by
          intro h
          exact hnd.1 (h ▸ List.mem_map_of_mem Entry.eid h1)
        rw [findE_cons, if_neg hne]
        exact ih hnd.2 h1

theorem mem_dropE {eid : Nat} {y : Entry} :
    ∀ {l : List Entry}, y ∈ dropE eid l ↔ y ∈ l ∧ y.eid ≠ eid := by
  intro l
  induction l with
  | nil => simp
  | cons a l ih =>
      by_cases ha : a.eid = eid
      · rw [dropE_cons, if_pos ha]
        constructor
        · intro h
          obtain ⟨h1, h2⟩ := ih.mp h
          exact ⟨List.mem_cons_of_mem a h1, h2⟩
        · intro ⟨h1, h2⟩
          rcases List.mem_cons.mp h1 with h3 | h3
          · exact absurd (h3 ▸ ha) h2
          · exact ih.mpr ⟨h3, h2⟩
      · rw [dropE_cons, if_neg ha]
        constructor
        · intro h
          rcases List.mem_cons.mp h with h3 | h3
          · exact ⟨h3 ▸ List.mem_cons_self a l, h3 ▸ ha⟩
          · obtain ⟨h1, h2⟩ := ih.mp h3
            exact ⟨List.mem_cons_of_mem a h1, h2⟩
        · intro ⟨h1, h2⟩
          rcases List.mem_cons.mp h1 with h3 | h3
          · exact h3 ▸ List.mem_cons_self a _
          · exact List.mem_cons_of_mem a (ih.mpr ⟨h3, h2⟩)

theorem dropE_sublist (eid : Nat) : ∀ l : List Entry, (dropE eid l).Sublist l
  | [] => List.Sublist.refl []
  | a :: l => by
      by_cases ha : a.eid = eid
      · rw [dropE_cons, if_pos ha]
        exact (dropE_sublist eid l).cons a
      · rw [dropE_cons, if_neg ha]
        exact (dropE_sublist eid l).cons₂ a

theorem dropE_of_not_mem {eid : Nat} :
    ∀ {l : List Entry}, (∀ e ∈ l, e.eid ≠ eid) → dropE eid l = l := by
  intro l
  induction l with
  | nil => intro _; rfl
  | cons a l ih =>
      intro h
      rw [dropE_cons, if_neg (h a (List.mem_cons_self a l))]
      rw [ih (fun e he => h e (List.mem_cons_of_mem a he))]

theorem perm_cons_dropE {eid : Nat} {e : Entry} :
    ∀ {l : List Entry}, (l.map Entry.eid).Nodup → e ∈ l → e.eid = eid →
      l.Perm (e :: dropE eid l) := by
  intro l
  induction l with
  | nil => intro _ hmem _; exact absurd hmem (List.not_mem_nil e)
  | cons a l ih =>
      intro hnd hmem heid
      rw [List.map_cons, List.nodup_cons] at hnd
      rcases List.mem_cons.mp hmem with h1 | h1
      · subst h1
        rw [dropE_cons, if_pos heid]
        rw [dropE_of_not_mem (fun y hy hyeid => hnd.1 (by
            rw [← heid] at hyeid
            exact hyeid ▸ List.mem_map_of_mem Entry.eid hy))]
      · have hae : a.eid ≠ eid := by
          intro h
          exact hnd.1 (h ▸ heid ▸ List.mem_map_of_mem Entry.eid h1)
        rw [dropE_cons, if_neg hae]
        exact ((ih hnd.2 h1 heid).cons a).trans (List.Perm.swap e a _)

theorem decRef_map_eid (eid : Nat) :
    ∀ l : List Entry, (decRef eid l).map Entry.eid = l.map Entry.eid
  | [] => rfl
  | a :: l => by
      by_cases ha : a.eid = eid
      · simp [ha, decRef_map_eid eid l]
      · simp [ha, decRef_map_eid eid l]

theorem decRef_map_charge (eid : Nat) :
    ∀ l : List Entry, (decRef eid l).map Entry.charge = l.map Entry.charge
  | [] => rfl
  | a :: l => by
      by_cases ha : a.eid = eid
      · simp [ha, decRef_map_charge eid l]
      · simp [ha, decRef_map_charge eid l]

theorem findE_decRef_self (eid : Nat) :
    ∀ l : List Entry, findE eid (decRef eid l) =
      (findE eid l).map (fun e => { e with refs := e.refs - 1 })
  | [] => rfl
  | a :: l => by
      by_cases ha : a.eid = eid
      · simp [ha]
      · simp [ha, findE_decRef_self eid l]

theorem findE_decRef_ne {eid x : Nat} (hne : x ≠ eid) :
    ∀ l : List Entry, findE x (decRef eid l) = findE x l
  | [] => rfl
  | a :: l => by
      by_cases ha : a.eid = eid
      · simp [ha, Ne.symm hne, findE_decRef_ne hne l]
      · by_cases hax : a.eid = x
        · simp [hax, hne]
        · simp [ha, hax, findE_decRef_ne hne l]

theorem mem_decRef {eid : Nat} {y : Entry} :
    ∀ {l : List Entry}, y ∈ decRef eid l →
      ∃ e ∈ l, (e.eid = eid ∧ y = { e with refs := e.refs - 1 }) ∨ (e.eid ≠ eid ∧ y = e) := by
  intro l
  induction l with
  | nil => intro h; exact absurd h (List.not_mem_nil y)
  | cons a l ih =>
      intro h
      by_cases ha : a.eid = eid
      · rw [decRef_cons, if_pos ha] at h
        rcases List.mem_cons.mp h with h1 | h1
        · exact ⟨a, List.mem_cons_self a l, Or.inl ⟨ha, h1⟩⟩
        · obtain ⟨e, he, hor⟩ := ih h1
          exact ⟨e, List.mem_cons_of_mem a he, hor⟩
      · rw [decRef_cons, if_neg ha] at h
        rcases List.mem_cons.mp h with h1 | h1
        · exact ⟨a, List.mem_cons_self a l, Or.inr ⟨ha, h1⟩⟩
        · obtain ⟨e, he, hor⟩ := ih h1
          exact ⟨e, List.mem_cons_of_mem a he, hor⟩

theorem incRef_map_eid (eid : Nat) :
    ∀ l : List Entry, (incRef eid l).map Entry.eid = l.map Entry.eid
  | [] => rfl
  | a :: l => by
      by_cases ha : a.eid = eid
      · simp [ha, incRef_map_eid eid l]
      · simp [ha, incRef_map_eid eid l]

theorem incRef_map_charge (eid : Nat) :
    ∀ l : List Entry, (incRef eid l).map Entry.charge = l.map Entry.charge
  | [] => rfl
  | a :: l => by
      by_cases ha : a.eid = eid
      · simp [ha, incRef_map_charge eid l]
      · simp [ha, incRef_map_charge eid l]

theorem mem_incRef {eid : Nat} {y : Entry} :
    ∀ {l : List Entry}, y ∈ incRef eid l →
      ∃ e ∈ l, (e.eid = eid ∧ y = { e with refs := e.refs + 1 }) ∨ (e.eid ≠ eid ∧ y = e) := by
  intro l
  induction l with
  | nil => intro h; exact absurd h (List.not_mem_nil y)
  | cons a l ih =>
      intro h
      by_cases ha : a.eid = eid
      · rw [incRef_cons, if_pos ha] at h
        rcases List.mem_cons.mp h with h1 | h1
        · exact ⟨a, List.mem_cons_self a l, Or.inl ⟨ha, h1⟩⟩
        · obtain ⟨e, he, hor⟩ := ih h1
          exact ⟨e, List.mem_cons_of_mem a he, hor⟩
      · rw [incRef_cons, if_neg ha] at h
        rcases List.mem_cons.mp h with h1 | h1
        · exact ⟨a, List.mem_cons_self a l, Or.inr ⟨ha, h1⟩⟩
        · obtain ⟨e, he, hor⟩ := ih h1
          exact ⟨e, List.mem_cons_of_mem a he, hor⟩

/-! ## Bucket-chain lemmas (behaviour of `FindPointer` and its users) -/

theorem chainFind_none_iff {k : List Nat} {h : Nat} :
    ∀ {c : List TEntry}, chainFind k h c = none ↔ ∀ te ∈ c, ¬(te.hash = h ∧ te.key = k) := by
  intro c
  induction c with
  | nil => simp
  | cons a c ih =>
      by_cases ha : a.hash = h ∧ a.key = k
      · simp [List.forall_mem_cons, ha]
      · simp only [chainFind_cons, if_neg ha, List.forall_mem_cons, ih]
        constructor
        · intro h1
          exact ⟨ha, h1⟩
        · intro h1
          exact h1.2

theorem chainFind_some {k : List Nat} {h : Nat} :
    ∀ {c : List TEntry} {o : TEntry}, chainFind k h c = some o →
      o ∈ c ∧ o.hash = h ∧ o.key = k := by
  intro c
  induction c with
  | nil => intro o hc; exact absurd hc (by simp)
  | cons a c ih =>
      intro o hc
      by_cases ha : a.hash = h ∧ a.key = k
      · rw [chainFind_cons, if_pos ha] at hc
        obtain rfl := Option.some_inj.mp hc
        exact ⟨List.mem_cons_self a c, ha⟩
      · rw [chainFind_cons, if_neg ha] at hc
        obtain ⟨h1, h2⟩ := ih hc
        exact ⟨List.mem_cons_of_mem a h1, h2⟩

theorem chainFind_append_none {k : List Nat} {h : Nat} {c1 c2 : List TEntry}
    (h1 : chainFind k h c1 = none) :
    chainFind k h (c1 ++ c2) = chainFind k h c2 := by
  induction c1 with
  | nil => rfl
  | cons a c1 ih =>
      by_cases ha : a.hash = h ∧ a.key = k
      · rw [chainFind_cons, if_pos ha] at h1; exact absurd h1 (by simp)
      · rw [chainFind_cons, if_neg ha] at h1
        rw [List.cons_append, chainFind_cons, if_neg ha]
        exact ih h1

theorem chainInsert_snd (e : TEntry) :
    ∀ c : List TEntry, (chainInsert e c).2 = chainFind e.key e.hash c
  | [] => rfl
  | a :: c => by
      by_cases ha : a.hash = e.hash ∧ a.key = e.key
      · simp [ha]
      · simp [ha, chainInsert_snd e c]

theorem chainInsert_fst_none (e : TEntry) :
    ∀ {c : List TEntry}, chainFind e.key e.hash c = none →
      (chainInsert e c).1 = c ++ [e] := by
  intro c
  induction c with
  | nil => intro _; rfl
  | cons a c ih =>
      intro hc
      by_cases ha : a.hash = e.hash ∧ a.key = e.key
      · rw [chainFind_cons, if_pos ha] at hc; exact absurd hc (by simp)
      · rw [chainFind_cons, if_neg ha] at hc
        simp [ha, ih hc]

theorem chainInsert_split (e : TEntry) :
    ∀ {c : List TEntry} {o : TEntry}, chainFind e.key e.hash c = some o →
      ∃ pre suf, c = pre ++ o :: suf ∧ chainFind e.key e.hash pre = none ∧
        (chainInsert e c).1 = pre ++ e :: suf := by
  intro c
  induction c with
  | nil => intro o hc; exact absurd hc (by simp)
  | cons a c ih =>
      intro o hc
      by_cases ha : a.hash = e.hash ∧ a.key = e.key
      · rw [chainFind_cons, if_pos ha] at hc
        obtain rfl := Option.some_inj.mp hc
        refine ⟨[], c, rfl, rfl, ?_⟩
        rw [chainInsert_cons, if_pos ha]
        rfl
      · rw [chainFind_cons, if_neg ha] at hc
        obtain ⟨pre, suf, h1, h2, h3⟩ := ih hc
        refine ⟨a :: pre, suf, by simp [h1], ?_, ?_⟩
        · rw [chainFind_cons, if_neg ha]
          exact h2
        · rw [chainInsert_cons, if_neg ha]
          simp [h3]

theorem chainRemove_snd (k : List Nat) (h : Nat) :
    ∀ c : List TEntry, (chainRemove k h c).2 = chainFind k h c
  | [] => rfl
  | a :: c => by
      by_cases ha : a.hash = h ∧ a.key = k
      · simp [ha]
      · simp [ha, chainRemove_snd k h c]

theorem chainRemove_fst_none (k : List Nat) (h : Nat) :
    ∀ {c : List TEntry}, chainFind k h c = none → (chainRemove k h c).1 = c := by
  intro c
  induction c with
  | nil => intro _; rfl
  | cons a c ih =>
      intro hc
      by_cases ha : a.hash = h ∧ a.key = k
      · rw [chainFind_cons, if_pos ha] at hc; exact absurd hc (by simp)
      · rw [chainFind_cons, if_neg ha] at hc
        simp [ha, ih hc]

theorem chainRemove_split (k : List Nat) (h : Nat) :
    ∀ {c : List TEntry} {o : TEntry}, chainFind k h c = some o →
      ∃ pre suf, c = pre ++ o :: suf ∧ chainFind k h pre = none ∧
        (chainRemove k h c).1 = pre ++ suf := by
  intro c
  induction c with
  | nil => intro o hc; exact absurd hc (by simp)
  | cons a c ih =>
      intro o hc
      by_cases ha : a.hash = h ∧ a.key = k
      · rw [chainFind_cons, if_pos ha] at hc
        obtain rfl := Option.some_inj.mp hc
        refine ⟨[], c, rfl, rfl, ?_⟩
        simp [ha]
      · rw [chainFind_cons, if_neg ha] at hc
        obtain ⟨pre, suf, h1, h2, h3⟩ := ih hc
        refine ⟨a :: pre, suf, by simp [h1], ?_, ?_⟩
        · rw [chainFind_cons, if_neg ha]
          exact h2
        · rw [chainRemove_cons, if_neg ha]
          simp [h3]

/-! ## The hash function: claim C5 -/

theorem hashLoop_eq : ∀ (l : List Nat) (h : Nat),
    hashLoop h l = hashTail ((toWords l).1.foldl mixWord h) (toWords l).2
  | [], _ => rfl
  | [_], _ => rfl
  | [_, _], _ => rfl
  | [_, _, _], _ => rfl
  | b0 :: b1 :: b2 :: b3 :: rest, h => by
      show hashLoop (mixWord h (word32 b0 b1 b2 b3)) rest = _
      rw [hashLoop_eq rest (mixWord h (word32 b0 b1 b2 b3))]
      rfl

/-- Claim C5 (amended): the hash function computes exactly the claimed
algorithm — state seeded with `seed XOR (length * m)`, each 4-byte word
added, multiplied by `m = 0xc6a4a793` and XOR-shifted right — except that
the per-word XOR-shift is by 16 bits (not 24; 24 is used only in the final
mix after the 0–3 trailing bytes are folded in big-endian style). -/
theorem hash_matches_amended_algorithm (data : List Nat) (seed : Nat) :
    hashBytes data seed = hashAmended data seed := by
  unfold hashBytes hashAmended
  exact hashLoop_eq data _

/-- Counterexample to claim C5 as stated: on the 4-byte input `[1,0,0,0]`
with seed 0 the implementation differs from the claimed algorithm with its
24-bit per-word XOR-shift (the implementation shifts by 16 in the word
loop). -/
theorem hash_claim24_counterexample :
    hashBytes [1, 0, 0, 0] 0 ≠ hashClaim [1, 0, 0, 0] 0 := by decide

/-! ## NewId: claim C8 -/

theorem idState_eq : ∀ n : Nat, idState n = n % M64
  | 0 => rfl
  | n + 1 => by
      show (idState n + 1) % M64 = (n + 1) % M64
      rw [idState_eq n]
      unfold M64
      omega

/-- Claim C8 (amended): the `NewId` counter starts at 0 and the `n`-th call
returns `n`, so returned values are strictly increasing and pairwise
distinct — for the first `2^64 - 1` calls, i.e. until the `uint64_t`
counter wraps around. -/
theorem newid_strictly_increasing_before_wrap :
    idState 0 = 0 ∧ (∀ n, n < M64 → idState n = n) ∧
      (∀ i j, i < j → j < M64 → idState i < idState j) := by
  refine ⟨rfl, fun n hn => ?_, fun i j hij hj => ?_⟩
  · rw [idState_eq n]
    exact Nat.mod_eq_of_lt hn
  · rw [idState_eq i, idState_eq j,
      Nat.mod_eq_of_lt (Nat.lt_trans hij hj), Nat.mod_eq_of_lt hj]
    exact hij

theorem newid_strictly_increasing_before_wrap_witness :
    idState 1 = 1 ∧ idState 1 < idState 2 :=
  ⟨newid_strictly_increasing_before_wrap.2.1 1 (by decide),
   newid_strictly_increasing_before_wrap.2.2 1 2 (by decide) (by decide)⟩

/-- Counterexample to claim C8 as stated: `NewId` is a wrapping `uint64_t`
counter, so call number `2^64` returns 0, which is not strictly greater
than the previous call's `2^64 - 1`, and call `2^64 + 1` repeats the value
of call 1. -/
theorem newid_wraparound_counterexample :
    idState (M64 - 1) = M64 - 1 ∧ idState M64 = 0 ∧
      ¬ idState (M64 - 1) < idState M64 ∧ idState (M64 + 1) = idState 1 := by
  have h1 := idState_eq (M64 - 1)
  have h2 := idState_eq M64
  have h3 := idState_eq (M64 + 1)
  have h4 := idState_eq 1
  rw [h1, h2, h3, h4]
  unfold M64
  refine ⟨by omega, by omega, by omega, by omega⟩

/-! ## C-string key handling: claim C10 -/

/-- Claim C10 (confirmed): key hashing (`strlen`), storage (`strcpy`) and
comparison (`strcmp`) all stop at the first NUL byte, so two raw keys that
agree up to and including their first NUL byte are treated identically by
`Insert`, `Lookup`, and `Erase`, and their hashes coincide. -/
theorem keys_equal_up_to_nul_equiv (k1 k2 : List Nat) (heq : cstr k1 = cstr k2) :
    (∀ s v c, cacheInsert s k1 v c = cacheInsert s k2 v c) ∧
    (∀ s, cacheLookup s k1 = cacheLookup s k2) ∧
    (∀ s, cacheErase s k1 = cacheErase s k2) ∧
    hashSlice k1 = hashSlice k2 := by
  have hh : hashSlice k1 = hashSlice k2 := by
    unfold hashSlice
    rw [heq]
  refine ⟨fun s v c => ?_, fun s => ?_, fun s => ?_, hh⟩
  · unfold cacheInsert
    rw [heq, hh]
  · unfold cacheLookup
    rw [heq, hh]
  · unfold cacheErase
    rw [heq, hh]

theorem keys_equal_up_to_nul_equiv_witness :
    cstr [65, 0, 66] = cstr [65, 0, 67] ∧
      cacheErase (Shard.init 3) [65, 0, 66] = cacheErase (Shard.init 3) [65, 0, 67] :=
  ⟨by decide,
   (keys_equal_up_to_nul_equiv [65, 0, 66] [65, 0, 67] (by decide)).2.2.1 (Shard.init 3)⟩

/-! ## Handle-table operations: claim C6 -/

theorem insert_of_find_none (t : HandleTable) (e : TEntry)
    (hfind : chainFind e.key e.hash (t.buckets.getD (e.hash &&& (t.length - 1)) []) = none) :
    t.insert e =
      if t.length < t.elems + 1 then
        (HandleTable.resize
          { t with
              buckets := t.buckets.set (e.hash &&& (t.length - 1))
                (t.buckets.getD (e.hash &&& (t.length - 1)) [] ++ [e]),
              elems := t.elems + 1 }, none)
      else
        ({ t with
            buckets := t.buckets.set (e.hash &&& (t.length - 1))
              (t.buckets.getD (e.hash &&& (t.length - 1)) [] ++ [e]),
            elems := t.elems + 1 }, none) := by
  simp only [HandleTable.insert]
  rw [chainInsert_fst_none e hfind,
    show (chainInsert e (t.buckets.getD (e.hash &&& (t.length - 1)) [])).2 = none from
      (chainInsert_snd e _).trans hfind]

theorem insert_of_find_some (t : HandleTable) (e o : TEntry)
    (hfind : chainFind e.key e.hash (t.buckets.getD (e.hash &&& (t.length - 1)) []) = some o) :
    ∃ pre suf,
      t.buckets.getD (e.hash &&& (t.length - 1)) [] = pre ++ o :: suf ∧
      chainFind e.key e.hash pre = none ∧
      t.insert e =
        ({ t with buckets := t.buckets.set (e.hash &&& (t.length - 1)) (pre ++ e :: suf) },
         some o) := by
  obtain ⟨pre, suf, h1, h2, h3⟩ := chainInsert_split e hfind
  refine ⟨pre, suf, h1, h2, ?_⟩
  simp only [HandleTable.insert]
  rw [h3,
    show (chainInsert e (t.buckets.getD (e.hash &&& (t.length - 1)) [])).2 = some o from
      (chainInsert_snd e _).trans hfind]

theorem remove_of_find_none (t : HandleTable) (k : List Nat) (h : Nat)
    (hfind : chainFind k h (t.buckets.getD (h &&& (t.length - 1)) []) = none) :
    t.remove k h = (t, none) := by
  simp only [HandleTable.remove]
  rw [chainRemove_fst_none k h hfind,
    show (chainRemove k h (t.buckets.getD (h &&& (t.length - 1)) [])).2 = none from
      (chainRemove_snd k h _).trans hfind]
  rw [set_getD_self]

theorem remove_of_find_some (t : HandleTable) (k : List Nat) (h : Nat) (o : TEntry)
    (hfind : chainFind k h (t.buckets.getD (h &&& (t.length - 1)) []) = some o) :
    ∃ pre suf,
      t.buckets.getD (h &&& (t.length - 1)) [] = pre ++ o :: suf ∧
      chainFind k h pre = none ∧
      t.remove k h =
        ({ t with buckets := t.buckets.set (h &&& (t.length - 1)) (pre ++ suf),
                  elems := t.elems - 1 }, some o) := by
  obtain ⟨pre, suf, h1, h2, h3⟩ := chainRemove_split k h hfind
  refine ⟨pre, suf, h1, h2, ?_⟩
  simp only [HandleTable.remove]
  rw [h3,
    show (chainRemove k h (t.buckets.getD (h &&& (t.length - 1)) [])).2 = some o from
      (chainRemove_snd k h _).trans hfind]

/-- Claim C6 (amended): `HandleTable::Insert` returns the prior same-key
(same key and hash) chain entry when one exists, splicing the new entry
into the prior entry's position in the chain — not at the chain head; with
no prior entry it appends the new entry at the tail of its bucket chain
(the trailing NULL slot), returns the absent value, and increments the
element count (then resizes once the count exceeds the table length). -/
theorem table_insert_splices_or_appends_tail (t : HandleTable) (e : TEntry) :
    ((t.insert e).2 = chainFind e.key e.hash (t.bucketOf e.hash)) ∧
    ((t.insert e).2 = none →
      (t.insert e).1.elems = t.elems + 1 ∧
      (¬ t.length < t.elems + 1 →
        (t.insert e).1.buckets =
          t.buckets.set (e.hash &&& (t.length - 1)) (t.bucketOf e.hash ++ [e]))) ∧
    (∀ o, (t.insert e).2 = some o →
      (t.insert e).1.elems = t.elems ∧ o.hash = e.hash ∧ o.key = e.key ∧
      ∃ pre suf, t.bucketOf e.hash = pre ++ o :: suf ∧
        chainFind e.key e.hash pre = none ∧
        (t.insert e).1.buckets =
          t.buckets.set (e.hash &&& (t.length - 1)) (pre ++ e :: suf)) := by
  unfold HandleTable.bucketOf
  cases hfind : chainFind e.key e.hash (t.buckets.getD (e.hash &&& (t.length - 1)) []) with
  | none =>
      have hins := insert_of_find_none t e hfind
      refine ⟨?_, fun _ => ?_, fun o ho => ?_⟩
      · rw [hins]
        by_cases hlt : t.length < t.elems + 1
        · rw [if_pos hlt]
        · rw [if_neg hlt]
      · constructor
        · rw [hins]
          by_cases hlt : t.length < t.elems + 1
          · rw [if_pos hlt]
            rfl
          · rw [if_neg hlt]
        · intro hlt
          rw [hins, if_neg hlt]
      · rw [hins] at ho
        by_cases hlt : t.length < t.elems + 1
        · rw [if_pos hlt] at ho
          exact absurd ho (by simp)
        · rw [if_neg hlt] at ho
          exact absurd ho (by simp)
  | some o0 =>
      obtain ⟨pre, suf, h1, h2, h3⟩ := insert_of_find_some t e o0 hfind
      obtain ⟨hmem, hh, hk⟩ := chainFind_some hfind
      refine ⟨by rw [h3], fun hnone => ?_, fun o ho => ?_⟩
      · rw [h3] at hnone
        exact absurd hnone (by simp)
      · rw [h3] at ho
        obtain rfl : o0 = o := Option.some_inj.mp ho
        exact ⟨by rw [h3], hh, hk, pre, suf, h1, h2, by rw [h3]⟩

theorem table_insert_splices_or_appends_tail_witness :
    (HandleTable.insert
        { length := 4, elems := 2,
          buckets := [[⟨0, [1], 0⟩, ⟨1, [2], 4⟩], [], [], []] }
        ⟨2, [2], 4⟩).2 = some ⟨1, [2], 4⟩ ∧
    (HandleTable.insert
        { length := 4, elems := 2,
          buckets := [[⟨0, [1], 0⟩, ⟨1, [2], 4⟩], [], [], []] }
        ⟨2, [2], 4⟩).1.elems = 2 :=
  ⟨by decide,
   ((table_insert_splices_or_appends_tail
      { length := 4, elems := 2, buckets := [[⟨0, [1], 0⟩, ⟨1, [2], 4⟩], [], [], []] }
      ⟨2, [2], 4⟩).2.2 ⟨1, [2], 4⟩ (by decide)).1⟩

/-- Counterexample to claim C6 as stated: inserting key `[2]` (hash 4) into
a table whose bucket 0 already chains key `[1]` (hash 0) appends the new
entry at the tail of the chain, not at its head. -/
theorem table_insert_head_counterexample :
    (HandleTable.insert
        { length := 4, elems := 1, buckets := [[⟨0, [1], 0⟩], [], [], []] }
        ⟨1, [2], 4⟩).1.buckets.getD 0 [] ≠ [⟨1, [2], 4⟩, ⟨0, [1], 0⟩] ∧
    (HandleTable.insert
        { length := 4, elems := 1, buckets := [[⟨0, [1], 0⟩], [], [], []] }
        ⟨1, [2], 4⟩).1.buckets.getD 0 [] = [⟨0, [1], 0⟩, ⟨1, [2], 4⟩] := by
  constructor
  · decide
  · decide

/-! ## Reduction lemmas for shard operations -/

theorem lookup_eq (t : HandleTable) (k : List Nat) (h : Nat) :
    t.lookup k h = chainFind k h (t.buckets.getD (h &&& (t.length - 1)) []) := rfl

theorem unref_of_dead (s : Shard) (eid : Nat) (h : findE eid s.heap = none) :
    s.unref eid = s := by
  simp only [Shard.unref]
  rw [h]

theorem unref_destroy (s : Shard) (eid : Nat) (e : Entry)
    (h : findE eid s.heap = some e) (hr : e.refs ≤ 1) :
    s.unref eid =
      { s with usage := s.usage - e.charge, heap := dropE eid s.heap,
               events := s.events ++ [⟨e.eid, e.key, e.value⟩] } := by
  simp only [Shard.unref, h]
  rw [if_pos hr]

theorem unref_dec (s : Shard) (eid : Nat) (e : Entry)
    (h : findE eid s.heap = some e) (hr : ¬ e.refs ≤ 1) :
    s.unref eid = { s with heap := decRef eid s.heap } := by
  simp only [Shard.unref, h]
  rw [if_neg hr]

theorem sublist_flatten_getD {α : Type} (bs : List (List α)) (i : Nat)
    (h : i < bs.length) : (bs.getD i []).Sublist bs.flatten := by
  obtain ⟨A, B, h1, _⟩ := flatten_set_decomp bs i h
  rw [h1, List.append_assoc]
  exact (List.sublist_append_left _ B).trans (List.sublist_append_right A _)

theorem mem_tEntries_of_getD {bs : List (List TEntry)} {i : Nat} {te : TEntry}
    (h : i < bs.length) (hm : te ∈ bs.getD i []) : te ∈ bs.flatten :=
  (sublist_flatten_getD bs i h).mem hm

/-! ## Erase: claim C7 -/

theorem eraseOp_of_absent (s : Shard) (k : List Nat) (h : Nat)
    (hfind : s.table.lookup k h = none) : s.eraseOp k h = s := by
  simp only [Shard.eraseOp]
  rw [remove_of_find_none s.table k h hfind]

/-- Claim C7 (confirmed): erasing an absent key leaves the whole shard state
(table, list, heap, usage, destructor log) unchanged; erase is idempotent;
erasing a present key removes it from the handle table (so an immediately
following lookup misses), unlinks it from the recency list, and drops
exactly one reference — decrementing the refcount when other handles remain
(no destructor call, no usage change), and destroying the entry with one
logged destructor invocation when the in-cache reference was the last. -/
theorem erase_spec (s : Shard) (k : List Nat) (h : Nat) (hinv : SInv s) :
    (s.table.lookup k h = none → s.eraseOp k h = s) ∧
    ((s.eraseOp k h).eraseOp k h = s.eraseOp k h) ∧
    (∀ te, s.table.lookup k h = some te →
      (s.eraseOp k h).table.lookup k h = none ∧
      ((s.eraseOp k h).lookupOp k h).2 = none ∧
      te.eid ∉ (s.eraseOp k h).lru ∧
      ∃ e ∈ s.heap, e.eid = te.eid ∧
        (2 ≤ e.refs →
          findE te.eid (s.eraseOp k h).heap = some { e with refs := e.refs - 1 } ∧
          (s.eraseOp k h).events = s.events ∧
          (s.eraseOp k h).usage = s.usage) ∧
        (e.refs = 1 →
          findE te.eid (s.eraseOp k h).heap = none ∧
          (s.eraseOp k h).events = s.events ++ [⟨e.eid, e.key, e.value⟩])) := by
  obtain ⟨husage, hheapnd, hrefs, hlrund, ⟨hblen, hlen1, hpairs, helems, hplace⟩,
    htblheap, hperm⟩ := hinv
  cases hfind : s.table.lookup k h with
  | none =>
      have hnoop : s.eraseOp k h = s := eraseOp_of_absent s k h hfind
      refine ⟨fun _ => hnoop, ?_, fun te hte => absurd hte (by simp)⟩
      rw [hnoop, hnoop]
  | some te =>
      -- the bucket index is in range
      have hilt : h &&& (s.table.length - 1) < s.table.buckets.length := by
        rw [hblen]
        exact Nat.lt_of_le_of_lt Nat.and_le_right (by omega)
      obtain ⟨pre, suf, hb, hpre, hrm⟩ := remove_of_find_some s.table k h te hfind
      obtain ⟨hmemc, hteh, htek⟩ := chainFind_some (k := k) (h := h) (c := s.table.buckets.getD (h &&& (s.table.length - 1)) []) hfind
      have htemem : te ∈ tEntries s.table := mem_tEntries_of_getD hilt hmemc
      obtain ⟨e, hemem, heeid, hekey, hehash⟩ := htblheap te htemem
      have hfe : findE te.eid s.heap = some e := by
        rw [← heeid]
        exact findE_of_mem hheapnd hemem
      -- the state erase produces, before the unref
      have hstep : s.eraseOp k h =
          Shard.unref
            { s with
                table := { s.table with
                  buckets := s.table.buckets.set (h &&& (s.table.length - 1)) (pre ++ suf),
                  elems := s.table.elems - 1 },
                lru := lruRemove te.eid s.lru } te.eid := by
        simp only [Shard.eraseOp]
        rw [hrm]
      -- the new bucket has no further (key, hash) match
      have hchainpairs : ((pre ++ te :: suf).map (fun x => (x.key, x.hash))).Nodup := by
        refine List.Nodup.sublist ?_ hpairs
        refine List.Sublist.map _ ?_
        rw [← hb]
        exact sublist_flatten_getD s.table.buckets _ hilt
      have hsufnone : chainFind k h suf = none := by
        rw [chainFind_none_iff]
        intro x hx hcontra
        have h1 : ((te :: suf).map (fun x => (x.key, x.hash))).Nodup :=
          List.Nodup.sublist (List.Sublist.map _ (List.sublist_append_right pre _)) hchainpairs
        rw [List.map_cons, List.nodup_cons] at h1
        exact h1.1 (by
          have : (x.key, x.hash) = (te.key, te.hash) := by
            rw [hcontra.2, hcontra.1, htek, hteh]
          rw [← this]
          exact List.mem_map_of_mem _ hx)
      have hlkafter : ∀ s2 : Shard, s2.table =
          { s.table with
            buckets := s.table.buckets.set (h &&& (s.table.length - 1)) (pre ++ suf),
            elems := s.table.elems - 1 } → s2.table.lookup k h = none := by
        intro s2 h2
        rw [lookup_eq, h2]
        show chainFind k h ((s.table.buckets.set (h &&& (s.table.length - 1))
          (pre ++ suf)).getD (h &&& (s.table.length - 1)) []) = none
        rw [getD_set_self [] s.table.buckets _ _ hilt]
        rw [chainFind_append_none hpre]
        exact hsufnone
      have hnotlru : ∀ s2 : Shard, s2.lru = lruRemove te.eid s.lru → te.eid ∉ s2.lru := by
        intro s2 h2
        rw [h2]
        exact not_mem_lruRemove_self te.eid s.lru hlrund
      have habs : ∀ s3 : Shard, s3.table.lookup k h = none →
          s3.eraseOp k h = s3 := fun s3 hc => eraseOp_of_absent s3 k h hc
      by_cases hr : e.refs ≤ 1
      · have hfin : s.eraseOp k h =
            { s with
                table := { s.table with
                  buckets := s.table.buckets.set (h &&& (s.table.length - 1)) (pre ++ suf),
                  elems := s.table.elems - 1 },
                lru := lruRemove te.eid s.lru,
                usage := s.usage - e.charge,
                heap := dropE te.eid s.heap,
                events := s.events ++ [⟨e.eid, e.key, e.value⟩] } := by
          rw [hstep]
          exact unref_destroy _ te.eid e hfe hr
        have hmiss : (s.eraseOp k h).table.lookup k h = none := by
          rw [hfin]
          exact hlkafter _ rfl
        refine ⟨fun hc => absurd hc (by simp), habs _ hmiss, fun te2 hte2 => ?_⟩
        obtain rfl : te = te2 := Option.some_inj.mp hte2
        refine ⟨hmiss, ?_, ?_, e, hemem, heeid, fun h2 => by omega, fun _ => ⟨?_, ?_⟩⟩
        · simp only [Shard.lookupOp, hmiss]
        · rw [hfin]
          show te.eid ∉ lruRemove te.eid s.lru
          exact not_mem_lruRemove_self te.eid s.lru hlrund
        · rw [hfin]
          show findE te.eid (dropE te.eid s.heap) = none
          rw [findE_none_iff]
          intro x hx
          exact (mem_dropE.mp hx).2
        · rw [hfin]
      · have hfin : s.eraseOp k h =
            { s with
                table := { s.table with
                  buckets := s.table.buckets.set (h &&& (s.table.length - 1)) (pre ++ suf),
                  elems := s.table.elems - 1 },
                lru := lruRemove te.eid s.lru,
                heap := decRef te.eid s.heap } := by
          rw [hstep]
          exact unref_dec _ te.eid e hfe hr
        have hmiss : (s.eraseOp k h).table.lookup k h = none := by
          rw [hfin]
          exact hlkafter _ rfl
        refine ⟨fun hc => absurd hc (by simp), habs _ hmiss, fun te2 hte2 => ?_⟩
        obtain rfl : te = te2 := Option.some_inj.mp hte2
        refine ⟨hmiss, ?_, ?_, e, hemem, heeid, fun _ => ⟨?_, ?_, ?_⟩, fun h2 => by omega⟩
        · simp only [Shard.lookupOp, hmiss]
        · rw [hfin]
          show te.eid ∉ lruRemove te.eid s.lru
          exact not_mem_lruRemove_self te.eid s.lru hlrund
        · rw [hfin]
          show findE te.eid (decRef te.eid s.heap) = _
          rw [findE_decRef_self, hfe]
          rfl
        · rw [hfin]
        · rw [hfin]

theorem erase_spec_witness :
    ((Shard.insertOp (Shard.init 10) [65] 2 5 1).1.eraseOp [65] 2).table.lookup [65] 2
      = none :=
  ((erase_spec (Shard.insertOp (Shard.init 10) [65] 2 5 1).1 [65] 2
      (by unfold SInv TblInv; decide)).2.2 ⟨0, [65], 2⟩ (by decide)).1

/-! ## Destructor lifecycle: claim C4 -/

theorem eid_of_mem_decRef {eid : Nat} {y : Entry} {l : List Entry}
    (h : y ∈ decRef eid l) : ∃ e2 ∈ l, y.eid = e2.eid := by
  obtain ⟨e2, he2, hor⟩ := mem_decRef h
  rcases hor with ⟨_, h3⟩ | ⟨_, h3⟩
  · exact ⟨e2, he2, by rw [h3]⟩
  · exact ⟨e2, he2, by rw [h3]⟩

theorem eid_of_mem_incRef {eid : Nat} {y : Entry} {l : List Entry}
    (h : y ∈ incRef eid l) : ∃ e2 ∈ l, y.eid = e2.eid := by
  obtain ⟨e2, he2, hor⟩ := mem_incRef h
  rcases hor with ⟨_, h3⟩ | ⟨_, h3⟩
  · exact ⟨e2, he2, by rw [h3]⟩
  · exact ⟨e2, he2, by rw [h3]⟩

theorem EInv_unref (s : Shard) (eid : Nat) (h : EInv s) : EInv (s.unref eid) := by
  cases hfe : findE eid s.heap with
  | none =>
      rw [unref_of_dead s eid hfe]
      exact h
  | some e =>
      obtain ⟨hnd, hdisj, hevb, hhb, hhnd⟩ := h
      obtain ⟨hemem, heid⟩ := findE_some hfe
      by_cases hr : e.refs ≤ 1
      · rw [unref_destroy s eid e hfe hr]
        refine ⟨?_, ?_, ?_, ?_, ?_⟩
        · show ((s.events ++ [(⟨e.eid, e.key, e.value⟩ : DEvent)]).map DEvent.eid).Nodup
          rw [List.map_append]
          rw [List.nodup_append]
          refine ⟨hnd, by simp, ?_⟩
          intro x hx
          simp only [List.map_cons, List.map_nil, List.mem_singleton]
          intro hxe
          exact hdisj e hemem (hxe ▸ hx)
        · intro y hy
          obtain ⟨hyl, hyne⟩ := mem_dropE.mp hy
          show y.eid ∉ (s.events ++ [(⟨e.eid, e.key, e.value⟩ : DEvent)]).map DEvent.eid
          rw [List.map_append]
          rw [List.mem_append]
          rintro (h1 | h1)
          · exact hdisj y hyl h1
          · simp only [List.map_cons, List.map_nil, List.mem_singleton] at h1
            exact hyne (h1.trans heid)
        · intro x hx
          show x < s.nextEid
          have hx2 : x ∈ (s.events ++ [(⟨e.eid, e.key, e.value⟩ : DEvent)]).map DEvent.eid := hx
          rw [List.map_append, List.mem_append] at hx2
          rcases hx2 with h1 | h1
          · exact hevb x h1
          · simp only [List.map_cons, List.map_nil, List.mem_singleton] at h1
            exact h1 ▸ hhb e hemem
        · intro y hy
          exact hhb y (mem_dropE.mp hy).1
        · exact List.Nodup.sublist (List.Sublist.map _ (dropE_sublist eid s.heap)) hhnd
      · rw [unref_dec s eid e hfe hr]
        refine ⟨hnd, ?_, hevb, ?_, ?_⟩
        · intro y hy
          obtain ⟨e2, he2, heq⟩ := eid_of_mem_decRef hy
          show y.eid ∉ eventEids s
          rw [heq]
          exact hdisj e2 he2
        · intro y hy
          obtain ⟨e2, he2, heq⟩ := eid_of_mem_decRef hy
          show y.eid < s.nextEid
          rw [heq]
          exact hhb e2 he2
        · show ((decRef eid s.heap).map Entry.eid).Nodup
          rw [decRef_map_eid]
          exact hhnd

theorem evictSteps_succ (n : Nat) (s : Shard) :
    evictSteps (n + 1) s =
      if s.usage ≤ s.capacity then s
      else
        match s.lru with
        | [] => s
        | oldEid :: rest =>
            match findE oldEid s.heap with
            | none => s
            | some oe =>
                evictSteps n (Shard.unref
                  { s with lru := rest, table := (s.table.remove oe.key oe.hash).1 } oldEid) := rfl

theorem EInv_evictSteps : ∀ (fuel : Nat) (s : Shard), EInv s → EInv (evictSteps fuel s)
  | 0, _, h => h
  | fuel + 1, s, h => by
      rw [evictSteps_succ]
      by_cases hu : s.usage ≤ s.capacity
      · rw [if_pos hu]
        exact h
      · rw [if_neg hu]
        cases hl : s.lru with
        | nil => exact h
        | cons oldEid rest =>
            show EInv (match findE oldEid s.heap with
              | none => s
              | some oe => evictSteps fuel (Shard.unref
                  { s with lru := rest, table := (s.table.remove oe.key oe.hash).1 } oldEid))
            cases hf : findE oldEid s.heap with
            | none => exact h
            | some oe => exact EInv_evictSteps fuel _ (EInv_unref _ _ h)

theorem EInv_insertOp (s : Shard) (k : List Nat) (h v c : Nat) (hinv : EInv s) :
    EInv (s.insertOp k h v c).1 := by
  obtain ⟨hnd, hdisj, hevb, hhb, hhnd⟩ := hinv
  have h1 : EInv { s with
      heap := s.heap ++ [⟨s.nextEid, k, h, v, c, 2⟩],
      lru := s.lru ++ [s.nextEid],
      usage := s.usage + c, nextEid := s.nextEid + 1 } := by
    refine ⟨hnd, ?_, ?_, ?_, ?_⟩
    · intro y hy
      rcases List.mem_append.mp hy with h2 | h2
      · exact hdisj y h2
      · obtain rfl := List.mem_singleton.mp h2
        show s.nextEid ∉ eventEids s
        intro hc
        exact absurd (hevb _ hc) (by omega)
    · intro x hx
      exact Nat.lt_succ_of_lt (hevb x hx)
    · intro y hy
      rcases List.mem_append.mp hy with h2 | h2
      · exact Nat.lt_succ_of_lt (hhb y h2)
      · obtain rfl := List.mem_singleton.mp h2
        exact Nat.lt_succ_self _
    · show ((s.heap ++ [(⟨s.nextEid, k, h, v, c, 2⟩ : Entry)]).map Entry.eid).Nodup
      rw [List.map_append, List.nodup_append]
      refine ⟨hhnd, by simp, ?_⟩
      intro x hx
      simp only [List.map_cons, List.map_nil, List.mem_singleton]
      intro hxe
      obtain ⟨y, hy, hyx⟩ := List.mem_map.mp hx
      have := hhb y hy
      omega
  simp only [Shard.insertOp, evictLoop]
  apply EInv_evictSteps
  split
  · exact h1
  · exact EInv_unref _ _ h1

theorem EInv_lookupOp (s : Shard) (k : List Nat) (h : Nat) (hinv : EInv s) :
    EInv (s.lookupOp k h).1 := by
  obtain ⟨hnd, hdisj, hevb, hhb, hhnd⟩ := hinv
  simp only [Shard.lookupOp]
  split
  · exact ⟨hnd, hdisj, hevb, hhb, hhnd⟩
  · refine ⟨hnd, ?_, hevb, ?_, ?_⟩
    · intro y hy
      obtain ⟨e2, he2, heq⟩ := eid_of_mem_incRef hy
      show y.eid ∉ eventEids s
      rw [heq]
      exact hdisj e2 he2
    · intro y hy
      obtain ⟨e2, he2, heq⟩ := eid_of_mem_incRef hy
      show y.eid < s.nextEid
      rw [heq]
      exact hhb e2 he2
    · show ((incRef _ s.heap).map Entry.eid).Nodup
      rw [incRef_map_eid]
      exact hhnd

theorem EInv_eraseOp (s : Shard) (k : List Nat) (h : Nat) (hinv : EInv s) :
    EInv (s.eraseOp k h) := by
  simp only [Shard.eraseOp]
  split
  · exact hinv
  · exact EInv_unref _ _ hinv

theorem EInv_applyOp (s : Shard) (op : COp) (hinv : EInv s) : EInv (applyOp s op) := by
  cases op with
  | ins k v c => exact EInv_insertOp s (cstr k) (hashSlice k) v c hinv
  | look k => exact EInv_lookupOp s (cstr k) (hashSlice k) hinv
  | er k => exact EInv_eraseOp s (cstr k) (hashSlice k) hinv
  | rel eid => exact EInv_unref s eid hinv

theorem EInv_applyOps : ∀ (ops : List COp) (s : Shard), EInv s → EInv (applyOps s ops)
  | [], _, h => h
  | op :: ops, s, h => EInv_applyOps ops (applyOp s op) (EInv_applyOp s op h)

/-- Claim C4 (confirmed): destructor invocations (logged with the entry
identity) are pairwise distinct across any sequence of public operations,
no live entry (pinned or in-cache) has had its destructor run, dropping a
non-final reference runs no destructor and keeps the entry alive with its
count decremented, and the unref that drops the final reference logs
exactly one destructor invocation carrying the entry's (key, value) and
deallocates the entry. -/
theorem destructor_exactly_once (s : Shard) (hinv : EInv s) :
    (∀ ops : List COp, EInv (applyOps s ops)) ∧
    (∀ e ∈ s.heap, e.eid ∉ eventEids s) ∧
    (∀ e ∈ s.heap, 2 ≤ e.refs →
      (s.unref e.eid).events = s.events ∧
      findE e.eid (s.unref e.eid).heap = some { e with refs := e.refs - 1 }) ∧
    (∀ e ∈ s.heap, e.refs = 1 →
      (s.unref e.eid).events = s.events ++ [⟨e.eid, e.key, e.value⟩] ∧
      findE e.eid (s.unref e.eid).heap = none) := by
  refine ⟨fun ops => EInv_applyOps ops s hinv, hinv.2.1, fun e he hr => ?_, fun e he hr => ?_⟩
  · have hfe : findE e.eid s.heap = some e := findE_of_mem hinv.2.2.2.2 he
    rw [unref_dec s e.eid e hfe (by omega)]
    refine ⟨rfl, ?_⟩
    show findE e.eid (decRef e.eid s.heap) = _
    rw [findE_decRef_self, hfe]
    rfl
  · have hfe : findE e.eid s.heap = some e := findE_of_mem hinv.2.2.2.2 he
    rw [unref_destroy s e.eid e hfe (by omega)]
    refine ⟨rfl, ?_⟩
    show findE e.eid (dropE e.eid s.heap) = none
    rw [findE_none_iff]
    intro x hx
    exact (mem_dropE.mp hx).2

theorem destructor_exactly_once_witness :
    ((Shard.release (Shard.insertOp (Shard.init 10) [65] 2 5 1).1 0).unref 0).events =
      (Shard.release (Shard.insertOp (Shard.init 10) [65] 2 5 1).1 0).events ++
        [⟨0, [65], 5⟩] :=
  ((destructor_exactly_once (Shard.release (Shard.insertOp (Shard.init 10) [65] 2 5 1).1 0)
      (by unfold EInv eventEids; decide)).2.2.2
    ⟨0, [65], 2, 5, 1, 1⟩ (by decide) (by decide)).1

/-! ## Structural lemmas for `Resize` -/

theorem decRef_eq_map (eid : Nat) : ∀ l : List Entry,
    decRef eid l = l.map (fun x => if x.eid = eid then { x with refs := x.refs - 1 } else x)
  | [] => rfl
  | a :: l => by
      by_cases ha : a.eid = eid
      · simp [ha, decRef_eq_map eid l]
      · simp [ha, decRef_eq_map eid l]

theorem incRef_eq_map (eid : Nat) : ∀ l : List Entry,
    incRef eid l = l.map (fun x => if x.eid = eid then { x with refs := x.refs + 1 } else x)
  | [] => rfl
  | a :: l => by
      by_cases ha : a.eid = eid
      · simp [ha, incRef_eq_map eid l]
      · simp [ha, incRef_eq_map eid l]

theorem growLen_ge : ∀ (fuel l target : Nat), l ≤ growLen fuel l target
  | 0, _, _ => Nat.le_refl _
  | fuel + 1, l, target => by
      show l ≤ if l < target then growLen fuel (2 * l) target else l
      by_cases h : l < target
      · rw [if_pos h]
        exact Nat.le_trans (by omega) (growLen_ge fuel (2 * l) target)
      · rw [if_neg h]

theorem flatten_replicate_nil {α : Type} : ∀ n : Nat, (List.replicate n ([] : List α)).flatten = []
  | 0 => rfl
  | n + 1 => by
      rw [List.replicate_succ, List.flatten_cons, flatten_replicate_nil n]
      rfl

theorem foldl_spliceInto_length (n : Nat) : ∀ (chain : List TEntry) (acc : List (List TEntry)),
    (chain.foldl (spliceInto n) acc).length = acc.length
  | [], _ => rfl
  | te :: chain, acc => by
      show (chain.foldl (spliceInto n) (spliceInto n acc te)).length = acc.length
      rw [foldl_spliceInto_length n chain (spliceInto n acc te)]
      exact List.length_set acc _ _

theorem foldl_buckets_length (n : Nat) :
    ∀ (bss : List (List TEntry)) (acc : List (List TEntry)),
      (bss.foldl (fun a c => c.foldl (spliceInto n) a) acc).length = acc.length
  | [], _ => rfl
  | c :: bss, acc => by
      show (bss.foldl (fun a c => c.foldl (spliceInto n) a) (c.foldl (spliceInto n) acc)).length
        = acc.length
      rw [foldl_buckets_length n bss (c.foldl (spliceInto n) acc)]
      exact foldl_spliceInto_length n c acc

theorem spliceInto_flatten (n : Nat) (acc : List (List TEntry)) (te : TEntry)
    (hidx : te.hash &&& (n - 1) < acc.length) :
    ((spliceInto n acc te).flatten).Perm (te :: acc.flatten) := by
  obtain ⟨A, B, hA, hset⟩ := flatten_set_decomp acc (te.hash &&& (n - 1)) hidx
  show ((acc.set (te.hash &&& (n - 1))
    (te :: acc.getD (te.hash &&& (n - 1)) [])).flatten).Perm (te :: acc.flatten)
  rw [hset, hA]
  rw [List.append_assoc A, List.append_assoc A]
  exact List.perm_middle

theorem foldl_spliceInto_flatten (n : Nat) (h1 : 1 ≤ n) :
    ∀ (chain : List TEntry) (acc : List (List TEntry)), acc.length = n →
      ((chain.foldl (spliceInto n) acc).flatten).Perm (chain ++ acc.flatten)
  | [], _, _ => by simp
  | te :: chain, acc, hlen => by
      have hidx : te.hash &&& (n - 1) < acc.length := by
        rw [hlen]
        exact Nat.lt_of_le_of_lt Nat.and_le_right (by omega)
      have hlen2 : (spliceInto n acc te).length = n := by
        rw [← hlen]
        exact List.length_set acc _ _
      have ih := foldl_spliceInto_flatten n h1 chain (spliceInto n acc te) hlen2
      show ((chain.foldl (spliceInto n) (spliceInto n acc te)).flatten).Perm
        ((te :: chain) ++ acc.flatten)
      refine ih.trans ?_
      refine (List.Perm.append_left chain (spliceInto_flatten n acc te hidx)).trans ?_
      exact List.perm_middle

theorem foldl_buckets_flatten (n : Nat) (h1 : 1 ≤ n) :
    ∀ (bss : List (List TEntry)) (acc : List (List TEntry)), acc.length = n →
      ((bss.foldl (fun a c => c.foldl (spliceInto n) a) acc).flatten).Perm
        (bss.flatten ++ acc.flatten)
  | [], _, _ => by simp
  | c :: bss, acc, hlen => by
      have hl2 : (c.foldl (spliceInto n) acc).length = n :=
        (foldl_spliceInto_length n c acc).trans hlen
      have ih := foldl_buckets_flatten n h1 bss (c.foldl (spliceInto n) acc) hl2
      have hc := foldl_spliceInto_flatten n h1 c acc hlen
      show ((bss.foldl (fun a c => c.foldl (spliceInto n) a)
        (c.foldl (spliceInto n) acc)).flatten).Perm ((c :: bss).flatten ++ acc.flatten)
      refine ih.trans ?_
      refine (List.Perm.append_left bss.flatten hc).trans ?_
      rw [← List.append_assoc, List.flatten_cons, List.append_assoc c bss.flatten acc.flatten]
      rw [← List.append_assoc c bss.flatten acc.flatten]
      exact List.Perm.append_right acc.flatten List.perm_append_comm

theorem tEntries_resize (t : HandleTable) : (tEntries t.resize).Perm (tEntries t) := by
  have h4 : 4 ≤ growLen t.elems 4 t.elems := growLen_ge t.elems 4 t.elems
  have h1 : 1 ≤ growLen t.elems 4 t.elems := by omega
  have hlen : (List.replicate (growLen t.elems 4 t.elems) ([] : List TEntry)).length
      = growLen t.elems 4 t.elems := List.length_replicate _ _
  have := foldl_buckets_flatten (growLen t.elems 4 t.elems) h1 t.buckets
    (List.replicate (growLen t.elems 4 t.elems) []) hlen
  rw [flatten_replicate_nil] at this
  show ((t.buckets.foldl (fun acc chain => chain.foldl
    (spliceInto (growLen t.elems 4 t.elems)) acc)
    (List.replicate (growLen t.elems 4 t.elems) [])).flatten).Perm (tEntries t)
  refine this.trans ?_
  rw [List.append_nil]
  exact List.Perm.refl _

theorem resize_buckets_length (t : HandleTable) :
    (t.resize).buckets.length = growLen t.elems 4 t.elems := by
  show (t.buckets.foldl (fun acc chain => chain.foldl
    (spliceInto (growLen t.elems 4 t.elems)) acc)
    (List.replicate (growLen t.elems 4 t.elems) [])).length = _
  rw [foldl_buckets_length]
  exact List.length_replicate _ _

theorem spliceInto_place (n : Nat) (h1 : 1 ≤ n) (bs : List (List TEntry)) (e : TEntry)
    (hblen : bs.length = n)
    (hq : ∀ i, ∀ te ∈ bs.getD i [], te.hash &&& (n - 1) = i) :
    ∀ i, ∀ te ∈ (spliceInto n bs e).getD i [], te.hash &&& (n - 1) = i := by
  intro i te hte
  have hidx : e.hash &&& (n - 1) < bs.length := by
    rw [hblen]
    exact Nat.lt_of_le_of_lt Nat.and_le_right (by omega)
  by_cases hii : e.hash &&& (n - 1) = i
  · rw [show spliceInto n bs e = bs.set (e.hash &&& (n - 1))
      (e :: bs.getD (e.hash &&& (n - 1)) []) from rfl, hii] at hte
    rw [getD_set_self [] bs i _ (hii ▸ hidx)] at hte
    rcases List.mem_cons.mp hte with h2 | h2
    · rw [h2]
      exact hii
    · exact hq i te (by rw [← hii] at h2 ⊢; exact hii ▸ h2)
  · rw [show spliceInto n bs e = bs.set (e.hash &&& (n - 1))
      (e :: bs.getD (e.hash &&& (n - 1)) []) from rfl] at hte
    rw [getD_set_ne [] bs _ i _ hii] at hte
    exact hq i te hte

theorem foldl_spliceInto_place (n : Nat) (h1 : 1 ≤ n) :
    ∀ (chain : List TEntry) (bs : List (List TEntry)), bs.length = n →
      (∀ i, ∀ te ∈ bs.getD i [], te.hash &&& (n - 1) = i) →
      ∀ i, ∀ te ∈ (chain.foldl (spliceInto n) bs).getD i [], te.hash &&& (n - 1) = i
  | [], _, _, hq => hq
  | e :: chain, bs, hblen, hq => by
      show ∀ i, ∀ te ∈ (chain.foldl (spliceInto n) (spliceInto n bs e)).getD i [], _
      refine foldl_spliceInto_place n h1 chain (spliceInto n bs e) ?_ ?_
      · rw [show spliceInto n bs e = bs.set _ _ from rfl, List.length_set]
        exact hblen
      · exact spliceInto_place n h1 bs e hblen hq

theorem foldl_buckets_place (n : Nat) (h1 : 1 ≤ n) :
    ∀ (bss : List (List TEntry)) (bs : List (List TEntry)), bs.length = n →
      (∀ i, ∀ te ∈ bs.getD i [], te.hash &&& (n - 1) = i) →
      ∀ i, ∀ te ∈ (bss.foldl (fun a c => c.foldl (spliceInto n) a) bs).getD i [],
        te.hash &&& (n - 1) = i
  | [], _, _, hq => hq
  | c :: bss, bs, hblen, hq => by
      show ∀ i, ∀ te ∈ (bss.foldl (fun a c => c.foldl (spliceInto n) a)
        (c.foldl (spliceInto n) bs)).getD i [], _
      refine foldl_buckets_place n h1 bss (c.foldl (spliceInto n) bs) ?_ ?_
      · rw [foldl_spliceInto_length]
        exact hblen
      · exact foldl_spliceInto_place n h1 c bs hblen hq

theorem getD_replicate_nil {α : Type} :
    ∀ (n i : Nat), (List.replicate n ([] : List α)).getD i [] = [] := by
  intro n i
  exact getD_replicate [] n i

theorem TblInv_resize (t : HandleTable) (ht : TblInv t) : TblInv t.resize := by
  obtain ⟨hblen, hlen1, hpairs, helems, hplace⟩ := ht
  have h4 : 4 ≤ growLen t.elems 4 t.elems := growLen_ge t.elems 4 t.elems
  have h1 : 1 ≤ growLen t.elems 4 t.elems := by omega
  have hperm := tEntries_resize t
  refine ⟨resize_buckets_length t, h1, ?_, ?_, ?_⟩
  · exact ((hperm.map (fun te => (te.key, te.hash))).symm).nodup hpairs
  · show t.elems = (tEntries t.resize).length
    rw [hperm.length_eq]
    exact helems
  · intro i _ te hte
    refine foldl_buckets_place (growLen t.elems 4 t.elems) h1 t.buckets
      (List.replicate (growLen t.elems 4 t.elems) []) (List.length_replicate _ _)
      (fun j te2 h2 => ?_) i te hte
    rw [getD_replicate_nil] at h2
    exact absurd h2 (List.not_mem_nil te2)

/-! ## Table-level characterizations of Insert and Remove -/

theorem perm_extract_middle {α : Type} (A X Y B : List α) (c : α) :
    (A ++ (X ++ c :: Y) ++ B).Perm (c :: (A ++ (X ++ Y) ++ B)) := by
  have h1 : A ++ (X ++ c :: Y) ++ B = (A ++ X) ++ c :: (Y ++ B) := by
    simp [List.append_assoc]
  have h2 : (c :: ((A ++ X) ++ (Y ++ B)) : List α) = c :: (A ++ (X ++ Y) ++ B) := by
    simp [List.append_assoc]
  rw [h1, ← h2]
  exact List.perm_middle

theorem pair_inj {t : HandleTable}
    (hpairs : ((tEntries t).map (fun te => (te.key, te.hash))).Nodup) :
    ∀ x ∈ tEntries t, ∀ y ∈ tEntries t, x.key = y.key → x.hash = y.hash → x = y := by
  intro x hx y hy hk hh
  exact List.inj_on_of_nodup_map hpairs hx hy (by rw [hk, hh])

theorem mem_bucket_of_mem_tEntries {t : HandleTable} (ht : TblInv t) {te : TEntry}
    (hte : te ∈ tEntries t) :
    te ∈ t.buckets.getD (te.hash &&& (t.length - 1)) [] := by
  obtain ⟨hblen, hlen1, _, _, hplace⟩ := ht
  obtain ⟨chain, hchain, htec⟩ := List.mem_flatten.mp hte
  obtain ⟨j, hj, hget⟩ := List.mem_iff_getElem.mp hchain
  have hgd : t.buckets.getD j [] = chain := by
    rw [List.getD_eq_getElem t.buckets [] hj, hget]
  have hjlen : j < t.length := by
    rw [← hblen]
    exact hj
  have := hplace j (List.mem_range.mpr hjlen) te (by rw [hgd]; exact htec)
  rw [this, hgd]
  exact htec

theorem no_pair_match (t : HandleTable) (ht : TblInv t) (k : List Nat) (h : Nat)
    (hfind : chainFind k h (t.buckets.getD (h &&& (t.length - 1)) []) = none) :
    ∀ te ∈ tEntries t, ¬(te.key = k ∧ te.hash = h) := by
  intro te hte hcontra
  have hmem := mem_bucket_of_mem_tEntries ht hte
  rw [hcontra.2] at hmem
  exact (chainFind_none_iff.mp hfind te hmem) ⟨hcontra.2, hcontra.1⟩

theorem table_insert_props (t : HandleTable) (e : TEntry) (ht : TblInv t) :
    TblInv (t.insert e).1 ∧
    ((t.insert e).2 = none → (tEntries (t.insert e).1).Perm (e :: tEntries t)) ∧
    (∀ o, (t.insert e).2 = some o → o.key = e.key ∧ o.hash = e.hash ∧ o ∈ tEntries t ∧
      ∃ R, (tEntries t).Perm (o :: R) ∧ (tEntries (t.insert e).1).Perm (e :: R)) := by
  obtain ⟨hblen, hlen1, hpairs, helems, hplace⟩ := ht
  have hilt : e.hash &&& (t.length - 1) < t.buckets.length := by
    rw [hblen]
    exact Nat.lt_of_le_of_lt Nat.and_le_right (by omega)
  obtain ⟨A, B, hA, hset⟩ := flatten_set_decomp t.buckets (e.hash &&& (t.length - 1)) hilt
  cases hfind : chainFind e.key e.hash (t.buckets.getD (e.hash &&& (t.length - 1)) []) with
  | none =>
      have hins := insert_of_find_none t e hfind
      have hfresh := no_pair_match t ⟨hblen, hlen1, hpairs, helems, hplace⟩ e.key e.hash hfind
      -- the un-resized intermediate table
      have hperm1 : (tEntries { t with
          buckets := t.buckets.set (e.hash &&& (t.length - 1))
            (t.buckets.getD (e.hash &&& (t.length - 1)) [] ++ [e]),
          elems := t.elems + 1 }).Perm (e :: tEntries t) := by
        show ((t.buckets.set (e.hash &&& (t.length - 1))
          (t.buckets.getD (e.hash &&& (t.length - 1)) [] ++ [e])).flatten).Perm _
        rw [hset]
        have := perm_extract_middle A (t.buckets.getD (e.hash &&& (t.length - 1)) []) [] B e
        rw [List.append_nil] at this
        refine this.trans ?_
        rw [← hA]
        exact List.Perm.refl _
      have htinv1 : TblInv { t with
          buckets := t.buckets.set (e.hash &&& (t.length - 1))
            (t.buckets.getD (e.hash &&& (t.length - 1)) [] ++ [e]),
          elems := t.elems + 1 } := by
        refine ⟨?_, hlen1, ?_, ?_, ?_⟩
        · show (t.buckets.set _ _).length = t.length
          rw [List.length_set]
          exact hblen
        · refine ((hperm1.map (fun te => (te.key, te.hash))).symm).nodup ?_
          rw [List.map_cons, List.nodup_cons]
          refine ⟨?_, hpairs⟩
          intro hc
          obtain ⟨y, hy, hyx⟩ := List.mem_map.mp hc
          exact hfresh y hy ⟨congrArg Prod.fst hyx, congrArg Prod.snd hyx⟩
        · show t.elems + 1 = _
          rw [hperm1.length_eq]
          rw [List.length_cons, helems]
        · intro i _ te hte
          show te.hash &&& (t.length - 1) = i
          by_cases hii : e.hash &&& (t.length - 1) = i
          · rw [← hii] at hte
            rw [getD_set_self [] t.buckets _ _ hilt] at hte
            rcases List.mem_append.mp hte with h2 | h2
            · rw [← hii]
              have hi2 : e.hash &&& (t.length - 1) < t.length := hblen ▸ hilt
              exact hplace _ (List.mem_range.mpr hi2) te h2
            · obtain rfl := List.mem_singleton.mp h2
              exact hii
          · rw [getD_set_ne [] t.buckets _ i _ hii] at hte
            by_cases hir : i < t.length
            · exact hplace i (List.mem_range.mpr hir) te hte
            · have : i < t.buckets.length → False := by
                rw [hblen]
                exact fun hc => hir hc
              rw [List.getD_eq_getElem?_getD, List.getElem?_eq_none (by omega)] at hte
              exact absurd hte (List.not_mem_nil te)
      refine ⟨?_, fun _ => ?_, fun o ho => ?_⟩
      · rw [hins]
        by_cases hlt : t.length < t.elems + 1
        · rw [if_pos hlt]
          show TblInv (HandleTable.resize _)
          exact TblInv_resize _ htinv1
        · rw [if_neg hlt]
          exact htinv1
      · rw [hins]
        by_cases hlt : t.length < t.elems + 1
        · rw [if_pos hlt]
          show (tEntries (HandleTable.resize _)).Perm _
          exact (tEntries_resize _).trans hperm1
        · rw [if_neg hlt]
          exact hperm1
      · rw [hins] at ho
        by_cases hlt : t.length < t.elems + 1
        · rw [if_pos hlt] at ho
          exact absurd ho (by simp)
        · rw [if_neg hlt] at ho
          exact absurd ho (by simp)
  | some o0 =>
      obtain ⟨pre, suf, hb, hpre, hins⟩ := insert_of_find_some t e o0 hfind
      obtain ⟨hmemc, hh0, hk0⟩ := chainFind_some hfind
      have ho0mem : o0 ∈ tEntries t := mem_tEntries_of_getD hilt hmemc
      have hpermt : (tEntries t).Perm (o0 :: (A ++ (pre ++ suf) ++ B)) := by
        show (t.buckets.flatten).Perm _
        rw [hA, hb]
        exact perm_extract_middle A pre suf B o0
      have hperm2 : (tEntries (t.insert e).1).Perm (e :: (A ++ (pre ++ suf) ++ B)) := by
        rw [hins]
        show ((t.buckets.set (e.hash &&& (t.length - 1)) (pre ++ e :: suf)).flatten).Perm _
        rw [hset]
        exact perm_extract_middle A pre suf B e
      have hpairperm : ((tEntries (t.insert e).1).map (fun te => (te.key, te.hash))).Perm
          ((tEntries t).map (fun te => (te.key, te.hash))) := by
        refine (hperm2.map _).trans ?_
        refine List.Perm.trans ?_ ((hpermt.map _).symm)
        rw [List.map_cons, List.map_cons]
        rw [show ((e.key, e.hash) : List Nat × Nat) = (o0.key, o0.hash) by rw [hk0, hh0]]
      refine ⟨?_, fun hc => absurd (hc.symm.trans (by rw [hins])) (by simp), fun o ho => ?_⟩
      · have hfst : (t.insert e).1 =
            { t with buckets := t.buckets.set (e.hash &&& (t.length - 1)) (pre ++ e :: suf) } := by
          rw [hins]
        have hp2 := hpairperm.symm.nodup hpairs
        have hlen2 : (tEntries (t.insert e).1).length = (A ++ (pre ++ suf) ++ B).length + 1 := by
          rw [hperm2.length_eq]
          rfl
        have hlent : (tEntries t).length = (A ++ (pre ++ suf) ++ B).length + 1 := by
          rw [hpermt.length_eq]
          rfl
        rw [hfst] at hp2 hlen2
        rw [hfst]
        refine ⟨?_, hlen1, hp2, ?_, ?_⟩
        · show (t.buckets.set _ _).length = t.length
          rw [List.length_set]
          exact hblen
        · show t.elems = _
          omega
        · intro i _ te hte
          show te.hash &&& (t.length - 1) = i
          by_cases hii : e.hash &&& (t.length - 1) = i
          · rw [← hii] at hte
            rw [getD_set_self [] t.buckets _ _ hilt] at hte
            have hi2 : e.hash &&& (t.length - 1) < t.length := hblen ▸ hilt
            rcases List.mem_append.mp hte with h2 | h2
            · rw [← hii]
              refine hplace _ (List.mem_range.mpr hi2) te ?_
              rw [hb]
              exact List.mem_append.mpr (Or.inl h2)
            · rcases List.mem_cons.mp h2 with h3 | h3
              · rw [h3, ← hii]
              · rw [← hii]
                refine hplace _ (List.mem_range.mpr hi2) te ?_
                rw [hb]
                refine List.mem_append.mpr (Or.inr ?_)
                exact List.mem_cons_of_mem o0 h3
          · rw [getD_set_ne [] t.buckets _ i _ hii] at hte
            by_cases hir : i < t.length
            · exact hplace i (List.mem_range.mpr hir) te hte
            · rw [List.getD_eq_getElem?_getD, List.getElem?_eq_none (by rw [hblen]; omega)] at hte
              exact absurd hte (List.not_mem_nil te)
      · rw [hins] at ho
        obtain rfl : o0 = o := Option.some_inj.mp ho
        exact ⟨hk0, hh0, ho0mem, A ++ (pre ++ suf) ++ B, hpermt, hperm2⟩

theorem table_remove_props (t : HandleTable) (k : List Nat) (h : Nat) (ht : TblInv t) :
    TblInv (t.remove k h).1 ∧
    ((t.remove k h).2 = none → (t.remove k h).1 = t) ∧
    (∀ o, (t.remove k h).2 = some o → o.key = k ∧ o.hash = h ∧ o ∈ tEntries t ∧
      ∃ R, (tEntries t).Perm (o :: R) ∧ (tEntries (t.remove k h).1).Perm R ∧
        (t.remove k h).1.lookup k h = none) := by
  obtain ⟨hblen, hlen1, hpairs, helems, hplace⟩ := ht
  have hilt : h &&& (t.length - 1) < t.buckets.length := by
    rw [hblen]
    exact Nat.lt_of_le_of_lt Nat.and_le_right (by omega)
  obtain ⟨A, B, hA, hset⟩ := flatten_set_decomp t.buckets (h &&& (t.length - 1)) hilt
  cases hfind : chainFind k h (t.buckets.getD (h &&& (t.length - 1)) []) with
  | none =>
      have hrm := remove_of_find_none t k h hfind
      refine ⟨?_, fun _ => by rw [hrm], fun o ho => absurd ((by rw [hrm] : (t.remove k h).2 = none).symm.trans ho) (by simp)⟩
      rw [hrm]
      exact ⟨hblen, hlen1, hpairs, helems, hplace⟩
  | some o0 =>
      obtain ⟨pre, suf, hb, hpre, hrm⟩ := remove_of_find_some t k h o0 hfind
      obtain ⟨hmemc, hh0, hk0⟩ := chainFind_some hfind
      have ho0mem : o0 ∈ tEntries t := mem_tEntries_of_getD hilt hmemc
      have hpermt : (tEntries t).Perm (o0 :: (A ++ (pre ++ suf) ++ B)) := by
        show (t.buckets.flatten).Perm _
        rw [hA, hb]
        exact perm_extract_middle A pre suf B o0
      have hperm2 : tEntries (t.remove k h).1 = A ++ (pre ++ suf) ++ B := by
        rw [hrm]
        show (t.buckets.set (h &&& (t.length - 1)) (pre ++ suf)).flatten = _
        rw [hset]
      -- the shrunken chain has no remaining (key, hash) match
      have hchainpairs : ((pre ++ o0 :: suf).map (fun x => (x.key, x.hash))).Nodup := by
        refine List.Nodup.sublist (List.Sublist.map _ ?_) hpairs
        rw [← hb]
        exact sublist_flatten_getD t.buckets _ hilt
      have hsufnone : chainFind k h suf = none := by
        rw [chainFind_none_iff]
        intro x hx hcontra
        have h1 : ((o0 :: suf).map (fun x => (x.key, x.hash))).Nodup :=
          List.Nodup.sublist (List.Sublist.map _ (List.sublist_append_right pre _)) hchainpairs
        rw [List.map_cons, List.nodup_cons] at h1
        refine h1.1 ?_
        have : ((x.key, x.hash) : List Nat × Nat) = (o0.key, o0.hash) := by
          rw [hcontra.2, hcontra.1, hk0, hh0]
        rw [← this]
        exact List.mem_map_of_mem _ hx
      have hlkafter : (t.remove k h).1.lookup k h = none := by
        rw [lookup_eq, hrm]
        show chainFind k h ((t.buckets.set (h &&& (t.length - 1))
          (pre ++ suf)).getD (h &&& (t.length - 1)) []) = none
        rw [getD_set_self [] t.buckets _ _ hilt]
        rw [chainFind_append_none hpre]
        exact hsufnone
      refine ⟨?_, fun hc => absurd (hc.symm.trans (by rw [hrm])) (by simp), fun o ho => ?_⟩
      · rw [hrm]
        refine ⟨?_, hlen1, ?_, ?_, ?_⟩
        · show (t.buckets.set _ _).length = t.length
          rw [List.length_set]
          exact hblen
        · have : ((tEntries (t.remove k h).1).map (fun te => (te.key, te.hash))).Nodup := by
            rw [hperm2]
            have h2 := (hpermt.map (fun te => (te.key, te.hash))).nodup hpairs
            rw [List.map_cons, List.nodup_cons] at h2
            exact h2.2
          rw [hrm] at this
          exact this
        · show t.elems - 1 = _
          have h2 := hpermt.length_eq
          rw [List.length_cons] at h2
          have h3 : tEntries { t with
              buckets := t.buckets.set (h &&& (t.length - 1)) (pre ++ suf),
              elems := t.elems - 1 } = A ++ (pre ++ suf) ++ B := by
            rw [← hperm2, hrm]
          rw [h3]
          have h4 : (A ++ (pre ++ suf) ++ B).length + 1 = (tEntries t).length := by
            rw [h2]
          omega
        · intro i _ te hte
          show te.hash &&& (t.length - 1) = i
          by_cases hii : h &&& (t.length - 1) = i
          · rw [← hii] at hte
            rw [getD_set_self [] t.buckets _ _ hilt] at hte
            have hi2 : h &&& (t.length - 1) < t.length := hblen ▸ hilt
            rw [← hii]
            refine hplace _ (List.mem_range.mpr hi2) te ?_
            rw [hb]
            rcases List.mem_append.mp hte with h2 | h2
            · exact List.mem_append.mpr (Or.inl h2)
            · exact List.mem_append.mpr (Or.inr (List.mem_cons_of_mem o0 h2))
          · rw [getD_set_ne [] t.buckets _ i _ hii] at hte
            by_cases hir : i < t.length
            · exact hplace i (List.mem_range.mpr hir) te hte
            · rw [List.getD_eq_getElem?_getD, List.getElem?_eq_none (by rw [hblen]; omega)] at hte
              exact absurd hte (List.not_mem_nil te)
      · rw [hrm] at ho
        obtain rfl : o0 = o := Option.some_inj.mp ho
        refine ⟨hk0, hh0, ho0mem, A ++ (pre ++ suf) ++ B, hpermt, ?_, hlkafter⟩
        rw [← hperm2, hrm]

/-! ## Shard invariant preservation -/

theorem remove_snd (t : HandleTable) (k : List Nat) (h : Nat) :
    (t.remove k h).2 = chainFind k h (t.buckets.getD (h &&& (t.length - 1)) []) := by
  rw [← chainRemove_snd]
  simp only [HandleTable.remove]
  split
  · rename_i heq
    rw [heq]
  · rename_i te heq
    rw [heq]

theorem SInv_unref_detached (s : Shard) (eid : Nat) (hinv : SInv s)
    (hnotbl : ∀ te ∈ tEntries s.table, te.eid ≠ eid) (_hnolru : eid ∉ s.lru) :
    SInv (s.unref eid) ∧
    (s.unref eid).capacity = s.capacity ∧
    (s.unref eid).lru = s.lru ∧
    (s.unref eid).table = s.table ∧
    (∀ y ∈ s.heap, y.eid ≠ eid → y ∈ (s.unref eid).heap) ∧
    (∀ e, findE eid s.heap = some e → 2 ≤ e.refs →
      { e with refs := e.refs - 1 } ∈ (s.unref eid).heap) := by
  obtain ⟨husage, hnodup, hrefs, hlrund, htinv, htheap, hperm⟩ := hinv
  cases hfe : findE eid s.heap with
  | none =>
      rw [unref_of_dead s eid hfe]
      exact ⟨⟨husage, hnodup, hrefs, hlrund, htinv, htheap, hperm⟩, rfl, rfl, rfl,
        fun y hy _ => hy,
        fun e he _ => absurd he (by simp)⟩
  | some e =>
      obtain ⟨hemem, heeid⟩ := findE_some hfe
      by_cases hr : e.refs ≤ 1
      · rw [unref_destroy s eid e hfe hr]
        have hpermh : s.heap.Perm (e :: dropE eid s.heap) := perm_cons_dropE hnodup hemem heeid
        refine ⟨⟨?_, ?_, ?_, hlrund, htinv, ?_, hperm⟩, rfl, rfl, rfl, ?_, ?_⟩
        · show s.usage - e.charge = ((dropE eid s.heap).map Entry.charge).sum
          have hs := (hpermh.map Entry.charge).sum_eq
          rw [List.map_cons, List.sum_cons] at hs
          omega
        · exact List.Nodup.sublist (List.Sublist.map _ (dropE_sublist eid s.heap)) hnodup
        · intro y hy
          exact hrefs y (mem_dropE.mp hy).1
        · intro te hte
          obtain ⟨y, hy, hyeid, hykey, hyhash⟩ := htheap te hte
          refine ⟨y, ?_, hyeid, hykey, hyhash⟩
          exact mem_dropE.mpr ⟨hy, fun hc => hnotbl te hte (hyeid ▸ hc : te.eid = eid)⟩
        · intro y hy hyne
          exact mem_dropE.mpr ⟨hy, hyne⟩
        · intro e2 he2 h2
          obtain rfl : e = e2 := Option.some_inj.mp he2
          omega
      · rw [unref_dec s eid e hfe hr]
        refine ⟨⟨?_, ?_, ?_, hlrund, htinv, ?_, hperm⟩, rfl, rfl, rfl, ?_, ?_⟩
        · show s.usage = ((decRef eid s.heap).map Entry.charge).sum
          rw [decRef_map_charge]
          exact husage
        · show ((decRef eid s.heap).map Entry.eid).Nodup
          rw [decRef_map_eid]
          exact hnodup
        · intro y hy
          obtain ⟨e2, he2, hor⟩ := mem_decRef hy
          rcases hor with ⟨heq, hyeq⟩ | ⟨_, hyeq⟩
          · have he2e : e2 = e :=
              List.inj_on_of_nodup_map hnodup he2 hemem (heq.trans heeid.symm)
            rw [hyeq]
            refine ⟨(hrefs e2 he2).1, ?_⟩
            show 1 ≤ e2.refs - 1
            rw [he2e]
            omega
          · rw [hyeq]
            exact hrefs e2 he2
        · intro te hte
          obtain ⟨y, hy, hyeid, hykey, hyhash⟩ := htheap te hte
          rw [decRef_eq_map]
          by_cases hyx : y.eid = eid
          · refine ⟨{ y with refs := y.refs - 1 }, ?_, hyeid, hykey, hyhash⟩
            have himg : (fun x => if x.eid = eid then { x with refs := x.refs - 1 } else x) y
                = { y with refs := y.refs - 1 } := by
              show (if y.eid = eid then { y with refs := y.refs - 1 } else y) = _
              rw [if_pos hyx]
            rw [← himg]
            exact List.mem_map_of_mem _ hy
          · refine ⟨y, ?_, hyeid, hykey, hyhash⟩
            have himg : (fun x => if x.eid = eid then { x with refs := x.refs - 1 } else x) y
                = y := by
              show (if y.eid = eid then { y with refs := y.refs - 1 } else y) = _
              rw [if_neg hyx]
            rw [← himg]
            exact List.mem_map_of_mem _ hy
        · intro y hy hyne
          rw [decRef_eq_map]
          have himg : (fun x => if x.eid = eid then { x with refs := x.refs - 1 } else x) y
              = y := by
            show (if y.eid = eid then { y with refs := y.refs - 1 } else y) = _
            rw [if_neg hyne]
          rw [← himg]
          exact List.mem_map_of_mem _ hy
        · intro e2 he2 h2
          obtain rfl : e = e2 := Option.some_inj.mp he2
          rw [decRef_eq_map]
          have himg : (fun x => if x.eid = eid then { x with refs := x.refs - 1 } else x) e =
              { e with refs := e.refs - 1 } := by
            show (if e.eid = eid then { e with refs := e.refs - 1 } else e) = _
            rw [if_pos heeid]
          rw [← himg]
          exact List.mem_map_of_mem _ hemem

theorem SInv_evict_step (s : Shard) (head : Nat) (rest : List Nat) (oe : Entry)
    (hinv : SInv s) (hlru : s.lru = head :: rest) (hoe : findE head s.heap = some oe) :
    SInv (Shard.unref { s with lru := rest, table := (s.table.remove oe.key oe.hash).1 } head) ∧
    (Shard.unref { s with lru := rest, table := (s.table.remove oe.key oe.hash).1 } head).capacity = s.capacity ∧
    (Shard.unref { s with lru := rest, table := (s.table.remove oe.key oe.hash).1 } head).lru = rest ∧
    (∀ y ∈ s.heap, y.eid ≠ head → y ∈ (Shard.unref { s with lru := rest, table := (s.table.remove oe.key oe.hash).1 } head).heap) ∧
    (2 ≤ oe.refs → { oe with refs := oe.refs - 1 } ∈ (Shard.unref { s with lru := rest, table := (s.table.remove oe.key oe.hash).1 } head).heap) := by
  obtain ⟨husage, hnodup, hrefs, hlrund, htinv, htheap, hperm⟩ := hinv
  obtain ⟨hoemem, hoeeid⟩ := findE_some hoe
  have hheadlru : head ∈ s.lru := by
    rw [hlru]
    exact List.mem_cons_self head rest
  have hheadtbl : head ∈ (tEntries s.table).map TEntry.eid := hperm.mem_iff.mpr hheadlru
  obtain ⟨te, hte, hteeid⟩ := List.mem_map.mp hheadtbl
  obtain ⟨y, hy, hyeid, hykey, hyhash⟩ := htheap te hte
  have hyoe : y = oe :=
    List.inj_on_of_nodup_map hnodup hy hoemem (by rw [hyeid, hteeid, hoeeid])
  have htekey : te.key = oe.key := by
    rw [← hyoe, hykey]
  have htehash : te.hash = oe.hash := by
    rw [← hyoe, hyhash]
  have hheadnotrest : head ∉ rest := by
    rw [hlru] at hlrund
    exact (List.nodup_cons.mp hlrund).1
  obtain ⟨htinv2, _, hsome⟩ := table_remove_props s.table oe.key oe.hash htinv
  have hcf : chainFind oe.key oe.hash
      (s.table.buckets.getD (oe.hash &&& (s.table.length - 1)) []) ≠ none := by
    intro hc
    refine chainFind_none_iff.mp hc te ?_ ⟨htehash, htekey⟩
    have := mem_bucket_of_mem_tEntries htinv hte
    rw [htehash] at this
    exact this
  cases hrm2 : (s.table.remove oe.key oe.hash).2 with
  | none =>
      rw [remove_snd] at hrm2
      exact absurd hrm2 hcf
  | some o =>
      obtain ⟨hokey, hohash, homem, R, hpermt, hpermR, _⟩ := hsome o hrm2
      have hote : o = te := pair_inj htinv.2.2.1 o homem te hte
        (by rw [hokey, htekey]) (by rw [hohash, htehash])
      have hoeid : o.eid = head := by
        rw [hote, hteeid]
      have hpermmid : ((tEntries (s.table.remove oe.key oe.hash).1).map TEntry.eid).Perm rest := by
        have h1 : ((tEntries s.table).map TEntry.eid).Perm (head :: R.map TEntry.eid) := by
          have := hpermt.map TEntry.eid
          rw [List.map_cons, hoeid] at this
          exact this
        have h2 : ((tEntries s.table).map TEntry.eid).Perm (head :: rest) := by
          rw [← hlru]
          exact hperm
        have h3 : (R.map TEntry.eid).Perm rest := (h1.symm.trans h2).cons_inv
        exact (hpermR.map TEntry.eid).trans h3
      have hmidinv : SInv { s with lru := rest, table := (s.table.remove oe.key oe.hash).1 } := by
        refine ⟨husage, hnodup, hrefs, ?_, htinv2, ?_, hpermmid⟩
        · rw [hlru] at hlrund
          exact (List.nodup_cons.mp hlrund).2
        · intro te2 hte2
          refine htheap te2 ?_
          have h4 : te2 ∈ R := hpermR.mem_iff.mp hte2
          exact hpermt.mem_iff.mpr (List.mem_cons_of_mem o h4)
      have hnotbl2 : ∀ te2 ∈ tEntries (s.table.remove oe.key oe.hash).1, te2.eid ≠ head := by
        intro te2 hte2 hc
        exact hheadnotrest (hpermmid.mem_iff.mp (hc ▸ List.mem_map_of_mem TEntry.eid hte2))
      obtain ⟨hsinv, hcap, hlru2, _, hfate, hdecfate⟩ :=
        SInv_unref_detached { s with lru := rest, table := (s.table.remove oe.key oe.hash).1 }
          head hmidinv hnotbl2 hheadnotrest
      exact ⟨hsinv, hcap, hlru2, fun y2 hy2 hy2ne => hfate y2 hy2 hy2ne,
        fun h2 => hdecfate oe hoe h2⟩

/-! ## The eviction loop -/

theorem evictOne_eq (s : Shard) (head : Nat) (rest : List Nat) (oe : Entry)
    (hl : s.lru = head :: rest) (hfe : findE head s.heap = some oe) :
    evictOne s =
      Shard.unref { s with lru := rest, table := (s.table.remove oe.key oe.hash).1 } head := by
  simp only [evictOne]
  rw [hl]
  show (match findE head s.heap with
    | none => s
    | some oe2 =>
        Shard.unref { s with lru := rest, table := (s.table.remove oe2.key oe2.hash).1 } head) = _
  rw [hfe]

theorem evictSteps_of_le (fuel : Nat) (s : Shard) (hu : s.usage ≤ s.capacity) :
    evictSteps fuel s = s := by
  cases fuel with
  | zero => rfl
  | succ n =>
      rw [evictSteps_succ, if_pos hu]

theorem evictSteps_else (fuel : Nat) (s : Shard) (head : Nat) (rest : List Nat) (oe : Entry)
    (hu : ¬ s.usage ≤ s.capacity) (hl : s.lru = head :: rest)
    (hfe : findE head s.heap = some oe) :
    evictSteps (fuel + 1) s =
      evictSteps fuel
        (Shard.unref { s with lru := rest, table := (s.table.remove oe.key oe.hash).1 } head) := by
  rw [evictSteps_succ, if_neg hu, hl]
  show (match findE head s.heap with
    | none => s
    | some oe2 =>
        evictSteps fuel
          (Shard.unref { s with lru := rest, table := (s.table.remove oe2.key oe2.hash).1 } head)) = _
  rw [hfe]

theorem evictN_succ (n : Nat) (s : Shard) : evictN (n + 1) s = evictN n (evictOne s) := rfl

/-- A live entry exists in the heap for every member of the recency list. -/
theorem lru_mem_heap (s : Shard) (hinv : SInv s) :
    ∀ x ∈ s.lru, ∃ e ∈ s.heap, e.eid = x := by
  obtain ⟨_, _, _, _, _, htheap, hperm⟩ := hinv
  intro x hx
  obtain ⟨te, hte, hteeid⟩ := List.mem_map.mp (hperm.mem_iff.mpr hx)
  obtain ⟨e, he, heeid, _, _⟩ := htheap te hte
  exact ⟨e, he, heeid.trans hteeid⟩

theorem evict_loop_props : ∀ (fuel : Nat) (s : Shard), s.lru.length ≤ fuel → SInv s →
    SInv (evictSteps fuel s) ∧
    (evictSteps fuel s).capacity = s.capacity ∧
    ((evictSteps fuel s).usage ≤ s.capacity ∨ (evictSteps fuel s).lru = []) ∧
    ∃ n, evictSteps fuel s = evictN n s ∧ (evictSteps fuel s).lru = s.lru.drop n ∧
      (∀ m, m < n → ¬ (evictN m s).usage ≤ (evictN m s).capacity ∧ (evictN m s).lru ≠ [])
  | 0, s, hlen, hinv => by
      have hl : s.lru = [] := List.length_eq_zero.mp (by omega)
      exact ⟨hinv, rfl, Or.inr hl, 0, rfl, rfl, fun m hm => absurd hm (by omega)⟩
  | fuel2 + 1, s, hlen, hinv => by
      by_cases hu : s.usage ≤ s.capacity
      · rw [evictSteps_of_le (fuel2 + 1) s hu]
        exact ⟨hinv, rfl, Or.inl hu, 0, rfl, rfl, fun m hm => absurd hm (by omega)⟩
      · cases hl : s.lru with
        | nil =>
            have hred : evictSteps (fuel2 + 1) s = s := by
              rw [evictSteps_succ, if_neg hu, hl]
            rw [hred]
            exact ⟨hinv, rfl, Or.inr hl, 0, rfl, by rw [hl]; rfl, fun m hm => absurd hm (by omega)⟩
        | cons head rest =>
            obtain ⟨oe, hoe, hoeeid⟩ := lru_mem_heap s hinv head
              (by rw [hl]; exact List.mem_cons_self _ _)
            have hfe : findE head s.heap = some oe := by
              rw [← hoeeid]
              exact findE_of_mem hinv.2.1 hoe
            obtain ⟨hsinv2, hcap2, hlru2, _, _⟩ := SInv_evict_step s head rest oe hinv hl hfe
            have hstep := evictSteps_else fuel2 s head rest oe hu hl hfe
            have hlen2 : (Shard.unref { s with lru := rest, table := (s.table.remove oe.key oe.hash).1 } head).lru.length ≤ fuel2 := by
              rw [hlru2]
              rw [hl] at hlen
              simpa using Nat.le_of_succ_le_succ hlen
            obtain ⟨ih1, ih2, ih3, n, ihn1, ihn2, ihn3⟩ :=
              evict_loop_props fuel2 _ hlen2 hsinv2
            have hone : evictOne s = Shard.unref { s with lru := rest, table := (s.table.remove oe.key oe.hash).1 } head :=
              evictOne_eq s head rest oe hl hfe
            rw [hstep]
            refine ⟨ih1, ih2.trans hcap2, ?_, n + 1, ?_, ?_, ?_⟩
            · rw [hcap2] at ih3
              exact ih3
            · rw [ihn1, evictN_succ, hone]
            · rw [ihn2, hlru2]
              rfl
            · intro m hm
              cases m with
              | zero =>
                  refine ⟨hu, ?_⟩
                  rw [show evictN 0 s = s from rfl, hl]
                  simp
              | succ m2 =>
                  rw [evictN_succ, hone]
                  exact ihn3 m2 (by omega)

theorem insertOp_decomp (s : Shard) (k : List Nat) (h v c : Nat) (hinv : SInv s) :
    ∃ s3 : Shard,
      s.insertOp k h v c = (evictLoop s3, s.nextEid) ∧
      SInv s3 ∧
      s3.capacity = s.capacity ∧
      (⟨s.nextEid, k, h, v, c, 2⟩ : Entry) ∈ s3.heap ∧
      s.nextEid ∈ s3.lru := by
  obtain ⟨husage, hnodup, hrefs, hlrund, htinv, htheap, hperm⟩ := hinv
  have hfresh : s.nextEid ∉ s.lru := by
    intro hc
    obtain ⟨e, he, heeid⟩ := lru_mem_heap s
      ⟨husage, hnodup, hrefs, hlrund, htinv, htheap, hperm⟩ s.nextEid hc
    have := (hrefs e he).1
    omega
  obtain ⟨hins1, hinsnone, hinssome⟩ :=
    table_insert_props s.table ⟨s.nextEid, k, h⟩ htinv
  have hpermcons : ((s.nextEid :: s.lru) : List Nat).Perm (s.lru ++ [s.nextEid]) := by
    have h4 : ((s.lru ++ s.nextEid :: []) : List Nat).Perm (s.nextEid :: (s.lru ++ [])) :=
      List.perm_middle
    simpa using h4.symm
  simp only [Shard.insertOp]
  cases hd : (s.table.insert ⟨s.nextEid, k, h⟩).2 with
  | none =>
      have hpermnew := hinsnone hd
      refine ⟨{ s with heap := s.heap ++ [⟨s.nextEid, k, h, v, c, 2⟩], lru := s.lru ++ [s.nextEid], usage := s.usage + c, nextEid := s.nextEid + 1, table := (s.table.insert ⟨s.nextEid, k, h⟩).1 }, rfl, ⟨?_, ?_, ?_, ?_, hins1, ?_, ?_⟩, rfl, ?_, ?_⟩
      · show s.usage + c = ((s.heap ++ [(⟨s.nextEid, k, h, v, c, 2⟩ : Entry)]).map Entry.charge).sum
        rw [List.map_append, List.sum_append, husage]
        rfl
      · show ((s.heap ++ [(⟨s.nextEid, k, h, v, c, 2⟩ : Entry)]).map Entry.eid).Nodup
        rw [List.map_append, List.nodup_append]
        refine ⟨hnodup, by simp, fun x hx => ?_⟩
        simp only [List.map_cons, List.map_nil, List.mem_singleton]
        intro hc
        obtain ⟨y, hy, hyx⟩ := List.mem_map.mp hx
        have := (hrefs y hy).1
        omega
      · intro e he
        rcases List.mem_append.mp he with h1 | h1
        · exact ⟨Nat.lt_succ_of_lt (hrefs e h1).1, (hrefs e h1).2⟩
        · obtain rfl := List.mem_singleton.mp h1
          exact ⟨Nat.lt_succ_self _, show (1 : Nat) ≤ 2 by omega⟩
      · show (s.lru ++ [s.nextEid]).Nodup
        rw [List.nodup_append]
        refine ⟨hlrund, by simp, fun x hx => ?_⟩
        simp only [List.mem_singleton]
        intro hc
        exact hfresh (hc ▸ hx)
      · intro te hte
        have h2 : te ∈ (⟨s.nextEid, k, h⟩ : TEntry) :: tEntries s.table :=
          hpermnew.mem_iff.mp hte
        rcases List.mem_cons.mp h2 with h3 | h3
        · refine ⟨⟨s.nextEid, k, h, v, c, 2⟩, List.mem_append.mpr (Or.inr (by simp)), ?_⟩
          rw [h3]
          exact ⟨rfl, rfl, rfl⟩
        · obtain ⟨e, he, hx⟩ := htheap te h3
          exact ⟨e, List.mem_append.mpr (Or.inl he), hx⟩
      · show ((tEntries (s.table.insert ⟨s.nextEid, k, h⟩).1).map TEntry.eid).Perm
          (s.lru ++ [s.nextEid])
        exact (hpermnew.map TEntry.eid).trans ((hperm.cons s.nextEid).trans hpermcons)
      · exact List.mem_append.mpr (Or.inr (by simp))
      · exact List.mem_append.mpr (Or.inr (by simp))
  | some o =>
      obtain ⟨hokey, hohash, homem, R, hpermt, hpermR⟩ := hinssome o hd
      obtain ⟨oldE, holdmem, holdeid, holdkey, holdhash⟩ := htheap o homem
      have hoidlt : o.eid < s.nextEid := holdeid ▸ (hrefs oldE holdmem).1
      have hoidlru : o.eid ∈ s.lru :=
        hperm.mem_iff.mp (List.mem_map_of_mem TEntry.eid homem)
      have hlrusplit : lruRemove o.eid (s.lru ++ [s.nextEid]) =
          lruRemove o.eid s.lru ++ [s.nextEid] :=
        lruRemove_append_left o.eid s.lru [s.nextEid] hoidlru
      have hnewne : s.nextEid ≠ o.eid := by omega
      have hmapnodup : ((tEntries s.table).map TEntry.eid).Nodup := hperm.symm.nodup hlrund
      have h1t : ((tEntries s.table).map TEntry.eid).Perm (o.eid :: R.map TEntry.eid) := by
        have h0 := hpermt.map TEntry.eid
        rw [List.map_cons] at h0
        exact h0
      have h1new : ((tEntries (s.table.insert ⟨s.nextEid, k, h⟩).1).map TEntry.eid).Perm
          (s.nextEid :: R.map TEntry.eid) := by
        have h0 := hpermR.map TEntry.eid
        rw [List.map_cons] at h0
        exact h0
      have hoidnotR : o.eid ∉ R.map TEntry.eid :=
        (List.nodup_cons.mp (h1t.nodup hmapnodup)).1
      have hpermRlru : (R.map TEntry.eid).Perm (lruRemove o.eid s.lru) := by
        have h2 : s.lru.Perm (o.eid :: lruRemove o.eid s.lru) :=
          perm_cons_lruRemove o.eid s.lru hoidlru
        exact (h1t.symm.trans (hperm.trans h2)).cons_inv
      have hpermmid : ((tEntries (s.table.insert ⟨s.nextEid, k, h⟩).1).map TEntry.eid).Perm
          (lruRemove o.eid s.lru ++ [s.nextEid]) := by
        refine h1new.trans ?_
        refine (hpermRlru.cons s.nextEid).trans ?_
        have h4 : ((lruRemove o.eid s.lru ++ s.nextEid :: []) : List Nat).Perm
            (s.nextEid :: (lruRemove o.eid s.lru ++ [])) := List.perm_middle
        simpa using h4.symm
      have hmidinv : SInv { s with
          heap := s.heap ++ [⟨s.nextEid, k, h, v, c, 2⟩],
          lru := lruRemove o.eid (s.lru ++ [s.nextEid]),
          usage := s.usage + c, nextEid := s.nextEid + 1,
          table := (s.table.insert ⟨s.nextEid, k, h⟩).1 } := by
        refine ⟨?_, ?_, ?_, ?_, hins1, ?_, ?_⟩
        · show s.usage + c = ((s.heap ++ [(⟨s.nextEid, k, h, v, c, 2⟩ : Entry)]).map Entry.charge).sum
          rw [List.map_append, List.sum_append, husage]
          rfl
        · show ((s.heap ++ [(⟨s.nextEid, k, h, v, c, 2⟩ : Entry)]).map Entry.eid).Nodup
          rw [List.map_append, List.nodup_append]
          refine ⟨hnodup, by simp, fun x hx => ?_⟩
          simp only [List.map_cons, List.map_nil, List.mem_singleton]
          intro hc
          obtain ⟨y, hy, hyx⟩ := List.mem_map.mp hx
          have := (hrefs y hy).1
          omega
        · intro e he
          rcases List.mem_append.mp he with h1 | h1
          · exact ⟨Nat.lt_succ_of_lt (hrefs e h1).1, (hrefs e h1).2⟩
          · obtain rfl := List.mem_singleton.mp h1
            exact ⟨Nat.lt_succ_self _, show (1 : Nat) ≤ 2 by omega⟩
        · show (lruRemove o.eid (s.lru ++ [s.nextEid])).Nodup
          rw [hlrusplit, List.nodup_append]
          refine ⟨List.Nodup.sublist (lruRemove_sublist o.eid s.lru) hlrund, by simp,
            fun x hx => ?_⟩
          simp only [List.mem_singleton]
          intro hc
          exact hfresh (hc ▸ mem_of_mem_lruRemove hx)
        · intro te hte
          have h2 : te ∈ (⟨s.nextEid, k, h⟩ : TEntry) :: R := hpermR.mem_iff.mp hte
          rcases List.mem_cons.mp h2 with h3 | h3
          · refine ⟨⟨s.nextEid, k, h, v, c, 2⟩, List.mem_append.mpr (Or.inr (by simp)), ?_⟩
            rw [h3]
            exact ⟨rfl, rfl, rfl⟩
          · have h4 : te ∈ tEntries s.table :=
              hpermt.mem_iff.mpr (List.mem_cons_of_mem o h3)
            obtain ⟨e, he, hx⟩ := htheap te h4
            exact ⟨e, List.mem_append.mpr (Or.inl he), hx⟩
        · show ((tEntries (s.table.insert ⟨s.nextEid, k, h⟩).1).map TEntry.eid).Perm
            (lruRemove o.eid (s.lru ++ [s.nextEid]))
          rw [hlrusplit]
          exact hpermmid
      have hnotbl : ∀ te ∈ tEntries (s.table.insert ⟨s.nextEid, k, h⟩).1, te.eid ≠ o.eid := by
        intro te hte hc
        have h2 : te.eid ∈ (s.nextEid :: R.map TEntry.eid : List Nat) :=
          h1new.mem_iff.mp (List.mem_map_of_mem TEntry.eid hte)
        rcases List.mem_cons.mp h2 with h3 | h3
        · exact hnewne (h3.symm.trans hc)
        · exact hoidnotR (hc ▸ h3)
      have hnolru : o.eid ∉ lruRemove o.eid (s.lru ++ [s.nextEid]) := by
        rw [hlrusplit]
        rw [List.mem_append]
        rintro (h3 | h3)
        · exact not_mem_lruRemove_self o.eid s.lru hlrund h3
        · exact hnewne (List.mem_singleton.mp h3).symm
      obtain ⟨hsinv3, hcap3, hlru3, _, hfate, _⟩ :=
        SInv_unref_detached { s with
          heap := s.heap ++ [⟨s.nextEid, k, h, v, c, 2⟩],
          lru := lruRemove o.eid (s.lru ++ [s.nextEid]),
          usage := s.usage + c, nextEid := s.nextEid + 1,
          table := (s.table.insert ⟨s.nextEid, k, h⟩).1 } o.eid hmidinv hnotbl hnolru
      refine ⟨Shard.unref { s with heap := s.heap ++ [⟨s.nextEid, k, h, v, c, 2⟩], lru := lruRemove o.eid (s.lru ++ [s.nextEid]), usage := s.usage + c, nextEid := s.nextEid + 1, table := (s.table.insert ⟨s.nextEid, k, h⟩).1 } o.eid, rfl, hsinv3, hcap3, ?_, ?_⟩
      · refine hfate ⟨s.nextEid, k, h, v, c, 2⟩ (List.mem_append.mpr (Or.inr (by simp))) ?_
        exact hnewne
      · rw [hlru3, hlrusplit]
        exact List.mem_append.mpr (Or.inr (by simp))

/-! ## Usage accounting across Insert: claim C1 -/

/-- Claim C1 (amended): the usage counter equals the sum of the charges of
all live entries — including entries already evicted or overwritten that
are still pinned by outstanding handles, whose charge keeps counting toward
usage until their last reference is dropped — and after any Insert returns,
usage does not exceed the shard's capacity except when the recency list is
empty. -/
theorem usage_counts_all_live_entries (s : Shard) (k : List Nat) (h v c : Nat)
    (hinv : SInv s) :
    SInv (s.insertOp k h v c).1 ∧
    (s.insertOp k h v c).1.usage = (((s.insertOp k h v c).1.heap).map Entry.charge).sum ∧
    ((s.insertOp k h v c).1.usage ≤ (s.insertOp k h v c).1.capacity ∨
      (s.insertOp k h v c).1.lru = []) := by
  obtain ⟨s3, hdec, hsinv3, hcap3, _, _⟩ := insertOp_decomp s k h v c hinv
  have h1 : (s.insertOp k h v c).1 = evictSteps s3.lru.length s3 := by
    rw [hdec]
    rfl
  obtain ⟨hL1, hL2, hL3, _⟩ := evict_loop_props s3.lru.length s3 (Nat.le_refl _) hsinv3
  rw [h1]
  refine ⟨hL1, hL1.1, ?_⟩
  rcases hL3 with h2 | h2
  · left
    rw [hL2]
    exact h2
  · right
    exact h2

theorem usage_counts_all_live_entries_witness :
    ((Shard.init 0).insertOp [65] 0 5 1).1.usage ≤ ((Shard.init 0).insertOp [65] 0 5 1).1.capacity ∨
      ((Shard.init 0).insertOp [65] 0 5 1).1.lru = [] :=
  (usage_counts_all_live_entries (Shard.init 0) [65] 0 5 1 (by unfold SInv TblInv; decide)).2.2

/-- Counterexample to claim C1 as stated: inserting a charge-1 entry into a
capacity-0 shard while its handle is outstanding evicts-and-detaches the
entry, yet its charge still counts: the usage counter is 1 while the sum of
charges over entries in table+list is 0. -/
theorem usage_not_in_cache_sum_counterexample :
    (Shard.insertOp (Shard.init 0) [65] 0 5 1).1.usage = 1 ∧
    inCacheSum (Shard.insertOp (Shard.init 0) [65] 0 5 1).1 = 0 ∧
    (Shard.insertOp (Shard.init 0) [65] 0 5 1).1.usage ≠
      inCacheSum (Shard.insertOp (Shard.init 0) [65] 0 5 1).1 := by decide

/-! ## The eviction loop inside Insert: claim C2 -/

/-- Claim C2 (amended): the eviction loop never runs when the shard's usage
counter (which counts all live entries, including detached-but-pinned ones)
is within capacity; each iteration takes the entry at the oldest end of the
recency list, unlinks it from the list, removes its key from the table, and
drops exactly one reference; the loop performs some number n of such
iterations — so the surviving list is exactly the original list with its n
oldest entries dropped — every executed iteration started with the usage
counter above capacity and a non-empty list, and the loop stops as soon as
usage no longer exceeds capacity or the list becomes empty. -/
theorem eviction_loop_characterization (s : Shard) (hinv : SInv s) :
    (s.usage ≤ s.capacity → evictLoop s = s) ∧
    (∀ head rest oe, s.lru = head :: rest → findE head s.heap = some oe →
      evictOne s = Shard.unref { s with lru := rest, table := (s.table.remove oe.key oe.hash).1 } head) ∧
    ∃ n, evictLoop s = evictN n s ∧ (evictLoop s).lru = s.lru.drop n ∧
      ((evictLoop s).usage ≤ s.capacity ∨ (evictLoop s).lru = []) ∧
      (∀ m, m < n → ¬ (evictN m s).usage ≤ (evictN m s).capacity ∧ (evictN m s).lru ≠ []) := by
  obtain ⟨_, _, hL3, n, hn1, hn2, hn3⟩ :=
    evict_loop_props s.lru.length s (Nat.le_refl _) hinv
  exact ⟨fun hu => evictSteps_of_le s.lru.length s hu,
    fun head rest oe hl hfe => evictOne_eq s head rest oe hl hfe,
    n, hn1, hn2, hL3, hn3⟩

theorem eviction_loop_characterization_witness :
    evictLoop (Shard.init 5) = Shard.init 5 :=
  (eviction_loop_characterization (Shard.init 5) (by unfold SInv TblInv; decide)).1 (by decide)

/-- Counterexample to claim C2 as stated: with capacity 2, insert key A
(charge 2, handle kept) and then key B (charge 1, handle kept).  The second
insert detaches A; the in-cache entries are then B alone with total charge
1 ≤ 2, so under the claim the loop must stop with B resident — but the code
keeps evicting because the usage counter (3, including pinned detached A)
still exceeds capacity, so B misses immediately after its own insert. -/
theorem eviction_not_driven_by_in_cache_usage_counterexample :
    ((Shard.insertOp (Shard.insertOp (Shard.init 2) [65] 0 5 2).1 [66] 1 6 1).1.lookupOp
      [66] 1).2 = none ∧
    (Shard.insertOp (Shard.insertOp (Shard.init 2) [65] 0 5 2).1 [66] 1 6 1).1.capacity = 2 ∧
    (Shard.insertOp (Shard.insertOp (Shard.init 2) [65] 0 5 2).1 [66] 1 6 1).1.usage = 3 ∧
    inCacheSum (Shard.insertOp (Shard.insertOp (Shard.init 2) [65] 0 5 2).1 [66] 1 6 1).1
      = 0 := by decide

/-! ## Self-eviction on Insert: claim C9 -/

/-- A live entry's charge is bounded by the usage counter. -/
theorem charge_le_usage (s : Shard) (hinv : SInv s) (e : Entry) (hmem : e ∈ s.heap) :
    e.charge ≤ s.usage := by
  rw [hinv.1]
  exact List.single_le_sum (fun x _ => Nat.zero_le x) e.charge
    (List.mem_map_of_mem Entry.charge hmem)

/-- A table with no chained entries has only empty buckets. -/
theorem bucket_of_tEntries_nil (t : HandleTable) (hte : tEntries t = []) (i : Nat) :
    t.buckets.getD i [] = [] := by
  by_cases hlt : i < t.buckets.length
  · have hsub := sublist_flatten_getD t.buckets i hlt
    have h2 : t.buckets.flatten = [] := hte
    rw [h2] at hsub
    exact List.sublist_nil.mp hsub
  · exact List.getD_eq_default _ _ (Nat.le_of_not_lt hlt)

/-- Every lookup misses in a table with no chained entries. -/
theorem lookup_of_tEntries_nil (t : HandleTable) (hte : tEntries t = [])
    (k : List Nat) (h : Nat) : t.lookup k h = none := by
  rw [lookup_eq, bucket_of_tEntries_nil t hte]
  rfl

/-- Under the shard invariant, an empty recency list means an empty table,
so every lookup misses. -/
theorem lookup_none_of_lru_nil (s : Shard) (hinv : SInv s) (hl : s.lru = [])
    (k : List Nat) (h : Nat) : s.table.lookup k h = none := by
  have hperm := hinv.2.2.2.2.2.2
  rw [hl] at hperm
  have hte : tEntries s.table = [] := List.map_eq_nil_iff.mp hperm.eq_nil
  exact lookup_of_tEntries_nil s.table hte k h

/-- Fate of one live entry across the eviction loop, when its charge alone
exceeds the capacity (so the loop cannot stop before the list drains): if
the entry is off the recency list it survives untouched; if it is on the
list with at least two references, it survives with exactly one reference
dropped. -/
theorem evict_drain : ∀ (fuel : Nat) (s : Shard) (ent : Entry),
    s.lru.length ≤ fuel → SInv s → ent ∈ s.heap → s.capacity < ent.charge →
    (ent.eid ∉ s.lru → ent ∈ (evictSteps fuel s).heap) ∧
    (ent.eid ∈ s.lru → 2 ≤ ent.refs →
      { ent with refs := ent.refs - 1 } ∈ (evictSteps fuel s).heap)
  | 0, s, ent, hlen, _hinv, hmem, _hbig => by
      have hl : s.lru = [] := List.length_eq_zero.mp (by omega)
      constructor
      · intro _
        exact hmem
      · intro hin _
        rw [hl] at hin
        exact absurd hin (List.not_mem_nil _)
  | fuel2 + 1, s, ent, hlen, hinv, hmem, hbig => by
      have hu : ¬ s.usage ≤ s.capacity := by
        have h2 := charge_le_usage s hinv ent hmem
        omega
      cases hl : s.lru with
      | nil =>
          have hred : evictSteps (fuel2 + 1) s = s := by
            rw [evictSteps_succ, if_neg hu, hl]
          rw [hred]
          constructor
          · intro _
            exact hmem
          · intro hin _
            exact absurd hin (List.not_mem_nil _)
      | cons head rest =>
          obtain ⟨oe, hoe, hoeeid⟩ := lru_mem_heap s hinv head
            (by rw [hl]; exact List.mem_cons_self _ _)
          have hfe : findE head s.heap = some oe := by
            rw [← hoeeid]
            exact findE_of_mem hinv.2.1 hoe
          obtain ⟨hsinv2, hcap2, hlru2, hfate, hdecfate⟩ :=
            SInv_evict_step s head rest oe hinv hl hfe
          have hstep := evictSteps_else fuel2 s head rest oe hu hl hfe
          have hlen2 : (Shard.unref { s with lru := rest, table := (s.table.remove oe.key oe.hash).1 } head).lru.length ≤ fuel2 := by
            rw [hlru2]
            rw [hl] at hlen
            simpa using Nat.le_of_succ_le_succ hlen
          have hheadnotrest : head ∉ rest := by
            have hnd := hinv.2.2.2.1
            rw [hl] at hnd
            exact (List.nodup_cons.mp hnd).1
          rw [hstep]
          by_cases hhead : ent.eid = head
          · have hoeent : oe = ent :=
              List.inj_on_of_nodup_map hinv.2.1 hoe hmem (by rw [hoeeid, hhead])
            constructor
            · intro hno
              exact absurd (by rw [hhead]; exact List.mem_cons_self _ _) hno
            · intro _ h2refs
              have hmem2 := hdecfate (hoeent.symm ▸ h2refs)
              have hmem2' : ({ ent with refs := ent.refs - 1 } : Entry) ∈ (Shard.unref { s with lru := rest, table := (s.table.remove oe.key oe.hash).1 } head).heap := by
                rw [← hoeent]
                exact hmem2
              have hbig2 : (Shard.unref { s with lru := rest, table := (s.table.remove oe.key oe.hash).1 } head).capacity < ({ ent with refs := ent.refs - 1 } : Entry).charge := by
                rw [hcap2]
                exact hbig
              have hnotin : ({ ent with refs := ent.refs - 1 } : Entry).eid ∉ (Shard.unref { s with lru := rest, table := (s.table.remove oe.key oe.hash).1 } head).lru := by
                rw [hlru2]
                show ent.eid ∉ rest
                rw [hhead]
                exact hheadnotrest
              exact (evict_drain fuel2 _ { ent with refs := ent.refs - 1 }
                hlen2 hsinv2 hmem2' hbig2).1 hnotin
          · have hmem2 : ent ∈ (Shard.unref { s with lru := rest, table := (s.table.remove oe.key oe.hash).1 } head).heap :=
              hfate ent hmem hhead
            have hbig2 : (Shard.unref { s with lru := rest, table := (s.table.remove oe.key oe.hash).1 } head).capacity < ent.charge := by
              rw [hcap2]
              exact hbig
            have ih := evict_drain fuel2 _ ent hlen2 hsinv2 hmem2 hbig2
            constructor
            · intro hno
              refine ih.1 ?_
              rw [hlru2]
              intro hc
              exact hno (List.mem_cons_of_mem head hc)
            · intro hin h2refs
              refine ih.2 ?_ h2refs
              rw [hlru2]
              rcases List.mem_cons.mp hin with h3 | h3
              · exact absurd h3 hhead
              · exact h3

/-- Claim C9 (confirmed): when an `Insert`'s charge alone exceeds the
shard's capacity, the eviction loop inside that same `Insert` drains the
recency list and evicts the just-inserted entry itself — it is gone from
the table (so an immediate `Lookup` of the key misses) and the recency list
is empty — yet `Insert` returns the new entry's id as a valid handle: the
entry is still live, holding the inserted value and charge with exactly one
remaining reference, and the single matching `Release` fires its destructor
with the entry's key and value. -/
theorem insert_can_evict_itself (s : Shard) (k : List Nat) (h v c : Nat)
    (hinv : SInv s) (hbig : s.capacity < c) :
    (s.insertOp k h v c).2 = s.nextEid ∧
    SInv (s.insertOp k h v c).1 ∧
    (s.insertOp k h v c).1.lru = [] ∧
    (s.insertOp k h v c).1.table.lookup k h = none ∧
    ((s.insertOp k h v c).1.lookupOp k h).2 = none ∧
    findE s.nextEid (s.insertOp k h v c).1.heap = some ⟨s.nextEid, k, h, v, c, 1⟩ ∧
    ((s.insertOp k h v c).1.release s.nextEid).events =
      (s.insertOp k h v c).1.events ++ [⟨s.nextEid, k, v⟩] := by
  obtain ⟨s3, hdec, hsinv3, hcap3, hmem3, hlru3⟩ := insertOp_decomp s k h v c hinv
  have h1 : (s.insertOp k h v c).1 = evictSteps s3.lru.length s3 := by
    rw [hdec]
    rfl
  have h2 : (s.insertOp k h v c).2 = s.nextEid := by
    rw [hdec]
  obtain ⟨hres, _, hstop, _⟩ := evict_loop_props s3.lru.length s3 (Nat.le_refl _) hsinv3
  have hbig3 : s3.capacity < (⟨s.nextEid, k, h, v, c, 2⟩ : Entry).charge := by
    rw [hcap3]
    exact hbig
  obtain ⟨_, hdrain⟩ := evict_drain s3.lru.length s3 ⟨s.nextEid, k, h, v, c, 2⟩
    (Nat.le_refl _) hsinv3 hmem3 hbig3
  have hentmem : (⟨s.nextEid, k, h, v, c, 1⟩ : Entry) ∈ (evictSteps s3.lru.length s3).heap := by
    have h3 := hdrain hlru3 (Nat.le_refl 2)
    exact h3
  have hchg : c ≤ (evictSteps s3.lru.length s3).usage :=
    charge_le_usage _ hres _ hentmem
  have hlrunil : (evictSteps s3.lru.length s3).lru = [] := by
    rcases hstop with h4 | h4
    · exfalso
      rw [hcap3] at h4
      omega
    · exact h4
  have hlknone : (evictSteps s3.lru.length s3).table.lookup k h = none :=
    lookup_none_of_lru_nil _ hres hlrunil k h
  have hlkop : ((evictSteps s3.lru.length s3).lookupOp k h).2 = none := by
    simp only [Shard.lookupOp, hlknone]
  have hfind : findE s.nextEid (evictSteps s3.lru.length s3).heap =
      some ⟨s.nextEid, k, h, v, c, 1⟩ := findE_of_mem hres.2.1 hentmem
  have hrel : ((evictSteps s3.lru.length s3).release s.nextEid).events =
      (evictSteps s3.lru.length s3).events ++ [⟨s.nextEid, k, v⟩] := by
    have h6 := unref_destroy (evictSteps s3.lru.length s3) s.nextEid
      ⟨s.nextEid, k, h, v, c, 1⟩ hfind (Nat.le_refl 1)
    show ((evictSteps s3.lru.length s3).unref s.nextEid).events = _
    rw [h6]
  rw [h1, h2]
  exact ⟨rfl, hres, hlrunil, hlknone, hlkop, hfind, hrel⟩

theorem insert_can_evict_itself_witness :
    ((Shard.init 0).insertOp [65] 0 5 1).2 = (Shard.init 0).nextEid ∧
    (((Shard.init 0).insertOp [65] 0 5 1).1.lookupOp [65] 0).2 = none :=
  ⟨(insert_can_evict_itself (Shard.init 0) [65] 0 5 1
      (by unfold SInv TblInv; decide) (by decide)).1,
   (insert_can_evict_itself (Shard.init 0) [65] 0 5 1
      (by unfold SInv TblInv; decide) (by decide)).2.2.2.2.1⟩

/-! ## Single-key traces: claim C3.  Handle-count bookkeeping -/

theorem handleCount_nil (eid : Nat) : handleCount [] eid = 0 := rfl

theorem handleCount_cons (o : Option Nat) (hs : List (Option Nat)) (eid : Nat) :
    handleCount (o :: hs) eid = (if o = some eid then 1 else 0) + handleCount hs eid := rfl

theorem handleCount_append (hs hs2 : List (Option Nat)) (eid : Nat) :
    handleCount (hs ++ hs2) eid = handleCount hs eid + handleCount hs2 eid := by
  induction hs with
  | nil => simp [handleCount]
  | cons o t ih =>
      simp only [List.cons_append, handleCount_cons, ih]
      omega

theorem handleCount_append_none (hs : List (Option Nat)) (eid : Nat) :
    handleCount (hs ++ [none]) eid = handleCount hs eid := by
  rw [handleCount_append]
  simp [handleCount]

theorem handleCount_append_some_self (hs : List (Option Nat)) (eid : Nat) :
    handleCount (hs ++ [some eid]) eid = handleCount hs eid + 1 := by
  rw [handleCount_append]
  simp [handleCount]

theorem handleCount_append_some_ne (hs : List (Option Nat)) (x eid : Nat) (hne : x ≠ eid) :
    handleCount (hs ++ [some x]) eid = handleCount hs eid := by
  rw [handleCount_append]
  simp [handleCount, hne]

theorem handleCount_pos_getD : ∀ (hs : List (Option Nat)) (i eid : Nat),
    hs.getD i none = some eid → 1 ≤ handleCount hs eid
  | [], _, _, hle => absurd hle (by simp)
  | o :: hs, 0, eid, hle => by
      rw [List.getD_cons_zero] at hle
      rw [handleCount_cons, hle]
      simp
  | o :: hs, i + 1, eid, hle => by
      rw [List.getD_cons_succ] at hle
      have := handleCount_pos_getD hs i eid hle
      rw [handleCount_cons]
      omega

theorem handleCount_set_none_self : ∀ (hs : List (Option Nat)) (i eid : Nat),
    hs.getD i none = some eid →
      handleCount (hs.set i none) eid + 1 = handleCount hs eid
  | [], _, _, hle => absurd hle (by simp)
  | o :: hs, 0, eid, hle => by
      rw [List.getD_cons_zero] at hle
      subst hle
      rw [List.set_cons_zero, handleCount_cons, handleCount_cons]
      simp
      omega
  | o :: hs, i + 1, eid, hle => by
      rw [List.getD_cons_succ] at hle
      rw [List.set_cons_succ, handleCount_cons, handleCount_cons]
      have := handleCount_set_none_self hs i eid hle
      omega

theorem handleCount_set_none_ne : ∀ (hs : List (Option Nat)) (i eid x : Nat),
    hs.getD i none = some eid → x ≠ eid →
      handleCount (hs.set i none) x = handleCount hs x
  | [], _, _, _, hle, _ => absurd hle (by simp)
  | o :: hs, 0, eid, x, hle, hne => by
      rw [List.getD_cons_zero] at hle
      subst hle
      rw [List.set_cons_zero, handleCount_cons, handleCount_cons]
      have h1 : ¬ (none : Option Nat) = some x := by simp
      have h2 : ¬ (some eid : Option Nat) = some x := by
        simpa using Ne.symm hne
      rw [if_neg h1, if_neg h2]
  | o :: hs, i + 1, eid, x, hle, hne => by
      rw [List.getD_cons_succ] at hle
      rw [List.set_cons_succ, handleCount_cons, handleCount_cons]
      rw [handleCount_set_none_ne hs i eid x hle hne]

/-! ## Single-key traces: more membership helpers -/

theorem lruRemove_cons_self (x : Nat) (xs : List Nat) : lruRemove x (x :: xs) = xs := by
  simp [lruRemove]

theorem incRef_mem_self {eid : Nat} {e : Entry} :
    ∀ {l : List Entry}, e ∈ l → e.eid = eid → { e with refs := e.refs + 1 } ∈ incRef eid l := by
  intro l
  induction l with
  | nil => intro h _; exact absurd h (List.not_mem_nil e)
  | cons a l ih =>
      intro hmem heid
      rcases List.mem_cons.mp hmem with h1 | h1
      · subst h1
        rw [incRef_cons, if_pos heid]
        exact List.mem_cons_self _ _
      · by_cases ha : a.eid = eid
        · rw [incRef_cons, if_pos ha]
          exact List.mem_cons_of_mem _ (ih h1 heid)
        · rw [incRef_cons, if_neg ha]
          exact List.mem_cons_of_mem _ (ih h1 heid)

theorem incRef_mem_ne {eid : Nat} {y : Entry} :
    ∀ {l : List Entry}, y ∈ l → y.eid ≠ eid → y ∈ incRef eid l := by
  intro l
  induction l with
  | nil => intro h _; exact absurd h (List.not_mem_nil y)
  | cons a l ih =>
      intro hmem hne
      rcases List.mem_cons.mp hmem with h1 | h1
      · subst h1
        rw [incRef_cons, if_neg hne]
        exact List.mem_cons_self _ _
      · by_cases ha : a.eid = eid
        · rw [incRef_cons, if_pos ha]
          exact List.mem_cons_of_mem _ (ih h1 hne)
        · rw [incRef_cons, if_neg ha]
          exact List.mem_cons_of_mem _ (ih h1 hne)

theorem decRef_mem_self {eid : Nat} {e : Entry} :
    ∀ {l : List Entry}, e ∈ l → e.eid = eid → { e with refs := e.refs - 1 } ∈ decRef eid l := by
  intro l
  induction l with
  | nil => intro h _; exact absurd h (List.not_mem_nil e)
  | cons a l ih =>
      intro hmem heid
      rcases List.mem_cons.mp hmem with h1 | h1
      · subst h1
        rw [decRef_cons, if_pos heid]
        exact List.mem_cons_self _ _
      · by_cases ha : a.eid = eid
        · rw [decRef_cons, if_pos ha]
          exact List.mem_cons_of_mem _ (ih h1 heid)
        · rw [decRef_cons, if_neg ha]
          exact List.mem_cons_of_mem _ (ih h1 heid)

theorem decRef_mem_ne {eid : Nat} {y : Entry} :
    ∀ {l : List Entry}, y ∈ l → y.eid ≠ eid → y ∈ decRef eid l := by
  intro l
  induction l with
  | nil => intro h _; exact absurd h (List.not_mem_nil y)
  | cons a l ih =>
      intro hmem hne
      rcases List.mem_cons.mp hmem with h1 | h1
      · subst h1
        rw [decRef_cons, if_neg hne]
        exact List.mem_cons_self _ _
      · by_cases ha : a.eid = eid
        · rw [decRef_cons, if_pos ha]
          exact List.mem_cons_of_mem _ (ih h1 hne)
        · rw [decRef_cons, if_neg ha]
          exact List.mem_cons_of_mem _ (ih h1 hne)

/-! ## Single-key traces: invariant preservation under incRef/decRef -/

theorem SInv_incRef (s : Shard) (eid : Nat) (hinv : SInv s) :
    SInv { s with heap := incRef eid s.heap } := by
  obtain ⟨husage, hnodup, hrefs, hlrund, htinv, htheap, hperm⟩ := hinv
  refine ⟨?_, ?_, ?_, hlrund, htinv, ?_, hperm⟩
  · show s.usage = ((incRef eid s.heap).map Entry.charge).sum
    rw [incRef_map_charge]
    exact husage
  · show ((incRef eid s.heap).map Entry.eid).Nodup
    rw [incRef_map_eid]
    exact hnodup
  · intro y hy
    obtain ⟨x, hx, hor⟩ := mem_incRef hy
    rcases hor with ⟨_, rfl⟩ | ⟨_, rfl⟩
    · refine ⟨(hrefs x hx).1, ?_⟩
      show 1 ≤ x.refs + 1
      omega
    · exact hrefs _ hx
  · intro te hte
    obtain ⟨y, hy, hyeid, hykey, hyhash⟩ := htheap te hte
    by_cases hx : y.eid = eid
    · exact ⟨{ y with refs := y.refs + 1 }, incRef_mem_self hy hx, hyeid, hykey, hyhash⟩
    · exact ⟨y, incRef_mem_ne hy hx, hyeid, hykey, hyhash⟩

theorem SInv_decRef_of_two (s : Shard) (eid : Nat) (e : Entry) (hinv : SInv s)
    (hmem : e ∈ s.heap) (heid : e.eid = eid) (h2 : 2 ≤ e.refs) :
    SInv { s with heap := decRef eid s.heap } := by
  obtain ⟨husage, hnodup, hrefs, hlrund, htinv, htheap, hperm⟩ := hinv
  refine ⟨?_, ?_, ?_, hlrund, htinv, ?_, hperm⟩
  · show s.usage = ((decRef eid s.heap).map Entry.charge).sum
    rw [decRef_map_charge]
    exact husage
  · show ((decRef eid s.heap).map Entry.eid).Nodup
    rw [decRef_map_eid]
    exact hnodup
  · intro y hy
    obtain ⟨x, hx, hor⟩ := mem_decRef hy
    rcases hor with ⟨hxe, rfl⟩ | ⟨_, rfl⟩
    · have hxeqe : x = e := List.inj_on_of_nodup_map hnodup hx hmem (by rw [hxe, heid])
      refine ⟨(hrefs x hx).1, ?_⟩
      show 1 ≤ x.refs - 1
      rw [hxeqe]
      omega
    · exact hrefs _ hx
  · intro te hte
    obtain ⟨y, hy, hyeid, hykey, hyhash⟩ := htheap te hte
    by_cases hx : y.eid = eid
    · exact ⟨{ y with refs := y.refs - 1 }, decRef_mem_self hy hx, hyeid, hykey, hyhash⟩
    · exact ⟨y, decRef_mem_ne hy hx, hyeid, hykey, hyhash⟩

/-! ## Single-key traces: the singleton table -/

theorem bucket_singleton (t : HandleTable) (ht : TblInv t) (te : TEntry)
    (hte : tEntries t = [te]) :
    t.buckets.getD (te.hash &&& (t.length - 1)) [] = [te] := by
  have hmem : te ∈ t.buckets.getD (te.hash &&& (t.length - 1)) [] :=
    mem_bucket_of_mem_tEntries ht (by rw [hte]; exact List.mem_cons_self _ _)
  by_cases hlt : te.hash &&& (t.length - 1) < t.buckets.length
  · have hsub := sublist_flatten_getD t.buckets _ hlt
    have hflat : t.buckets.flatten = [te] := hte
    rw [hflat] at hsub
    rcases List.sublist_singleton.mp hsub with h0 | h0
    · rw [h0] at hmem
      exact absurd hmem (List.not_mem_nil te)
    · exact h0
  · rw [List.getD_eq_default _ _ (Nat.le_of_not_lt hlt)] at hmem
    exact absurd hmem (List.not_mem_nil te)

theorem lookup_of_tEntries_singleton (t : HandleTable) (ht : TblInv t) (te : TEntry)
    (hte : tEntries t = [te]) (k : List Nat) (h : Nat) (hk : te.key = k) (hh : te.hash = h) :
    t.lookup k h = some te := by
  rw [lookup_eq, ← hh, bucket_singleton t ht te hte]
  simp [chainFind, hk]

theorem remove_eq_lookup (t : HandleTable) (k : List Nat) (h : Nat) :
    (t.remove k h).2 = t.lookup k h := by
  rw [remove_snd, lookup_eq]

theorem lru_of_tEntries_nil (s : Shard) (hinv : SInv s) (hte : tEntries s.table = []) :
    s.lru = [] := by
  have hperm := hinv.2.2.2.2.2.2
  rw [hte] at hperm
  simp only [List.map_nil] at hperm
  exact hperm.symm.eq_nil

theorem lru_of_tEntries_singleton (s : Shard) (hinv : SInv s) (te : TEntry)
    (hte : tEntries s.table = [te]) : s.lru = [te.eid] := by
  have hperm := hinv.2.2.2.2.2.2
  rw [hte] at hperm
  simp only [List.map_cons, List.map_nil] at hperm
  exact List.perm_singleton.mp hperm.symm

/-! ## Single-key traces: the eviction loop on a one-element list -/

theorem evictLoop_of_le (s : Shard) (hu : s.usage ≤ s.capacity) : evictLoop s = s :=
  evictSteps_of_le s.lru.length s hu

theorem evictLoop_usage_of_pinned (s : Shard) (x : Nat) (e : Entry)
    (hl : s.lru = [x]) (hfe : findE x s.heap = some e) (hr : ¬ e.refs ≤ 1)
    (hu : ¬ s.usage ≤ s.capacity) :
    (evictLoop s).usage = s.usage ∧ (evictLoop s).capacity = s.capacity := by
  have h1 : evictLoop s = evictSteps s.lru.length s := rfl
  rw [h1, hl]
  show (evictSteps 1 s).usage = s.usage ∧ (evictSteps 1 s).capacity = s.capacity
  rw [evictSteps_else 0 s x [] e hu hl hfe]
  show (Shard.unref { s with lru := ([] : List Nat), table := (s.table.remove e.key e.hash).1 } x).usage = s.usage ∧ _
  have hfe2 : findE x ({ s with lru := ([] : List Nat), table := (s.table.remove e.key e.hash).1 }).heap = some e := hfe
  rw [unref_dec _ x e hfe2 hr]
  exact ⟨rfl, rfl⟩

/-! ## Single-key traces: run plumbing -/

theorem SInv_init (cap : Nat) : SInv (Shard.init cap) := by
  refine ⟨rfl, ?_, ?_, ?_, ?_, ?_, ?_⟩
  · show (List.map Entry.eid []).Nodup
    simp
  · intro e he
    exact absurd he (List.not_mem_nil e)
  · show ([] : List Nat).Nodup
    simp
  · show TblInv HandleTable.init
    unfold TblInv
    decide
  · intro te hte
    have h0 : tEntries (Shard.init cap).table = [] := rfl
    rw [h0] at hte
    exact absurd hte (List.not_mem_nil te)
  · have h0 : tEntries (Shard.init cap).table = [] := rfl
    rw [h0]
    show (List.map TEntry.eid []).Perm []
    simp

theorem KInv_init (raw : List Nat) (cap : Nat) : KInv raw cap (kInit cap) none := by
  refine ⟨SInv_init cap, rfl, ?_, ?_, ?_⟩
  · intro e he
    exact absurd he (List.not_mem_nil e)
  · intro eid hcnt
    have h0 : handleCount (kInit cap).handles eid = 0 := rfl
    rw [h0] at hcnt
    omega
  · show tEntries (kInit cap).shard.table = []
    rfl

theorem lastBinding_foldl : ∀ (ops : List KOp) (acc : Option Nat),
    List.foldl
      (fun acc op =>
        match op with
        | KOp.ins v _ => some v
        | KOp.er => none
        | _ => acc) acc ops = ops.foldl bStep acc
  | [], _ => rfl
  | op :: ops, acc => by
      rw [List.foldl_cons, List.foldl_cons]
      have h : (match op with
          | KOp.ins v _ => some v
          | KOp.er => none
          | _ => acc) = bStep acc op := by
        cases op <;> rfl
      rw [h, lastBinding_foldl ops]

theorem kStep_ok_mono (raw : List Nat) (st : KState) (op : KOp)
    (h : (kStep raw st op).ok = true) : st.ok = true := by
  cases op with
  | ins v c =>
      simp only [kStep] at h
      rw [Bool.and_eq_true] at h
      exact h.1
  | look =>
      simp only [kStep] at h
      rw [Bool.and_eq_true] at h
      exact h.1
  | er =>
      simp only [kStep] at h
      rw [Bool.and_eq_true] at h
      exact h.1
  | rel i =>
      simp only [kStep] at h
      cases hd : st.handles.getD i none with
      | none =>
          rw [hd] at h
          exact h
      | some eid =>
          rw [hd] at h
          have h2 : (st.ok && decide ((st.shard.release eid).usage ≤ (st.shard.release eid).capacity)) = true := h
          rw [Bool.and_eq_true] at h2
          exact h2.1

theorem kRun_ok_mono (raw : List Nat) : ∀ (ops : List KOp) (st : KState),
    (kRun raw st ops).ok = true → st.ok = true
  | [], _, h => h
  | op :: ops, st, h => kStep_ok_mono raw st op (kRun_ok_mono raw ops (kStep raw st op) h)

/-! ## Single-key traces: invariant preservation per operation -/

theorem kStep_inv_look (raw : List Nat) (cap : Nat) (st : KState) (b : Option Nat)
    (hinv : KInv raw cap st b) : KInv raw cap (kStep raw st KOp.look) b := by
  obtain ⟨hsinv, hcap, hbook, hvalid, hbind⟩ := hinv
  cases b with
  | none =>
      have htenil : tEntries st.shard.table = [] := hbind
      have hlk : st.shard.table.lookup (cstr raw) (hashSlice raw) = none :=
        lookup_of_tEntries_nil _ htenil _ _
      have hshard : (kStep raw st KOp.look).shard = st.shard := by
        simp only [kStep, cacheLookup, Shard.lookupOp]
        cases hlk2 : st.shard.table.lookup (cstr raw) (hashSlice raw) with
        | none => rfl
        | some te2 => exact absurd (hlk2.symm.trans hlk) (by simp)
      have hhandles : (kStep raw st KOp.look).handles = st.handles ++ [none] := by
        simp only [kStep, cacheLookup, Shard.lookupOp]
        cases hlk2 : st.shard.table.lookup (cstr raw) (hashSlice raw) with
        | none => rfl
        | some te2 => exact absurd (hlk2.symm.trans hlk) (by simp)
      refine ⟨?_, ?_, ?_, ?_, ?_⟩
      · rw [hshard]
        exact hsinv
      · rw [hshard]
        exact hcap
      · rw [hshard, hhandles]
        intro e he
        obtain ⟨h1, h2, h3⟩ := hbook e he
        refine ⟨h1, h2, ?_⟩
        rw [handleCount_append_none]
        exact h3
      · rw [hshard, hhandles]
        intro eid hcnt
        rw [handleCount_append_none] at hcnt
        exact hvalid eid hcnt
      · rw [hshard]
        exact htenil
  | some v =>
      obtain ⟨te, e, hte, hemem, heeid, heval⟩ := hbind
      obtain ⟨e2, he2, he2eid, he2key, he2hash⟩ :=
        hsinv.2.2.2.2.2.1 te (by rw [hte]; exact List.mem_cons_self _ _)
      obtain ⟨hk2, hh2, _⟩ := hbook e2 he2
      have htkey : te.key = cstr raw := by rw [← he2key, hk2]
      have hthash : te.hash = hashSlice raw := by rw [← he2hash, hh2]
      have hlk : st.shard.table.lookup (cstr raw) (hashSlice raw) = some te :=
        lookup_of_tEntries_singleton _ hsinv.2.2.2.2.1 te hte _ _ htkey hthash
      have hlrueq : st.shard.lru = [te.eid] := lru_of_tEntries_singleton _ hsinv te hte
      have hlrufix : lruRemove te.eid st.shard.lru ++ [te.eid] = st.shard.lru := by
        rw [hlrueq, lruRemove_cons_self]
        rfl
      have hshard : (kStep raw st KOp.look).shard = { st.shard with heap := incRef te.eid st.shard.heap } := by
        simp only [kStep, cacheLookup, Shard.lookupOp]
        cases hlk2 : st.shard.table.lookup (cstr raw) (hashSlice raw) with
        | none => exact absurd (hlk2.symm.trans hlk) (by simp)
        | some te2 =>
            have hte2 : te2 = te := Option.some_inj.mp (hlk2.symm.trans hlk)
            subst hte2
            show { st.shard with heap := incRef te2.eid st.shard.heap, lru := lruRemove te2.eid st.shard.lru ++ [te2.eid] } = _
            rw [hlrufix]
      have hhandles : (kStep raw st KOp.look).handles = st.handles ++ [some te.eid] := by
        simp only [kStep, cacheLookup, Shard.lookupOp]
        cases hlk2 : st.shard.table.lookup (cstr raw) (hashSlice raw) with
        | none => exact absurd (hlk2.symm.trans hlk) (by simp)
        | some te2 =>
            have hte2 : te2 = te := Option.some_inj.mp (hlk2.symm.trans hlk)
            subst hte2
            rfl
      refine ⟨?_, ?_, ?_, ?_, ?_⟩
      · rw [hshard]
        exact SInv_incRef st.shard te.eid hsinv
      · rw [hshard]
        exact hcap
      · rw [hshard, hhandles]
        intro e3 he3
        have he3b : e3 ∈ incRef te.eid st.shard.heap := he3
        obtain ⟨x, hx, hor⟩ := mem_incRef he3b
        obtain ⟨hxkey, hxhash, hxrefs⟩ := hbook x hx
        rcases hor with ⟨hxeid, h3⟩ | ⟨hxeid, h3⟩
        · rw [h3]
          refine ⟨hxkey, hxhash, ?_⟩
          show x.refs + 1 = handleCount (st.handles ++ [some te.eid]) x.eid +
            (if x.eid ∈ st.shard.lru then 1 else 0)
          rw [hxeid, handleCount_append_some_self, hlrueq,
            if_pos (List.mem_singleton_self te.eid)]
          rw [hxeid, hlrueq, if_pos (List.mem_singleton_self te.eid)] at hxrefs
          omega
        · rw [h3]
          refine ⟨hxkey, hxhash, ?_⟩
          show x.refs = handleCount (st.handles ++ [some te.eid]) x.eid +
            (if x.eid ∈ st.shard.lru then 1 else 0)
          rw [handleCount_append_some_ne _ _ _ (Ne.symm hxeid)]
          exact hxrefs
      · rw [hshard, hhandles]
        intro eid2 hcnt
        by_cases heq : eid2 = te.eid
        · subst heq
          exact ⟨{ e with refs := e.refs + 1 }, incRef_mem_self hemem heeid, heeid⟩
        · rw [handleCount_append_some_ne _ _ _ (fun hc => heq hc.symm)] at hcnt
          obtain ⟨y, hy, hyeid⟩ := hvalid eid2 hcnt
          have hyne : y.eid ≠ te.eid := by rw [hyeid]; exact heq
          exact ⟨y, incRef_mem_ne hy hyne, hyeid⟩
      · rw [hshard]
        exact ⟨te, { e with refs := e.refs + 1 }, hte,
          incRef_mem_self hemem heeid, heeid, heval⟩

theorem kStep_inv_er (raw : List Nat) (cap : Nat) (st : KState) (b : Option Nat)
    (hinv : KInv raw cap st b) : KInv raw cap (kStep raw st KOp.er) none := by
  obtain ⟨hsinv, hcap, hbook, hvalid, hbind⟩ := hinv
  cases b with
  | none =>
      have htenil : tEntries st.shard.table = [] := hbind
      have hrm : (st.shard.table.remove (cstr raw) (hashSlice raw)).2 = none := by
        rw [remove_eq_lookup]
        exact lookup_of_tEntries_nil _ htenil _ _
      have hshard : (kStep raw st KOp.er).shard = st.shard := by
        simp only [kStep, cacheErase, Shard.eraseOp]
        cases hrm2 : (st.shard.table.remove (cstr raw) (hashSlice raw)).2 with
        | none => rfl
        | some te2 => exact absurd (hrm2.symm.trans hrm) (by simp)
      have hhandles : (kStep raw st KOp.er).handles = st.handles ++ [none] := by
        simp only [kStep, cacheErase, Shard.eraseOp]
      refine ⟨?_, ?_, ?_, ?_, ?_⟩
      · rw [hshard]
        exact hsinv
      · rw [hshard]
        exact hcap
      · rw [hshard, hhandles]
        intro e he
        obtain ⟨h1, h2, h3⟩ := hbook e he
        refine ⟨h1, h2, ?_⟩
        rw [handleCount_append_none]
        exact h3
      · rw [hshard, hhandles]
        intro eid hcnt
        rw [handleCount_append_none] at hcnt
        exact hvalid eid hcnt
      · rw [hshard]
        exact htenil
  | some v =>
      obtain ⟨te, e, hte, hemem, heeid, heval⟩ := hbind
      obtain ⟨e2, he2, he2eid, he2key, he2hash⟩ :=
        hsinv.2.2.2.2.2.1 te (by rw [hte]; exact List.mem_cons_self _ _)
      obtain ⟨hk2, hh2, _⟩ := hbook e2 he2
      have htkey : te.key = cstr raw := by rw [← he2key, hk2]
      have hthash : te.hash = hashSlice raw := by rw [← he2hash, hh2]
      have hrm : (st.shard.table.remove (cstr raw) (hashSlice raw)).2 = some te := by
        rw [remove_eq_lookup]
        exact lookup_of_tEntries_singleton _ hsinv.2.2.2.2.1 te hte _ _ htkey hthash
      have hlrueq : st.shard.lru = [te.eid] := lru_of_tEntries_singleton _ hsinv te hte
      have hlrr : lruRemove te.eid st.shard.lru = [] := by
        rw [hlrueq, lruRemove_cons_self]
      obtain ⟨htinv2, _, hsome⟩ :=
        table_remove_props st.shard.table (cstr raw) (hashSlice raw) hsinv.2.2.2.2.1
      obtain ⟨_, _, _, R, hpermt, hpermR, _⟩ := hsome te hrm
      have hR : R = [] := by
        rw [hte] at hpermt
        exact (List.Perm.cons_inv hpermt).symm.eq_nil
      have htenil2 : tEntries (st.shard.table.remove (cstr raw) (hashSlice raw)).1 = [] := by
        rw [hR] at hpermR
        exact hpermR.eq_nil
      have hshard : (kStep raw st KOp.er).shard =
          Shard.unref { st.shard with table := (st.shard.table.remove (cstr raw) (hashSlice raw)).1, lru := ([] : List Nat) } te.eid := by
        simp only [kStep, cacheErase, Shard.eraseOp]
        cases hrm2 : (st.shard.table.remove (cstr raw) (hashSlice raw)).2 with
        | none => exact absurd (hrm2.symm.trans hrm) (by simp)
        | some te2 =>
            have hte2 : te2 = te := Option.some_inj.mp (hrm2.symm.trans hrm)
            subst hte2
            show Shard.unref { st.shard with table := (st.shard.table.remove (cstr raw) (hashSlice raw)).1, lru := lruRemove te2.eid st.shard.lru } te2.eid = _
            rw [hlrr]
      have hhandles : (kStep raw st KOp.er).handles = st.handles ++ [none] := by
        simp only [kStep, cacheErase, Shard.eraseOp]
      have hmidinv : SInv { st.shard with table := (st.shard.table.remove (cstr raw) (hashSlice raw)).1, lru := ([] : List Nat) } := by
        refine ⟨hsinv.1, hsinv.2.1, hsinv.2.2.1, ?_, htinv2, ?_, ?_⟩
        · show ([] : List Nat).Nodup
          simp
        · intro te2 hte2
          have hte2b : te2 ∈ tEntries (st.shard.table.remove (cstr raw) (hashSlice raw)).1 := hte2
          rw [htenil2] at hte2b
          exact absurd hte2b (List.not_mem_nil te2)
        · show ((tEntries (st.shard.table.remove (cstr raw) (hashSlice raw)).1).map TEntry.eid).Perm ([] : List Nat)
          rw [htenil2]
          simp
      obtain ⟨hs3, hcap3, hlru3, htab3, _, _⟩ :=
        SInv_unref_detached { st.shard with table := (st.shard.table.remove (cstr raw) (hashSlice raw)).1, lru := ([] : List Nat) } te.eid hmidinv
          (by
            intro te2 hte2 hc
            have hte2b : te2 ∈ tEntries (st.shard.table.remove (cstr raw) (hashSlice raw)).1 := hte2
            rw [htenil2] at hte2b
            exact absurd hte2b (List.not_mem_nil te2))
          (List.not_mem_nil te.eid)
      have hfe : findE te.eid st.shard.heap = some e := by
        rw [← heeid]
        exact findE_of_mem hsinv.2.1 hemem
      obtain ⟨_, _, herefs⟩ := hbook e hemem
      rw [heeid, hlrueq, if_pos (List.mem_singleton_self te.eid)] at herefs
      by_cases hcnt0 : handleCount st.handles te.eid = 0
      · have hr1 : e.refs ≤ 1 := by omega
        have hunref := unref_destroy { st.shard with table := (st.shard.table.remove (cstr raw) (hashSlice raw)).1, lru := ([] : List Nat) } te.eid e hfe hr1
        refine ⟨?_, ?_, ?_, ?_, ?_⟩
        · rw [hshard]
          exact hs3
        · rw [hshard, hcap3]
          exact hcap
        · rw [hshard, hhandles]
          intro e3 he3
          have he3b : e3 ∈ dropE te.eid st.shard.heap := by
            rw [hunref] at he3
            exact he3
          obtain ⟨hmm, hne⟩ := mem_dropE.mp he3b
          obtain ⟨h1, h2, h3⟩ := hbook e3 hmm
          refine ⟨h1, h2, ?_⟩
          rw [hlru3, handleCount_append_none]
          show e3.refs = handleCount st.handles e3.eid + (if e3.eid ∈ ([] : List Nat) then 1 else 0)
          rw [if_neg (List.not_mem_nil e3.eid)]
          rw [hlrueq, if_neg (by simpa using hne)] at h3
          omega
        · rw [hshard, hhandles]
          intro eid2 hcnt
          rw [handleCount_append_none] at hcnt
          have hne2 : eid2 ≠ te.eid := by
            intro hc
            rw [hc] at hcnt
            omega
          obtain ⟨y, hy, hyeid⟩ := hvalid eid2 hcnt
          refine ⟨y, ?_, hyeid⟩
          rw [hunref]
          show y ∈ dropE te.eid st.shard.heap
          exact mem_dropE.mpr ⟨hy, by rw [hyeid]; exact hne2⟩
        · rw [hshard]
          show tEntries (Shard.unref { st.shard with table := (st.shard.table.remove (cstr raw) (hashSlice raw)).1, lru := ([] : List Nat) } te.eid).table = []
          rw [htab3]
          exact htenil2
      · have h2r : 2 ≤ e.refs := by omega
        have hr : ¬ e.refs ≤ 1 := by omega
        have hunref := unref_dec { st.shard with table := (st.shard.table.remove (cstr raw) (hashSlice raw)).1, lru := ([] : List Nat) } te.eid e hfe hr
        refine ⟨?_, ?_, ?_, ?_, ?_⟩
        · rw [hshard]
          exact hs3
        · rw [hshard, hcap3]
          exact hcap
        · rw [hshard, hhandles]
          intro e3 he3
          have he3b : e3 ∈ decRef te.eid st.shard.heap := by
            rw [hunref] at he3
            exact he3
          obtain ⟨x, hx, hor⟩ := mem_decRef he3b
          obtain ⟨hxkey, hxhash, hxrefs⟩ := hbook x hx
          rcases hor with ⟨hxeid, h3⟩ | ⟨hxeid, h3⟩
          · have hxe : x = e := List.inj_on_of_nodup_map hsinv.2.1 hx hemem (by rw [hxeid, heeid])
            rw [h3]
            refine ⟨hxkey, hxhash, ?_⟩
            rw [hlru3, handleCount_append_none]
            show x.refs - 1 = handleCount st.handles x.eid + (if x.eid ∈ ([] : List Nat) then 1 else 0)
            rw [if_neg (List.not_mem_nil x.eid), hxeid, hxe]
            omega
          · rw [h3]
            refine ⟨hxkey, hxhash, ?_⟩
            rw [hlru3, handleCount_append_none]
            show x.refs = handleCount st.handles x.eid + (if x.eid ∈ ([] : List Nat) then 1 else 0)
            rw [if_neg (List.not_mem_nil x.eid)]
            rw [hlrueq, if_neg (by simpa using hxeid)] at hxrefs
            omega
        · rw [hshard, hhandles]
          intro eid2 hcnt
          rw [handleCount_append_none] at hcnt
          obtain ⟨y, hy, hyeid⟩ := hvalid eid2 hcnt
          by_cases hye : y.eid = te.eid
          · have hyee : y = e := List.inj_on_of_nodup_map hsinv.2.1 hy hemem (by rw [hye, heeid])
            refine ⟨{ y with refs := y.refs - 1 }, ?_, hyeid⟩
            rw [hunref]
            show { y with refs := y.refs - 1 } ∈ decRef te.eid st.shard.heap
            exact decRef_mem_self hy hye
          · refine ⟨y, ?_, hyeid⟩
            rw [hunref]
            show y ∈ decRef te.eid st.shard.heap
            exact decRef_mem_ne hy hye
        · rw [hshard]
          show tEntries (Shard.unref { st.shard with table := (st.shard.table.remove (cstr raw) (hashSlice raw)).1, lru := ([] : List Nat) } te.eid).table = []
          rw [htab3]
          exact htenil2

theorem kStep_inv_rel (raw : List Nat) (cap : Nat) (st : KState) (b : Option Nat) (i : Nat)
    (hinv : KInv raw cap st b) : KInv raw cap (kStep raw st (KOp.rel i)) b := by
  obtain ⟨hsinv, hcap, hbook, hvalid, hbind⟩ := hinv
  cases hd : st.handles.getD i none with
  | none =>
      have hshard : (kStep raw st (KOp.rel i)).shard = st.shard := by
        simp only [kStep]
        rw [hd]
      have hhandles : (kStep raw st (KOp.rel i)).handles = st.handles ++ [none] := by
        simp only [kStep]
        rw [hd]
      refine ⟨?_, ?_, ?_, ?_, ?_⟩
      · rw [hshard]
        exact hsinv
      · rw [hshard]
        exact hcap
      · rw [hshard, hhandles]
        intro e he
        obtain ⟨h1, h2, h3⟩ := hbook e he
        refine ⟨h1, h2, ?_⟩
        rw [handleCount_append_none]
        exact h3
      · rw [hshard, hhandles]
        intro eid hcnt
        rw [handleCount_append_none] at hcnt
        exact hvalid eid hcnt
      · rw [hshard]
        exact hbind
  | some eid =>
      have hcnt1 : 1 ≤ handleCount st.handles eid := handleCount_pos_getD _ _ _ hd
      obtain ⟨e, hemem, heeid⟩ := hvalid eid hcnt1
      have hfe : findE eid st.shard.heap = some e := by
        rw [← heeid]
        exact findE_of_mem hsinv.2.1 hemem
      obtain ⟨hekey, hehash, herefs⟩ := hbook e hemem
      rw [heeid] at herefs
      have hshard : (kStep raw st (KOp.rel i)).shard = st.shard.unref eid := by
        simp only [kStep]
        rw [hd]
        rfl
      have hhandles : (kStep raw st (KOp.rel i)).handles = st.handles.set i none ++ [none] := by
        simp only [kStep]
        rw [hd]
      have hcset : handleCount (st.handles.set i none ++ [none]) eid + 1 = handleCount st.handles eid := by
        rw [handleCount_append_none]
        exact handleCount_set_none_self _ _ _ hd
      have hcsetne : ∀ x : Nat, x ≠ eid → handleCount (st.handles.set i none ++ [none]) x = handleCount st.handles x := by
        intro x hx
        rw [handleCount_append_none]
        exact handleCount_set_none_ne _ _ _ _ hd hx
      by_cases hr : e.refs ≤ 1
      · have hbit : eid ∉ st.shard.lru := by
          intro hc
          rw [if_pos hc] at herefs
          omega
        rw [if_neg hbit] at herefs
        have hnotbl : ∀ te2 ∈ tEntries st.shard.table, te2.eid ≠ eid := by
          intro te2 hte2 hc
          exact hbit (hsinv.2.2.2.2.2.2.mem_iff.mp (hc ▸ List.mem_map_of_mem TEntry.eid hte2))
        obtain ⟨hs3, hcap3, hlru3, htab3, _, _⟩ :=
          SInv_unref_detached st.shard eid hsinv hnotbl hbit
        have hunref := unref_destroy st.shard eid e hfe hr
        refine ⟨?_, ?_, ?_, ?_, ?_⟩
        · rw [hshard]
          exact hs3
        · rw [hshard, hcap3]
          exact hcap
        · rw [hshard, hhandles]
          intro e3 he3
          have he3b : e3 ∈ dropE eid st.shard.heap := by
            rw [hunref] at he3
            exact he3
          obtain ⟨hmm, hne⟩ := mem_dropE.mp he3b
          obtain ⟨h1, h2, h3⟩ := hbook e3 hmm
          refine ⟨h1, h2, ?_⟩
          rw [hlru3, hcsetne e3.eid hne]
          exact h3
        · rw [hshard, hhandles]
          intro eid2 hcnt
          have hne2 : eid2 ≠ eid := by
            intro hc
            rw [hc] at hcnt
            omega
          rw [hcsetne eid2 hne2] at hcnt
          obtain ⟨y, hy, hyeid⟩ := hvalid eid2 hcnt
          refine ⟨y, ?_, hyeid⟩
          rw [hunref]
          show y ∈ dropE eid st.shard.heap
          exact mem_dropE.mpr ⟨hy, by rw [hyeid]; exact hne2⟩
        · rw [hshard]
          cases b with
          | none =>
              show tEntries (st.shard.unref eid).table = []
              rw [htab3]
              exact hbind
          | some v =>
              obtain ⟨te, eb, hte, hbmem, hbeid, hbval⟩ := hbind
              have hbne : eb.eid ≠ eid := by
                rw [hbeid]
                exact hnotbl te (by rw [hte]; exact List.mem_cons_self _ _)
              refine ⟨te, eb, ?_, ?_, hbeid, hbval⟩
              · rw [htab3]
                exact hte
              · rw [hunref]
                show eb ∈ dropE eid st.shard.heap
                exact mem_dropE.mpr ⟨hbmem, hbne⟩
      · have h2r : 2 ≤ e.refs := by
          have := (hsinv.2.2.1 e hemem).2
          omega
        have hunref := unref_dec st.shard eid e hfe hr
        have hs3 : SInv (st.shard.unref eid) := by
          rw [hunref]
          exact SInv_decRef_of_two st.shard eid e hsinv hemem heeid h2r
        have hlrueq2 : (st.shard.unref eid).lru = st.shard.lru := by
          rw [hunref]
        have htab2 : (st.shard.unref eid).table = st.shard.table := by
          rw [hunref]
        refine ⟨?_, ?_, ?_, ?_, ?_⟩
        · rw [hshard]
          exact hs3
        · rw [hshard, hunref]
          exact hcap
        · rw [hshard, hhandles]
          intro e3 he3
          have he3b : e3 ∈ decRef eid st.shard.heap := by
            rw [hunref] at he3
            exact he3
          obtain ⟨x, hx, hor⟩ := mem_decRef he3b
          obtain ⟨hxkey, hxhash, hxrefs⟩ := hbook x hx
          rcases hor with ⟨hxeid, h3⟩ | ⟨hxeid, h3⟩
          · have hxe : x = e := List.inj_on_of_nodup_map hsinv.2.1 hx hemem (by rw [hxeid, heeid])
            rw [h3]
            refine ⟨hxkey, hxhash, ?_⟩
            rw [hlrueq2]
            show x.refs - 1 = handleCount (st.handles.set i none ++ [none]) x.eid + (if x.eid ∈ st.shard.lru then 1 else 0)
            rw [hxeid, hxe] at hxrefs ⊢
            by_cases hbit2 : eid ∈ st.shard.lru
            · rw [if_pos hbit2] at hxrefs ⊢
              omega
            · rw [if_neg hbit2] at hxrefs ⊢
              omega
          · rw [h3]
            refine ⟨hxkey, hxhash, ?_⟩
            rw [hlrueq2]
            show x.refs = handleCount (st.handles.set i none ++ [none]) x.eid + (if x.eid ∈ st.shard.lru then 1 else 0)
            rw [hcsetne x.eid hxeid]
            exact hxrefs
        · rw [hshard, hhandles]
          intro eid2 hcnt
          by_cases heq2 : eid2 = eid
          · refine ⟨{ e with refs := e.refs - 1 }, ?_, ?_⟩
            · rw [hunref]
              show { e with refs := e.refs - 1 } ∈ decRef eid st.shard.heap
              exact decRef_mem_self hemem heeid
            · show e.eid = eid2
              rw [heeid, heq2]
          · rw [hcsetne eid2 heq2] at hcnt
            obtain ⟨y, hy, hyeid⟩ := hvalid eid2 hcnt
            refine ⟨y, ?_, hyeid⟩
            rw [hunref]
            show y ∈ decRef eid st.shard.heap
            exact decRef_mem_ne hy (by rw [hyeid]; exact heq2)
        · rw [hshard]
          cases b with
          | none =>
              show tEntries (st.shard.unref eid).table = []
              rw [htab2]
              exact hbind
          | some v =>
              obtain ⟨te, eb, hte, hbmem, hbeid, hbval⟩ := hbind
              by_cases hbe : eb.eid = eid
              · have hbee : eb = e := List.inj_on_of_nodup_map hsinv.2.1 hbmem hemem (by rw [hbe, heeid])
                refine ⟨te, { eb with refs := eb.refs - 1 }, ?_, ?_, hbeid, hbval⟩
                · rw [htab2]
                  exact hte
                · rw [hunref]
                  show { eb with refs := eb.refs - 1 } ∈ decRef eid st.shard.heap
                  exact decRef_mem_self hbmem hbe
              · refine ⟨te, eb, ?_, ?_, hbeid, hbval⟩
                · rw [htab2]
                  exact hte
                · rw [hunref]
                  show eb ∈ decRef eid st.shard.heap
                  exact decRef_mem_ne hbmem hbe

theorem SInv_insert_over (s : Shard) (k : List Nat) (h v c : Nat) (hinv : SInv s)
    (htenew : tEntries (s.table.insert ⟨s.nextEid, k, h⟩).1 = [(⟨s.nextEid, k, h⟩ : TEntry)]) :
    SInv { s with heap := s.heap ++ [(⟨s.nextEid, k, h, v, c, 2⟩ : Entry)], lru := [s.nextEid], usage := s.usage + c, nextEid := s.nextEid + 1, table := (s.table.insert ⟨s.nextEid, k, h⟩).1 } := by
  obtain ⟨husage, hnodup, hrefs, hlrund, htinv, htheap, hperm⟩ := hinv
  obtain ⟨hins1, _, _⟩ := table_insert_props s.table ⟨s.nextEid, k, h⟩ htinv
  refine ⟨?_, ?_, ?_, ?_, hins1, ?_, ?_⟩
  · show s.usage + c = ((s.heap ++ [(⟨s.nextEid, k, h, v, c, 2⟩ : Entry)]).map Entry.charge).sum
    rw [List.map_append, List.sum_append, husage]
    rfl
  · show ((s.heap ++ [(⟨s.nextEid, k, h, v, c, 2⟩ : Entry)]).map Entry.eid).Nodup
    rw [List.map_append, List.nodup_append]
    refine ⟨hnodup, by simp, fun x hx => ?_⟩
    simp only [List.map_cons, List.map_nil, List.mem_singleton]
    intro hc
    obtain ⟨y, hy, hyx⟩ := List.mem_map.mp hx
    have := (hrefs y hy).1
    omega
  · intro e he
    rcases List.mem_append.mp he with h1 | h1
    · exact ⟨Nat.lt_succ_of_lt (hrefs e h1).1, (hrefs e h1).2⟩
    · obtain rfl := List.mem_singleton.mp h1
      exact ⟨Nat.lt_succ_self _, show (1 : Nat) ≤ 2 by omega⟩
  · show ([s.nextEid] : List Nat).Nodup
    simp
  · intro te hte
    have hteb : te ∈ tEntries (s.table.insert ⟨s.nextEid, k, h⟩).1 := hte
    rw [htenew] at hteb
    obtain rfl := List.mem_singleton.mp hteb
    exact ⟨⟨s.nextEid, k, h, v, c, 2⟩, List.mem_append.mpr (Or.inr (by simp)), rfl, rfl, rfl⟩
  · show ((tEntries (s.table.insert ⟨s.nextEid, k, h⟩).1).map TEntry.eid).Perm [s.nextEid]
    rw [htenew]
    simp

theorem kStep_inv_ins (raw : List Nat) (cap : Nat) (st : KState) (b : Option Nat) (v c : Nat)
    (hinv : KInv raw cap st b) (hok : (kStep raw st (KOp.ins v c)).ok = true) :
    KInv raw cap (kStep raw st (KOp.ins v c)) (some v) := by
  obtain ⟨hsinv, hcap, hbook, hvalid, hbind⟩ := hinv
  have hok5 : (st.ok && decide ((kStep raw st (KOp.ins v c)).shard.usage ≤ (kStep raw st (KOp.ins v c)).shard.capacity)) = true := hok
  rw [Bool.and_eq_true] at hok5
  have husgok : (kStep raw st (KOp.ins v c)).shard.usage ≤ (kStep raw st (KOp.ins v c)).shard.capacity :=
    of_decide_eq_true hok5.2
  have hfreshcnt : handleCount st.handles st.shard.nextEid = 0 := by
    by_cases hc : 1 ≤ handleCount st.handles st.shard.nextEid
    · obtain ⟨y, hy, hyeid⟩ := hvalid _ hc
      have := (hsinv.2.2.1 y hy).1
      omega
    · omega
  have hhandles : (kStep raw st (KOp.ins v c)).handles = st.handles ++ [some st.shard.nextEid] := by
    simp only [kStep, cacheInsert, Shard.insertOp]
  cases b with
  | none =>
      have htenil : tEntries st.shard.table = [] := hbind
      have hlrunil : st.shard.lru = [] := lru_of_tEntries_nil _ hsinv htenil
      have hd : (st.shard.table.insert ⟨st.shard.nextEid, cstr raw, hashSlice raw⟩).2 = none := by
        cases hd2 : (st.shard.table.insert ⟨st.shard.nextEid, cstr raw, hashSlice raw⟩).2 with
        | none => rfl
        | some o =>
            obtain ⟨_, _, homem, _⟩ := (table_insert_props st.shard.table ⟨st.shard.nextEid, cstr raw, hashSlice raw⟩ hsinv.2.2.2.2.1).2.2 o hd2
            rw [htenil] at homem
            exact absurd homem (List.not_mem_nil o)
      have hpermnew := (table_insert_props st.shard.table ⟨st.shard.nextEid, cstr raw, hashSlice raw⟩ hsinv.2.2.2.2.1).2.1 hd
      have htenew : tEntries (st.shard.table.insert ⟨st.shard.nextEid, cstr raw, hashSlice raw⟩).1 = [(⟨st.shard.nextEid, cstr raw, hashSlice raw⟩ : TEntry)] := by
        rw [htenil] at hpermnew
        exact List.perm_singleton.mp hpermnew
      have hS3inv : SInv { st.shard with heap := st.shard.heap ++ [(⟨st.shard.nextEid, cstr raw, hashSlice raw, v, c, 2⟩ : Entry)], lru := [st.shard.nextEid], usage := st.shard.usage + c, nextEid := st.shard.nextEid + 1, table := (st.shard.table.insert ⟨st.shard.nextEid, cstr raw, hashSlice raw⟩).1 } :=
        SInv_insert_over st.shard (cstr raw) (hashSlice raw) v c hsinv htenew
      have hshard : (kStep raw st (KOp.ins v c)).shard = evictLoop { st.shard with heap := st.shard.heap ++ [(⟨st.shard.nextEid, cstr raw, hashSlice raw, v, c, 2⟩ : Entry)], lru := [st.shard.nextEid], usage := st.shard.usage + c, nextEid := st.shard.nextEid + 1, table := (st.shard.table.insert ⟨st.shard.nextEid, cstr raw, hashSlice raw⟩).1 } := by
        simp only [kStep, cacheInsert, Shard.insertOp]
        cases hd2 : (st.shard.table.insert ⟨st.shard.nextEid, cstr raw, hashSlice raw⟩).2 with
        | none =>
            rw [hlrunil]
            rfl
        | some o => exact absurd (hd2.symm.trans hd) (by simp)
      by_cases husg : st.shard.usage + c ≤ st.shard.capacity
      · have hloop : evictLoop { st.shard with heap := st.shard.heap ++ [(⟨st.shard.nextEid, cstr raw, hashSlice raw, v, c, 2⟩ : Entry)], lru := [st.shard.nextEid], usage := st.shard.usage + c, nextEid := st.shard.nextEid + 1, table := (st.shard.table.insert ⟨st.shard.nextEid, cstr raw, hashSlice raw⟩).1 } = { st.shard with heap := st.shard.heap ++ [(⟨st.shard.nextEid, cstr raw, hashSlice raw, v, c, 2⟩ : Entry)], lru := [st.shard.nextEid], usage := st.shard.usage + c, nextEid := st.shard.nextEid + 1, table := (st.shard.table.insert ⟨st.shard.nextEid, cstr raw, hashSlice raw⟩).1 } := evictLoop_of_le _ husg
        refine ⟨?_, ?_, ?_, ?_, ?_⟩
        · rw [hshard, hloop]
          exact hS3inv
        · rw [hshard, hloop]
          exact hcap
        · rw [hshard, hloop, hhandles]
          intro e3 he3
          have he3b : e3 ∈ st.shard.heap ++ [(⟨st.shard.nextEid, cstr raw, hashSlice raw, v, c, 2⟩ : Entry)] := he3
          rcases List.mem_append.mp he3b with h1 | h1
          · obtain ⟨hk1, hh1, hr1b⟩ := hbook e3 h1
            have hne1 : e3.eid ≠ st.shard.nextEid := by
              have := (hsinv.2.2.1 e3 h1).1
              omega
            refine ⟨hk1, hh1, ?_⟩
            show e3.refs = handleCount (st.handles ++ [some st.shard.nextEid]) e3.eid + (if e3.eid ∈ ([st.shard.nextEid] : List Nat) then 1 else 0)
            rw [handleCount_append_some_ne _ _ _ (Ne.symm hne1), if_neg (by simpa using hne1)]
            rw [hlrunil, if_neg (List.not_mem_nil e3.eid)] at hr1b
            omega
          · obtain h1b := List.mem_singleton.mp h1
            rw [h1b]
            refine ⟨rfl, rfl, ?_⟩
            show 2 = handleCount (st.handles ++ [some st.shard.nextEid]) st.shard.nextEid + (if st.shard.nextEid ∈ ([st.shard.nextEid] : List Nat) then 1 else 0)
            rw [handleCount_append_some_self, if_pos (List.mem_singleton_self st.shard.nextEid), hfreshcnt]
        · rw [hshard, hloop, hhandles]
          intro eid2 hcnt
          by_cases heq : eid2 = st.shard.nextEid
          · refine ⟨⟨st.shard.nextEid, cstr raw, hashSlice raw, v, c, 2⟩, ?_, ?_⟩
            · show (⟨st.shard.nextEid, cstr raw, hashSlice raw, v, c, 2⟩ : Entry) ∈ st.shard.heap ++ [(⟨st.shard.nextEid, cstr raw, hashSlice raw, v, c, 2⟩ : Entry)]
              exact List.mem_append.mpr (Or.inr (by simp))
            · show st.shard.nextEid = eid2
              rw [heq]
          · rw [handleCount_append_some_ne _ _ _ (fun hc => heq hc.symm)] at hcnt
            obtain ⟨y, hy, hyeid⟩ := hvalid eid2 hcnt
            exact ⟨y, List.mem_append.mpr (Or.inl hy), hyeid⟩
        · rw [hshard, hloop]
          refine ⟨⟨st.shard.nextEid, cstr raw, hashSlice raw⟩, ⟨st.shard.nextEid, cstr raw, hashSlice raw, v, c, 2⟩, ?_, ?_, rfl, rfl⟩
          · show tEntries (st.shard.table.insert ⟨st.shard.nextEid, cstr raw, hashSlice raw⟩).1 = [(⟨st.shard.nextEid, cstr raw, hashSlice raw⟩ : TEntry)]
            exact htenew
          · show (⟨st.shard.nextEid, cstr raw, hashSlice raw, v, c, 2⟩ : Entry) ∈ st.shard.heap ++ [(⟨st.shard.nextEid, cstr raw, hashSlice raw, v, c, 2⟩ : Entry)]
            exact List.mem_append.mpr (Or.inr (by simp))
      · exfalso
        have hmemnew : (⟨st.shard.nextEid, cstr raw, hashSlice raw, v, c, 2⟩ : Entry) ∈ ({ st.shard with heap := st.shard.heap ++ [(⟨st.shard.nextEid, cstr raw, hashSlice raw, v, c, 2⟩ : Entry)], lru := [st.shard.nextEid], usage := st.shard.usage + c, nextEid := st.shard.nextEid + 1, table := (st.shard.table.insert ⟨st.shard.nextEid, cstr raw, hashSlice raw⟩).1 } : Shard).heap := List.mem_append.mpr (Or.inr (by simp))
        have hfe : findE st.shard.nextEid ({ st.shard with heap := st.shard.heap ++ [(⟨st.shard.nextEid, cstr raw, hashSlice raw, v, c, 2⟩ : Entry)], lru := [st.shard.nextEid], usage := st.shard.usage + c, nextEid := st.shard.nextEid + 1, table := (st.shard.table.insert ⟨st.shard.nextEid, cstr raw, hashSlice raw⟩).1 } : Shard).heap = some (⟨st.shard.nextEid, cstr raw, hashSlice raw, v, c, 2⟩ : Entry) :=
          findE_of_mem hS3inv.2.1 hmemnew
        obtain ⟨huse, hcape⟩ := evictLoop_usage_of_pinned { st.shard with heap := st.shard.heap ++ [(⟨st.shard.nextEid, cstr raw, hashSlice raw, v, c, 2⟩ : Entry)], lru := [st.shard.nextEid], usage := st.shard.usage + c, nextEid := st.shard.nextEid + 1, table := (st.shard.table.insert ⟨st.shard.nextEid, cstr raw, hashSlice raw⟩).1 } st.shard.nextEid (⟨st.shard.nextEid, cstr raw, hashSlice raw, v, c, 2⟩ : Entry) rfl hfe (by show ¬ (2 : Nat) ≤ 1; omega) husg
        rw [hshard] at husgok
        rw [huse, hcape] at husgok
        exact husg husgok
  | some v0 =>
      obtain ⟨te, e, hte, hemem, heeid, heval⟩ := hbind
      obtain ⟨e2, he2, he2eid, he2key, he2hash⟩ :=
        hsinv.2.2.2.2.2.1 te (by rw [hte]; exact List.mem_cons_self _ _)
      obtain ⟨hk2, hh2, _⟩ := hbook e2 he2
      have htkey : te.key = cstr raw := by rw [← he2key, hk2]
      have hthash : te.hash = hashSlice raw := by rw [← he2hash, hh2]
      have hlrueq : st.shard.lru = [te.eid] := lru_of_tEntries_singleton _ hsinv te hte
      have hteidlt : te.eid < st.shard.nextEid := by
        rw [← heeid]
        exact (hsinv.2.2.1 e hemem).1
      have hnewne : st.shard.nextEid ≠ te.eid := by omega
      obtain ⟨hins1, hinsnone, hinssome⟩ := table_insert_props st.shard.table ⟨st.shard.nextEid, cstr raw, hashSlice raw⟩ hsinv.2.2.2.2.1
      have hd : (st.shard.table.insert ⟨st.shard.nextEid, cstr raw, hashSlice raw⟩).2 = some te := by
        cases hd2 : (st.shard.table.insert ⟨st.shard.nextEid, cstr raw, hashSlice raw⟩).2 with
        | none =>
            exfalso
            have hp := (hinsnone hd2).map (fun te2 => (te2.key, te2.hash))
            have hnd2 := hp.nodup hins1.2.2.1
            rw [hte] at hnd2
            simp only [List.map_cons, List.map_nil] at hnd2
            refine (List.nodup_cons.mp hnd2).1 ?_
            rw [htkey, hthash]
            exact List.mem_singleton_self _
        | some o =>
            obtain ⟨_, _, homem, _⟩ := hinssome o hd2
            have hb : o ∈ [te] := by
              rw [← hte]
              exact homem
            rw [List.mem_singleton.mp hb]
      obtain ⟨_, _, _, R, hpermt, hpermR⟩ := hinssome te hd
      have hR : R = [] := by
        rw [hte] at hpermt
        exact (List.Perm.cons_inv hpermt).symm.eq_nil
      have htenew : tEntries (st.shard.table.insert ⟨st.shard.nextEid, cstr raw, hashSlice raw⟩).1 = [(⟨st.shard.nextEid, cstr raw, hashSlice raw⟩ : TEntry)] := by
        rw [hR] at hpermR
        exact List.perm_singleton.mp hpermR
      have hlrfix : lruRemove te.eid (st.shard.lru ++ [st.shard.nextEid]) = [st.shard.nextEid] := by
        rw [hlrueq]
        show lruRemove te.eid (te.eid :: [st.shard.nextEid]) = [st.shard.nextEid]
        rw [lruRemove_cons_self]
      have hsmidinv : SInv { st.shard with heap := st.shard.heap ++ [(⟨st.shard.nextEid, cstr raw, hashSlice raw, v, c, 2⟩ : Entry)], lru := [st.shard.nextEid], usage := st.shard.usage + c, nextEid := st.shard.nextEid + 1, table := (st.shard.table.insert ⟨st.shard.nextEid, cstr raw, hashSlice raw⟩).1 } :=
        SInv_insert_over st.shard (cstr raw) (hashSlice raw) v c hsinv htenew
      have hshard : (kStep raw st (KOp.ins v c)).shard = evictLoop (Shard.unref { st.shard with heap := st.shard.heap ++ [(⟨st.shard.nextEid, cstr raw, hashSlice raw, v, c, 2⟩ : Entry)], lru := [st.shard.nextEid], usage := st.shard.usage + c, nextEid := st.shard.nextEid + 1, table := (st.shard.table.insert ⟨st.shard.nextEid, cstr raw, hashSlice raw⟩).1 } te.eid) := by
        simp only [kStep, cacheInsert, Shard.insertOp]
        cases hd2 : (st.shard.table.insert ⟨st.shard.nextEid, cstr raw, hashSlice raw⟩).2 with
        | none => exact absurd (hd2.symm.trans hd) (by simp)
        | some o =>
            have ho : o = te := Option.some_inj.mp (hd2.symm.trans hd)
            subst ho
            show evictLoop (Shard.unref { st.shard with heap := st.shard.heap ++ [(⟨st.shard.nextEid, cstr raw, hashSlice raw, v, c, 2⟩ : Entry)], lru := lruRemove o.eid (st.shard.lru ++ [st.shard.nextEid]), usage := st.shard.usage + c, nextEid := st.shard.nextEid + 1, table := (st.shard.table.insert ⟨st.shard.nextEid, cstr raw, hashSlice raw⟩).1 } o.eid) = _
            rw [hlrfix]
      obtain ⟨hsu3, hcap3, hlru3, htab3, _, _⟩ :=
        SInv_unref_detached { st.shard with heap := st.shard.heap ++ [(⟨st.shard.nextEid, cstr raw, hashSlice raw, v, c, 2⟩ : Entry)], lru := [st.shard.nextEid], usage := st.shard.usage + c, nextEid := st.shard.nextEid + 1, table := (st.shard.table.insert ⟨st.shard.nextEid, cstr raw, hashSlice raw⟩).1 } te.eid hsmidinv
          (by
            intro te2 hte2 hc
            have hte2b : te2 ∈ tEntries (st.shard.table.insert ⟨st.shard.nextEid, cstr raw, hashSlice raw⟩).1 := hte2
            rw [htenew] at hte2b
            rw [List.mem_singleton.mp hte2b] at hc
            exact hnewne hc)
          (by
            show te.eid ∉ ([st.shard.nextEid] : List Nat)
            simpa using Ne.symm hnewne)
      have hfe : findE te.eid ({ st.shard with heap := st.shard.heap ++ [(⟨st.shard.nextEid, cstr raw, hashSlice raw, v, c, 2⟩ : Entry)], lru := [st.shard.nextEid], usage := st.shard.usage + c, nextEid := st.shard.nextEid + 1, table := (st.shard.table.insert ⟨st.shard.nextEid, cstr raw, hashSlice raw⟩).1 } : Shard).heap = some e := by
        show findE te.eid (st.shard.heap ++ [(⟨st.shard.nextEid, cstr raw, hashSlice raw, v, c, 2⟩ : Entry)]) = some e
        rw [← heeid]
        exact findE_of_mem hsmidinv.2.1 (List.mem_append.mpr (Or.inl hemem))
      obtain ⟨_, _, herefs⟩ := hbook e hemem
      rw [heeid, hlrueq, if_pos (List.mem_singleton_self te.eid)] at herefs
      by_cases hcnt0 : handleCount st.handles te.eid = 0
      · have hr1 : e.refs ≤ 1 := by omega
        have hunref := unref_destroy { st.shard with heap := st.shard.heap ++ [(⟨st.shard.nextEid, cstr raw, hashSlice raw, v, c, 2⟩ : Entry)], lru := [st.shard.nextEid], usage := st.shard.usage + c, nextEid := st.shard.nextEid + 1, table := (st.shard.table.insert ⟨st.shard.nextEid, cstr raw, hashSlice raw⟩).1 } te.eid e hfe hr1
        have hmemnew : (⟨st.shard.nextEid, cstr raw, hashSlice raw, v, c, 2⟩ : Entry) ∈ (Shard.unref { st.shard with heap := st.shard.heap ++ [(⟨st.shard.nextEid, cstr raw, hashSlice raw, v, c, 2⟩ : Entry)], lru := [st.shard.nextEid], usage := st.shard.usage + c, nextEid := st.shard.nextEid + 1, table := (st.shard.table.insert ⟨st.shard.nextEid, cstr raw, hashSlice raw⟩).1 } te.eid).heap := by
          rw [hunref]
          show (⟨st.shard.nextEid, cstr raw, hashSlice raw, v, c, 2⟩ : Entry) ∈ dropE te.eid (st.shard.heap ++ [(⟨st.shard.nextEid, cstr raw, hashSlice raw, v, c, 2⟩ : Entry)])
          exact mem_dropE.mpr ⟨List.mem_append.mpr (Or.inr (by simp)), hnewne⟩
        by_cases husg : st.shard.usage + c - e.charge ≤ st.shard.capacity
        · have husg2 : (Shard.unref { st.shard with heap := st.shard.heap ++ [(⟨st.shard.nextEid, cstr raw, hashSlice raw, v, c, 2⟩ : Entry)], lru := [st.shard.nextEid], usage := st.shard.usage + c, nextEid := st.shard.nextEid + 1, table := (st.shard.table.insert ⟨st.shard.nextEid, cstr raw, hashSlice raw⟩).1 } te.eid).usage ≤ (Shard.unref { st.shard with heap := st.shard.heap ++ [(⟨st.shard.nextEid, cstr raw, hashSlice raw, v, c, 2⟩ : Entry)], lru := [st.shard.nextEid], usage := st.shard.usage + c, nextEid := st.shard.nextEid + 1, table := (st.shard.table.insert ⟨st.shard.nextEid, cstr raw, hashSlice raw⟩).1 } te.eid).capacity := by
            rw [hunref]
            exact husg
          have hloop : evictLoop (Shard.unref { st.shard with heap := st.shard.heap ++ [(⟨st.shard.nextEid, cstr raw, hashSlice raw, v, c, 2⟩ : Entry)], lru := [st.shard.nextEid], usage := st.shard.usage + c, nextEid := st.shard.nextEid + 1, table := (st.shard.table.insert ⟨st.shard.nextEid, cstr raw, hashSlice raw⟩).1 } te.eid) = Shard.unref { st.shard with heap := st.shard.heap ++ [(⟨st.shard.nextEid, cstr raw, hashSlice raw, v, c, 2⟩ : Entry)], lru := [st.shard.nextEid], usage := st.shard.usage + c, nextEid := st.shard.nextEid + 1, table := (st.shard.table.insert ⟨st.shard.nextEid, cstr raw, hashSlice raw⟩).1 } te.eid :=
            evictLoop_of_le _ husg2
          refine ⟨?_, ?_, ?_, ?_, ?_⟩
          · rw [hshard, hloop]
            exact hsu3
          · rw [hshard, hloop, hcap3]
            exact hcap
          · rw [hshard, hloop, hhandles]
            intro e3 he3
            have he3b : e3 ∈ dropE te.eid (st.shard.heap ++ [(⟨st.shard.nextEid, cstr raw, hashSlice raw, v, c, 2⟩ : Entry)]) := by
              rw [hunref] at he3
              exact he3
            obtain ⟨hmm0, hne0⟩ := mem_dropE.mp he3b
            rw [hlru3]
            rcases List.mem_append.mp hmm0 with h1 | h1
            · obtain ⟨hk1, hh1, hr1b⟩ := hbook e3 h1
              have hne1 : e3.eid ≠ st.shard.nextEid := by
                have := (hsinv.2.2.1 e3 h1).1
                omega
              refine ⟨hk1, hh1, ?_⟩
              show e3.refs = handleCount (st.handles ++ [some st.shard.nextEid]) e3.eid + (if e3.eid ∈ ([st.shard.nextEid] : List Nat) then 1 else 0)
              rw [handleCount_append_some_ne _ _ _ (Ne.symm hne1), if_neg (by simpa using hne1)]
              rw [hlrueq, if_neg (by simpa using hne0)] at hr1b
              omega
            · obtain h1b := List.mem_singleton.mp h1
              rw [h1b]
              refine ⟨rfl, rfl, ?_⟩
              show 2 = handleCount (st.handles ++ [some st.shard.nextEid]) st.shard.nextEid + (if st.shard.nextEid ∈ ([st.shard.nextEid] : List Nat) then 1 else 0)
              rw [handleCount_append_some_self, if_pos (List.mem_singleton_self st.shard.nextEid), hfreshcnt]
          · rw [hshard, hloop, hhandles]
            intro eid2 hcnt
            by_cases heq : eid2 = st.shard.nextEid
            · refine ⟨⟨st.shard.nextEid, cstr raw, hashSlice raw, v, c, 2⟩, hmemnew, ?_⟩
              show st.shard.nextEid = eid2
              rw [heq]
            · rw [handleCount_append_some_ne _ _ _ (fun hc => heq hc.symm)] at hcnt
              have hne2 : eid2 ≠ te.eid := by
                intro hc
                rw [hc] at hcnt
                omega
              obtain ⟨y, hy, hyeid⟩ := hvalid eid2 hcnt
              refine ⟨y, ?_, hyeid⟩
              rw [hunref]
              show y ∈ dropE te.eid (st.shard.heap ++ [(⟨st.shard.nextEid, cstr raw, hashSlice raw, v, c, 2⟩ : Entry)])
              exact mem_dropE.mpr ⟨List.mem_append.mpr (Or.inl hy), by rw [hyeid]; exact hne2⟩
          · rw [hshard, hloop]
            refine ⟨⟨st.shard.nextEid, cstr raw, hashSlice raw⟩, ⟨st.shard.nextEid, cstr raw, hashSlice raw, v, c, 2⟩, ?_, hmemnew, rfl, rfl⟩
            show tEntries (Shard.unref { st.shard with heap := st.shard.heap ++ [(⟨st.shard.nextEid, cstr raw, hashSlice raw, v, c, 2⟩ : Entry)], lru := [st.shard.nextEid], usage := st.shard.usage + c, nextEid := st.shard.nextEid + 1, table := (st.shard.table.insert ⟨st.shard.nextEid, cstr raw, hashSlice raw⟩).1 } te.eid).table = [(⟨st.shard.nextEid, cstr raw, hashSlice raw⟩ : TEntry)]
            rw [htab3]
            exact htenew
        · exfalso
          have hfe2 : findE st.shard.nextEid (Shard.unref { st.shard with heap := st.shard.heap ++ [(⟨st.shard.nextEid, cstr raw, hashSlice raw, v, c, 2⟩ : Entry)], lru := [st.shard.nextEid], usage := st.shard.usage + c, nextEid := st.shard.nextEid + 1, table := (st.shard.table.insert ⟨st.shard.nextEid, cstr raw, hashSlice raw⟩).1 } te.eid).heap = some (⟨st.shard.nextEid, cstr raw, hashSlice raw, v, c, 2⟩ : Entry) :=
            findE_of_mem hsu3.2.1 hmemnew
          have husg2 : ¬ (Shard.unref { st.shard with heap := st.shard.heap ++ [(⟨st.shard.nextEid, cstr raw, hashSlice raw, v, c, 2⟩ : Entry)], lru := [st.shard.nextEid], usage := st.shard.usage + c, nextEid := st.shard.nextEid + 1, table := (st.shard.table.insert ⟨st.shard.nextEid, cstr raw, hashSlice raw⟩).1 } te.eid).usage ≤ (Shard.unref { st.shard with heap := st.shard.heap ++ [(⟨st.shard.nextEid, cstr raw, hashSlice raw, v, c, 2⟩ : Entry)], lru := [st.shard.nextEid], usage := st.shard.usage + c, nextEid := st.shard.nextEid + 1, table := (st.shard.table.insert ⟨st.shard.nextEid, cstr raw, hashSlice raw⟩).1 } te.eid).capacity := by
            rw [hunref]
            exact husg
          obtain ⟨huse, hcape⟩ := evictLoop_usage_of_pinned (Shard.unref { st.shard with heap := st.shard.heap ++ [(⟨st.shard.nextEid, cstr raw, hashSlice raw, v, c, 2⟩ : Entry)], lru := [st.shard.nextEid], usage := st.shard.usage + c, nextEid := st.shard.nextEid + 1, table := (st.shard.table.insert ⟨st.shard.nextEid, cstr raw, hashSlice raw⟩).1 } te.eid) st.shard.nextEid (⟨st.shard.nextEid, cstr raw, hashSlice raw, v, c, 2⟩ : Entry) (by rw [hlru3]) hfe2 (by show ¬ (2 : Nat) ≤ 1; omega) husg2
          rw [hshard] at husgok
          rw [huse, hcape] at husgok
          exact husg2 husgok
      · have h2r : 2 ≤ e.refs := by omega
        have hr : ¬ e.refs ≤ 1 := by omega
        have hunref := unref_dec { st.shard with heap := st.shard.heap ++ [(⟨st.shard.nextEid, cstr raw, hashSlice raw, v, c, 2⟩ : Entry)], lru := [st.shard.nextEid], usage := st.shard.usage + c, nextEid := st.shard.nextEid + 1, table := (st.shard.table.insert ⟨st.shard.nextEid, cstr raw, hashSlice raw⟩).1 } te.eid e hfe hr
        have hmemnew : (⟨st.shard.nextEid, cstr raw, hashSlice raw, v, c, 2⟩ : Entry) ∈ (Shard.unref { st.shard with heap := st.shard.heap ++ [(⟨st.shard.nextEid, cstr raw, hashSlice raw, v, c, 2⟩ : Entry)], lru := [st.shard.nextEid], usage := st.shard.usage + c, nextEid := st.shard.nextEid + 1, table := (st.shard.table.insert ⟨st.shard.nextEid, cstr raw, hashSlice raw⟩).1 } te.eid).heap := by
          rw [hunref]
          show (⟨st.shard.nextEid, cstr raw, hashSlice raw, v, c, 2⟩ : Entry) ∈ decRef te.eid (st.shard.heap ++ [(⟨st.shard.nextEid, cstr raw, hashSlice raw, v, c, 2⟩ : Entry)])
          exact decRef_mem_ne (List.mem_append.mpr (Or.inr (by simp))) hnewne
        by_cases husg : st.shard.usage + c ≤ st.shard.capacity
        · have husg2 : (Shard.unref { st.shard with heap := st.shard.heap ++ [(⟨st.shard.nextEid, cstr raw, hashSlice raw, v, c, 2⟩ : Entry)], lru := [st.shard.nextEid], usage := st.shard.usage + c, nextEid := st.shard.nextEid + 1, table := (st.shard.table.insert ⟨st.shard.nextEid, cstr raw, hashSlice raw⟩).1 } te.eid).usage ≤ (Shard.unref { st.shard with heap := st.shard.heap ++ [(⟨st.shard.nextEid, cstr raw, hashSlice raw, v, c, 2⟩ : Entry)], lru := [st.shard.nextEid], usage := st.shard.usage + c, nextEid := st.shard.nextEid + 1, table := (st.shard.table.insert ⟨st.shard.nextEid, cstr raw, hashSlice raw⟩).1 } te.eid).capacity := by
            rw [hunref]
            exact husg
          have hloop : evictLoop (Shard.unref { st.shard with heap := st.shard.heap ++ [(⟨st.shard.nextEid, cstr raw, hashSlice raw, v, c, 2⟩ : Entry)], lru := [st.shard.nextEid], usage := st.shard.usage + c, nextEid := st.shard.nextEid + 1, table := (st.shard.table.insert ⟨st.shard.nextEid, cstr raw, hashSlice raw⟩).1 } te.eid) = Shard.unref { st.shard with heap := st.shard.heap ++ [(⟨st.shard.nextEid, cstr raw, hashSlice raw, v, c, 2⟩ : Entry)], lru := [st.shard.nextEid], usage := st.shard.usage + c, nextEid := st.shard.nextEid + 1, table := (st.shard.table.insert ⟨st.shard.nextEid, cstr raw, hashSlice raw⟩).1 } te.eid :=
            evictLoop_of_le _ husg2
          refine ⟨?_, ?_, ?_, ?_, ?_⟩
          · rw [hshard, hloop]
            exact hsu3
          · rw [hshard, hloop, hcap3]
            exact hcap
          · rw [hshard, hloop, hhandles]
            intro e3 he3
            have he3b : e3 ∈ decRef te.eid (st.shard.heap ++ [(⟨st.shard.nextEid, cstr raw, hashSlice raw, v, c, 2⟩ : Entry)]) := by
              rw [hunref] at he3
              exact he3
            obtain ⟨x, hx, hor⟩ := mem_decRef he3b
            rw [hlru3]
            rcases hor with ⟨hxeid, h3⟩ | ⟨hxeid, h3⟩
            · have hx2 : x ∈ st.shard.heap := by
                rcases List.mem_append.mp hx with h4 | h4
                · exact h4
                · rw [List.mem_singleton.mp h4] at hxeid
                  exact absurd hxeid hnewne
              have hxe : x = e := List.inj_on_of_nodup_map hsinv.2.1 hx2 hemem (by rw [hxeid, heeid])
              rw [h3]
              obtain ⟨hxkey, hxhash, _⟩ := hbook x hx2
              refine ⟨hxkey, hxhash, ?_⟩
              show x.refs - 1 = handleCount (st.handles ++ [some st.shard.nextEid]) x.eid + (if x.eid ∈ ([st.shard.nextEid] : List Nat) then 1 else 0)
              have hne1 : x.eid ≠ st.shard.nextEid := by
                rw [hxeid]
                exact Ne.symm hnewne
              rw [handleCount_append_some_ne _ _ _ (Ne.symm hne1), if_neg (by simpa using hne1), hxeid, hxe]
              omega
            · rw [h3]
              rcases List.mem_append.mp hx with h4 | h4
              · obtain ⟨hk1, hh1, hr1b⟩ := hbook x h4
                have hne1 : x.eid ≠ st.shard.nextEid := by
                  have := (hsinv.2.2.1 x h4).1
                  omega
                refine ⟨hk1, hh1, ?_⟩
                show x.refs = handleCount (st.handles ++ [some st.shard.nextEid]) x.eid + (if x.eid ∈ ([st.shard.nextEid] : List Nat) then 1 else 0)
                rw [handleCount_append_some_ne _ _ _ (Ne.symm hne1), if_neg (by simpa using hne1)]
                rw [hlrueq, if_neg (by simpa using hxeid)] at hr1b
                omega
              · rw [List.mem_singleton.mp h4]
                refine ⟨rfl, rfl, ?_⟩
                show 2 = handleCount (st.handles ++ [some st.shard.nextEid]) st.shard.nextEid + (if st.shard.nextEid ∈ ([st.shard.nextEid] : List Nat) then 1 else 0)
                rw [handleCount_append_some_self, if_pos (List.mem_singleton_self st.shard.nextEid), hfreshcnt]
          · rw [hshard, hloop, hhandles]
            intro eid2 hcnt
            by_cases heq : eid2 = st.shard.nextEid
            · refine ⟨⟨st.shard.nextEid, cstr raw, hashSlice raw, v, c, 2⟩, hmemnew, ?_⟩
              show st.shard.nextEid = eid2
              rw [heq]
            · rw [handleCount_append_some_ne _ _ _ (fun hc => heq hc.symm)] at hcnt
              obtain ⟨y, hy, hyeid⟩ := hvalid eid2 hcnt
              by_cases hyte : y.eid = te.eid
              · refine ⟨{ y with refs := y.refs - 1 }, ?_, hyeid⟩
                rw [hunref]
                show { y with refs := y.refs - 1 } ∈ decRef te.eid (st.shard.heap ++ [(⟨st.shard.nextEid, cstr raw, hashSlice raw, v, c, 2⟩ : Entry)])
                exact decRef_mem_self (List.mem_append.mpr (Or.inl hy)) hyte
              · refine ⟨y, ?_, hyeid⟩
                rw [hunref]
                show y ∈ decRef te.eid (st.shard.heap ++ [(⟨st.shard.nextEid, cstr raw, hashSlice raw, v, c, 2⟩ : Entry)])
                exact decRef_mem_ne (List.mem_append.mpr (Or.inl hy)) hyte
          · rw [hshard, hloop]
            refine ⟨⟨st.shard.nextEid, cstr raw, hashSlice raw⟩, ⟨st.shard.nextEid, cstr raw, hashSlice raw, v, c, 2⟩, ?_, hmemnew, rfl, rfl⟩
            show tEntries (Shard.unref { st.shard with heap := st.shard.heap ++ [(⟨st.shard.nextEid, cstr raw, hashSlice raw, v, c, 2⟩ : Entry)], lru := [st.shard.nextEid], usage := st.shard.usage + c, nextEid := st.shard.nextEid + 1, table := (st.shard.table.insert ⟨st.shard.nextEid, cstr raw, hashSlice raw⟩).1 } te.eid).table = [(⟨st.shard.nextEid, cstr raw, hashSlice raw⟩ : TEntry)]
            rw [htab3]
            exact htenew
        · exfalso
          have hfe2 : findE st.shard.nextEid (Shard.unref { st.shard with heap := st.shard.heap ++ [(⟨st.shard.nextEid, cstr raw, hashSlice raw, v, c, 2⟩ : Entry)], lru := [st.shard.nextEid], usage := st.shard.usage + c, nextEid := st.shard.nextEid + 1, table := (st.shard.table.insert ⟨st.shard.nextEid, cstr raw, hashSlice raw⟩).1 } te.eid).heap = some (⟨st.shard.nextEid, cstr raw, hashSlice raw, v, c, 2⟩ : Entry) :=
            findE_of_mem hsu3.2.1 hmemnew
          have husg2 : ¬ (Shard.unref { st.shard with heap := st.shard.heap ++ [(⟨st.shard.nextEid, cstr raw, hashSlice raw, v, c, 2⟩ : Entry)], lru := [st.shard.nextEid], usage := st.shard.usage + c, nextEid := st.shard.nextEid + 1, table := (st.shard.table.insert ⟨st.shard.nextEid, cstr raw, hashSlice raw⟩).1 } te.eid).usage ≤ (Shard.unref { st.shard with heap := st.shard.heap ++ [(⟨st.shard.nextEid, cstr raw, hashSlice raw, v, c, 2⟩ : Entry)], lru := [st.shard.nextEid], usage := st.shard.usage + c, nextEid := st.shard.nextEid + 1, table := (st.shard.table.insert ⟨st.shard.nextEid, cstr raw, hashSlice raw⟩).1 } te.eid).capacity := by
            rw [hunref]
            exact husg
          obtain ⟨huse, hcape⟩ := evictLoop_usage_of_pinned (Shard.unref { st.shard with heap := st.shard.heap ++ [(⟨st.shard.nextEid, cstr raw, hashSlice raw, v, c, 2⟩ : Entry)], lru := [st.shard.nextEid], usage := st.shard.usage + c, nextEid := st.shard.nextEid + 1, table := (st.shard.table.insert ⟨st.shard.nextEid, cstr raw, hashSlice raw⟩).1 } te.eid) st.shard.nextEid (⟨st.shard.nextEid, cstr raw, hashSlice raw, v, c, 2⟩ : Entry) (by rw [hlru3]) hfe2 (by show ¬ (2 : Nat) ≤ 1; omega) husg2
          rw [hshard] at husgok
          rw [huse, hcape] at husgok
          exact husg2 husgok

theorem kRun_inv (raw : List Nat) (cap : Nat) : ∀ (ops : List KOp) (st : KState) (b : Option Nat),
    KInv raw cap st b → (kRun raw st ops).ok = true →
    KInv raw cap (kRun raw st ops) (ops.foldl bStep b)
  | [], _, _, hinv, _ => hinv
  | op :: ops, st, b, hinv, hok => by
      have hok2 : (kRun raw (kStep raw st op) ops).ok = true := hok
      have hstepok : (kStep raw st op).ok = true := kRun_ok_mono raw ops _ hok2
      have hstep : KInv raw cap (kStep raw st op) (bStep b op) := by
        cases op with
        | ins v c => exact kStep_inv_ins raw cap st b v c hinv hstepok
        | look => exact kStep_inv_look raw cap st b hinv
        | er => exact kStep_inv_er raw cap st b hinv
        | rel i => exact kStep_inv_rel raw cap st b i hinv
      exact kRun_inv raw cap ops (kStep raw st op) (bStep b op) hstep hok2

/-- Claim C3 (amended): for every sequence of Insert/Lookup/Erase/Release
operations on a single key, provided the shard's usage counter stayed
within its capacity after every operation of the run (otherwise an Insert
whose charge overflows the capacity evicts its own just-inserted entry
inside that same Insert, see the counterexample), a Lookup of the key
returns a handle to the value supplied by the most recent Insert of the key
that has not been superseded by another Insert and not removed by Erase;
if no such Insert exists, the Lookup reports a miss. -/
theorem single_key_lookup_consistency (raw : List Nat) (cap : Nat) (ops : List KOp)
    (hok : (kRun raw (kInit cap) ops).ok = true) :
    lookupValue (kRun raw (kInit cap) ops).shard (cstr raw) (hashSlice raw) = lastBinding ops := by
  have hinv := kRun_inv raw cap ops (kInit cap) none (KInv_init raw cap) hok
  have hlast : lastBinding ops = ops.foldl bStep none := lastBinding_foldl ops none
  rw [hlast]
  obtain ⟨hsinv, _, hbook, _, hbind⟩ := hinv
  cases hb : ops.foldl bStep none with
  | none =>
      rw [hb] at hbind
      have hbind2 : tEntries (kRun raw (kInit cap) ops).shard.table = [] := hbind
      have hlk := lookup_of_tEntries_nil _ hbind2 (cstr raw) (hashSlice raw)
      simp only [lookupValue]
      rw [hlk]
  | some v =>
      rw [hb] at hbind
      obtain ⟨te, e, hte, hemem, heeid, heval⟩ := hbind
      obtain ⟨e2, he2, he2eid, he2key, he2hash⟩ :=
        hsinv.2.2.2.2.2.1 te (by rw [hte]; exact List.mem_cons_self _ _)
      obtain ⟨hk2, hh2, _⟩ := hbook e2 he2
      have htkey : te.key = cstr raw := by rw [← he2key, hk2]
      have hthash : te.hash = hashSlice raw := by rw [← he2hash, hh2]
      have hlk := lookup_of_tEntries_singleton _ hsinv.2.2.2.2.1 te hte _ _ htkey hthash
      have hfe : findE te.eid (kRun raw (kInit cap) ops).shard.heap = some e := by
        rw [← heeid]
        exact findE_of_mem hsinv.2.1 hemem
      simp only [lookupValue]
      rw [hlk]
      show (match findE te.eid (kRun raw (kInit cap) ops).shard.heap with
        | none => (none : Option Nat)
        | some e3 => some e3.value) = some v
      rw [hfe]
      show some e.value = some v
      rw [heval]

theorem single_key_lookup_consistency_witness :
    (kRun [65] (kInit 10) [KOp.ins 5 1, KOp.look]).ok = true ∧
    lookupValue (kRun [65] (kInit 10) [KOp.ins 5 1, KOp.look]).shard (cstr [65]) (hashSlice [65]) =
      lastBinding [KOp.ins 5 1, KOp.look] :=
  ⟨by decide, single_key_lookup_consistency [65] 10 [KOp.ins 5 1, KOp.look] (by decide)⟩

/-- Counterexample to claim C3 as stated: on a capacity-0 shard, Insert of
value 5 with charge 1 overflows the capacity and the eviction loop inside
that very Insert evicts the freshly inserted entry, so the following Lookup
misses although the binding (value 5) was never superseded by another
Insert nor removed by Erase. -/
theorem single_key_lookup_counterexample :
    lookupValue (kRun [65] (kInit 0) [KOp.ins 5 1, KOp.look]).shard (cstr [65]) (hashSlice [65])
      = none ∧
    lastBinding [KOp.ins 5 1, KOp.look] = some 5 := by decide

end LruCache
